import Mathlib

/-!
Verification of `update_tokens.py`, a one-shot source-to-source rewriter for
`tokens.go` files.  The script is embedded shallowly: file contents are
`List Char`, each Python function becomes a Lean function with the same name,
and the two regular expressions of the script
(`\bconst\s*\(` and `(\s*)([A-Z_]+)\s*=\s*"(govel\.[^"]+)"`)
are embedded as deterministic scanners — both patterns are backtracking-free
because every quantified character class is disjoint from the character that
follows it, so the greedy leftmost match of Python's `re` engine coincides
with the scan implemented here.  Character classes (`\s`, `\w`, `[A-Z_]`) are
embedded at their ASCII meaning, which covers every character the script's
fixed tokens and the claims involve.
-/

set_option autoImplicit false

namespace UpdateTokens

/-- Python `\s` (ASCII part): space, tab, newline, carriage return, vertical tab, form feed. -/
def isPySpace (c : Char) : Bool :=
  c.toNat = 32 || c.toNat = 9 || c.toNat = 10 || c.toNat = 13 || c.toNat = 11 || c.toNat = 12

/-- Python `\w` (ASCII part), used for the `\b` word boundary: letters, digits, underscore. -/
def isWordChar (c : Char) : Bool :=
  (65 ≤ c.toNat && c.toNat ≤ 90) || (97 ≤ c.toNat && c.toNat ≤ 122) ||
  (48 ≤ c.toNat && c.toNat ≤ 57) || c.toNat = 95

/-- The character class `[A-Z_]` of the literal-rewrite pattern. -/
def isCapU (c : Char) : Bool :=
  (65 ≤ c.toNat && c.toNat ≤ 90) || c.toNat = 95

/-- Python `content.split('\n')`. -/
def splitNL : List Char → List (List Char)
  | [] => [[]]
  | c :: rest =>
    if c = '\n' then [] :: splitNL rest
    else
      match splitNL rest with
      | [] => [[c]]
      | l :: ls => (c :: l) :: ls

/-- Python `'\n'.join(lines)`. -/
def joinNL : List (List Char) → List Char
  | [] => []
  | [l] => l
  | l :: ls => l ++ '\n' :: joinNL ls

/-- Python `line.strip()` (whitespace from both ends). -/
def stripL (l : List Char) : List Char :=
  ((l.dropWhile isPySpace).reverse.dropWhile isPySpace).reverse

/-- Number of positions of `s` at which `pat` occurs as a contiguous substring. -/
def countOccs (pat : List Char) : List Char → Nat
  | [] => 0
  | c :: rest => (if pat.isPrefixOf (c :: rest) then 1 else 0) + countOccs pat rest

/-- Python's substring test `pat in s`. -/
def containsTok (pat : List Char) : List Char → Bool
  | [] => pat.isEmpty
  | c :: rest => pat.isPrefixOf (c :: rest) || containsTok pat rest

/-- Python `list.insert(n, x)` (clamping at the end, as Python does). -/
def insAt {α : Type} (x : α) : Nat → List α → List α
  | 0, l => x :: l
  | _ + 1, [] => [x]
  | n + 1, c :: cs => c :: insAt x n cs

/-- Python `l[n] = x` (in the script the index is always in range; out of range is a no-op here). -/
def setAt {α : Type} (x : α) : Nat → List α → List α
  | _, [] => []
  | 0, _ :: cs => x :: cs
  | n + 1, c :: cs => c :: setAt x n cs

/-! Fixed string constants of the script. -/

def pkgTok : List Char := "package ".data

def importPathTok : List Char := "\"govel/packages/support/src/symbol\"".data

def importLineTok : List Char := "import \"govel/packages/support/src/symbol\"".data

def symEntryTok : List Char := '\t' :: importPathTok

def impOpenTok : List Char := "import (".data

def impSpaceTok : List Char := "import ".data

def impTok : List Char := "import".data

def rparenLine : List Char := [')']

def errNoPkg : List Char := "No package declaration found".data

def symbolForTok : List Char := "symbol.For(".data

/-- Source `has_symbol_import`: the two substring tests, joined by `or`. -/
def has_symbol_import (content : List Char) : Bool :=
  containsTok importLineTok content || containsTok importPathTok content

/-! The import-scanning loop of `add_symbol_import`. -/

/-- Outcome of the loop scanning for the first import construct after the package line. -/
inductive ScanRes where
  | noImports : ScanRes
  | multi (istart iend : Nat) : ScanRes
  | multiNoClose : ScanRes
  | single (i : Nat) (st : List Char) : ScanRes
  | weird : ScanRes
deriving DecidableEq, Repr

/-- Source loop `for j in range(i+1, ...): if lines[j].strip() == ')': import_end = j; break`. -/
def findClose (i : Nat) : List (List Char) → Option Nat
  | [] => none
  | l :: rest => if stripL l = rparenLine then some i else findClose (i + 1) rest

/-- Source loop `for i in range(package_line+1, len(lines))` of `add_symbol_import`.
`hasImp` is the `has_imports` flag; `i` is the absolute index of the head of the
remaining line list.  A stripped line that begins with `import` but matches neither
`import (` nor `import ` (for example `import("x")`) sets the flag and lets the
loop continue, exactly as the source does. -/
def scanImp (hasImp : Bool) (i : Nat) : List (List Char) → ScanRes
  | [] => if hasImp then ScanRes.weird else ScanRes.noImports
  | l :: rest =>
    let st := stripL l
    if st.isEmpty then scanImp hasImp (i + 1) rest
    else if impOpenTok.isPrefixOf st then
      match findClose (i + 1) rest with
      | some j => ScanRes.multi i j
      | none => ScanRes.multiNoClose
    else if impSpaceTok.isPrefixOf st then ScanRes.single i st
    else if impTok.isPrefixOf st then scanImp true (i + 1) rest
    else if hasImp then ScanRes.weird else ScanRes.noImports

/-- Source loop `for i, line in enumerate(lines): if line.startswith('package ')`. -/
def findPkgIdx (i : Nat) : List (List Char) → Option Nat
  | [] => none
  | l :: rest => if pkgTok.isPrefixOf l then some i else findPkgIdx (i + 1) rest

/-- Source `add_symbol_import`.  `raise ValueError` is modelled by `Except.error`.
In the `single` case the source first rewrites line `i` to `import (`, inserts the
stripped original import minus its `import ` prefix at `i+1` and `)` at `i+2`,
and afterwards (in the shared `has_imports` branch) inserts the symbol entry at
`import_end = i+2`, i.e. before the `)`. -/
def add_symbol_import (content : List Char) : Except (List Char) (List Char) :=
  let lines := splitNL content
  match findPkgIdx 0 lines with
  | none => Except.error errNoPkg
  | some p =>
    match scanImp false (p + 1) (lines.drop (p + 1)) with
    | ScanRes.noImports =>
        Except.ok (joinNL (insAt [] (p + 3) (insAt importLineTok (p + 2) (insAt [] (p + 1) lines))))
    | ScanRes.multi _ j => Except.ok (joinNL (insAt symEntryTok j lines))
    | ScanRes.multiNoClose => Except.ok (joinNL lines)
    | ScanRes.single i st =>
        Except.ok (joinNL (insAt symEntryTok (i + 2) (insAt rparenLine (i + 2)
          (insAt ('\t' :: st.drop 7) (i + 1) (setAt impOpenTok i lines)))))
    | ScanRes.weird => Except.ok (joinNL lines)

/-! The const-to-var conversion, `re.sub(r'\bconst\s*\(', 'var (', content)`. -/

/-- Greedy `\s*` followed by the literal `(`; returns (matched text, remainder). -/
def matchOpenAux : List Char → Option (List Char × List Char)
  | [] => none
  | c :: rest =>
    if c = '(' then some ([c], rest)
    else if isPySpace c then (matchOpenAux rest).map (fun p => (c :: p.1, p.2))
    else none

/-- Match of `const\s*\(` at the head of the list; returns (matched text, remainder). -/
def matchConstOpen : List Char → Option (List Char × List Char)
  | 'c' :: 'o' :: 'n' :: 's' :: 't' :: rest =>
      (matchOpenAux rest).map (fun p => ('c' :: 'o' :: 'n' :: 's' :: 't' :: p.1, p.2))
  | _ => none

theorem matchOpenAux_length {s m r : List Char} (h : matchOpenAux s = some (m, r)) :
    r.length < s.length := by
  induction s generalizing m r with
  | nil => simp [matchOpenAux] at h
  | cons c rest ih =>
    simp only [matchOpenAux] at h
    split at h
    · obtain ⟨hm, hr⟩ := Prod.mk.injEq .. ▸ Option.some.injEq .. ▸ h
      subst hr; simp
    · split at h
      · cases hmo : matchOpenAux rest with
        | none => rw [hmo] at h; simp at h
        | some p =>
          rw [hmo] at h
          obtain ⟨m', r'⟩ := p
          simp only [Option.map_some', Option.some.injEq, Prod.mk.injEq] at h
          obtain ⟨hm, hr⟩ := h
          subst hr
          have := ih hmo
          simp only [List.length_cons]
          omega
      · simp at h

theorem matchConstOpen_length {s m r : List Char} (h : matchConstOpen s = some (m, r)) :
    r.length < s.length := by
  unfold matchConstOpen at h
  split at h
  · rename_i rest
    cases hmo : matchOpenAux rest with
    | none => rw [hmo] at h; simp at h
    | some p =>
      rw [hmo] at h
      obtain ⟨m', r'⟩ := p
      simp only [Option.map_some', Option.some.injEq, Prod.mk.injEq] at h
      obtain ⟨hm, hr⟩ := h
      subst hr
      have := matchOpenAux_length hmo
      simp only [List.length_cons]
      omega
  · simp at h

/-- Fuel-indexed version of the `\bconst\s*\(` substitution scan (structural in the
fuel so that the kernel can evaluate it; the fuel is always at least the length of
the list, and is irrelevant beyond it). -/
def ccAuxF : Nat → Bool → List Char → List Char
  | 0, _, _ => []
  | _ + 1, _, [] => []
  | f + 1, pw, c :: rest =>
    if pw then c :: ccAuxF f (isWordChar c) rest
    else
      match matchConstOpen (c :: rest) with
      | some (_, r) => 'v' :: 'a' :: 'r' :: ' ' :: '(' :: ccAuxF f false r
      | none => c :: ccAuxF f (isWordChar c) rest

theorem ccAuxF_fuel {f g : Nat} {pw : Bool} {s : List Char}
    (hf : s.length ≤ f) (hg : s.length ≤ g) : ccAuxF f pw s = ccAuxF g pw s := by
  induction f generalizing g pw s with
  | zero =>
    have : s = [] := List.length_eq_zero.mp (by omega)
    subst this
    cases g <;> simp [ccAuxF]
  | succ f ih =>
    cases s with
    | nil => cases g <;> simp [ccAuxF]
    | cons c rest =>
      cases g with
      | zero => simp at hg
      | succ g =>
        simp only [List.length_cons] at hf hg
        simp only [ccAuxF]
        by_cases hpw : pw
        · simp only [hpw, if_true]
          exact congrArg (fun t => c :: t)
            (@ih g (isWordChar c) rest (by omega) (by omega))
        · simp only [hpw, if_false]
          cases hm : matchConstOpen (c :: rest) with
          | some p =>
            obtain ⟨m, r⟩ := p
            have hr := matchConstOpen_length hm
            simp only [List.length_cons] at hr
            exact congrArg (fun t => 'v' :: 'a' :: 'r' :: ' ' :: '(' :: t)
              (@ih g false r (by omega) (by omega))
          | none =>
            exact congrArg (fun t => c :: t)
              (@ih g (isWordChar c) rest (by omega) (by omega))

/-- The scan of `re.sub(r'\bconst\s*\(', 'var (', ...)`: `pw` records whether the
previous character is a word character (`\b` holds at a candidate `c` exactly when
it is not, since `c` itself is a word character). -/
def ccAux (pw : Bool) (s : List Char) : List Char :=
  ccAuxF s.length pw s

/-- One-step unfolding of `ccAux`, matching the informal scan. -/
theorem ccAux_eq (pw : Bool) (s : List Char) :
    ccAux pw s =
      match s with
      | [] => []
      | c :: rest =>
        if pw then c :: ccAux (isWordChar c) rest
        else
          match matchConstOpen (c :: rest) with
          | some (_, r) => 'v' :: 'a' :: 'r' :: ' ' :: '(' :: ccAux false r
          | none => c :: ccAux (isWordChar c) rest := by
  cases s with
  | nil => simp [ccAux, ccAuxF]
  | cons c rest =>
    simp only [ccAux, List.length_cons, ccAuxF]
    by_cases hpw : pw
    · simp [hpw]
    · simp only [hpw, if_false]
      cases hm : matchConstOpen (c :: rest) with
      | some p =>
        obtain ⟨m, r⟩ := p
        simp only [hm]
        have hr := matchConstOpen_length hm
        simp only [List.length_cons] at hr
        exact congrArg (fun t => 'v' :: 'a' :: 'r' :: ' ' :: '(' :: t)
          (@ccAuxF_fuel rest.length r.length false r (by omega) (le_refl _))
      | none =>
        simp only [hm]

/-- Source `convert_const_to_var`. -/
def convert_const_to_var (content : List Char) : List Char :=
  ccAux false content

/-! The literal rewriter `convert_string_to_symbol`. -/

/-- Match of the substitution pattern `(\s*)([A-Z_]+)\s*=\s*"(govel\.[^"]+)"` at the
head of the list.  Returns the three captured groups (leading whitespace, identifier,
quoted value including its `govel.` prefix) and the remainder after the closing quote. -/
def parseAssign (s : List Char) : Option (List Char × List Char × List Char × List Char) :=
  let ind := s.takeWhile isPySpace
  let s1 := s.dropWhile isPySpace
  let nm := s1.takeWhile isCapU
  let s2 := s1.dropWhile isCapU
  if nm.isEmpty then none
  else
    match s2.dropWhile isPySpace with
    | '=' :: s4 =>
      match s4.dropWhile isPySpace with
      | '"' :: 'g' :: 'o' :: 'v' :: 'e' :: 'l' :: '.' :: s6 =>
        let val := s6.takeWhile (fun c => !(c = '"'))
        if val.isEmpty then none
        else
          match s6.dropWhile (fun c => !(c = '"')) with
          | '"' :: s8 => some (ind, nm, 'g' :: 'o' :: 'v' :: 'e' :: 'l' :: '.' :: val, s8)
          | _ => none
      | _ => none
    | _ => none

theorem length_dropWhile_le {p : Char → Bool} {l : List Char} :
    (l.dropWhile p).length ≤ l.length := by
  have h := List.takeWhile_append_dropWhile (p := p) (l := l)
  have : (l.takeWhile p).length + (l.dropWhile p).length = l.length := by
    rw [← List.length_append, h]
  omega

theorem parseAssign_length {s ind nm v a : List Char}
    (h : parseAssign s = some (ind, nm, v, a)) : a.length < s.length := by
  simp only [parseAssign] at h
  split at h
  · exact absurd h (by simp)
  · split at h
    · rename_i s4 heq1
      split at h
      · rename_i s6 heq2
        split at h
        · exact absurd h (by simp)
        · split at h
          · rename_i s8 heq3
            simp only [Option.some.injEq, Prod.mk.injEq] at h
            obtain ⟨-, -, -, ha⟩ := h
            subst ha
            have h1 : s8.length + 1 ≤ s6.length := by
              have := length_dropWhile_le (p := fun c => !(c = '"')) (l := s6)
              rw [heq3] at this
              simpa using this
            have h2 : s6.length + 7 ≤ s4.length := by
              have := length_dropWhile_le (p := isPySpace) (l := s4)
              rw [heq2] at this
              simpa using this
            have h3 : s4.length + 1 ≤ ((s.dropWhile isPySpace).dropWhile isCapU).length := by
              have := length_dropWhile_le (p := isPySpace)
                (l := (s.dropWhile isPySpace).dropWhile isCapU)
              rw [heq1] at this
              simpa using this
            have h4 : ((s.dropWhile isPySpace).dropWhile isCapU).length ≤ s.length :=
              le_trans length_dropWhile_le length_dropWhile_le
            omega
          · exact absurd h (by simp)
      · exact absurd h (by simp)
    · exact absurd h (by simp)

/-- The scan of `re.sub` with the assignment pattern over one line: at each position try
the pattern; on a match emit `indent + name + ' = symbol.For("' + value + '")'` and
continue after the match, otherwise copy one character. -/
def csSubAuxF : Nat → List Char → List Char
  | 0, _ => []
  | _ + 1, [] => []
  | f + 1, c :: rest =>
    match parseAssign (c :: rest) with
    | some (ind, nm, value, after) =>
        ind ++ nm ++ " = symbol.For(\"".data ++ value ++ "\")".data ++ csSubAuxF f after
    | none => c :: csSubAuxF f rest

theorem csSubAuxF_fuel {f g : Nat} {s : List Char}
    (hf : s.length ≤ f) (hg : s.length ≤ g) : csSubAuxF f s = csSubAuxF g s := by
  induction f generalizing g s with
  | zero =>
    have : s = [] := List.length_eq_zero.mp (by omega)
    subst this
    cases g <;> simp [csSubAuxF]
  | succ f ih =>
    cases s with
    | nil => cases g <;> simp [csSubAuxF]
    | cons c rest =>
      cases g with
      | zero => simp at hg
      | succ g =>
        simp only [List.length_cons] at hf hg
        simp only [csSubAuxF]
        cases hm : parseAssign (c :: rest) with
        | some q =>
          obtain ⟨ind, nm, value, after⟩ := q
          have ha := parseAssign_length hm
          simp only [List.length_cons] at ha
          exact congrArg
            (fun t => ind ++ nm ++ " = symbol.For(\"".data ++ value ++ "\")".data ++ t)
            (@ih g after (by omega) (by omega))
        | none =>
          exact congrArg (fun t => c :: t) (@ih g rest (by omega) (by omega))

def csSubAux (s : List Char) : List Char :=
  csSubAuxF s.length s

/-- One-step unfolding of `csSubAux`, matching the informal scan. -/
theorem csSubAux_eq (s : List Char) :
    csSubAux s =
      match s with
      | [] => []
      | c :: rest =>
        match parseAssign (c :: rest) with
        | some (ind, nm, value, after) =>
            ind ++ nm ++ " = symbol.For(\"".data ++ value ++ "\")".data ++ csSubAux after
        | none => c :: csSubAux rest := by
  cases s with
  | nil => simp [csSubAux, csSubAuxF]
  | cons c rest =>
    simp only [csSubAux, List.length_cons, csSubAuxF]
    cases hm : parseAssign (c :: rest) with
    | some q =>
      obtain ⟨ind, nm, value, after⟩ := q
      have ha := parseAssign_length hm
      simp only [List.length_cons] at ha
      exact congrArg
        (fun t => ind ++ nm ++ " = symbol.For(\"".data ++ value ++ "\")".data ++ t)
        (@csSubAuxF_fuel rest.length after.length after (by omega) (le_refl _))
    | none =>
      exact congrArg (fun t => c :: t)
        (@csSubAuxF_fuel rest.length rest.length rest (le_refl _) (le_refl _))

/-- Match of the guard pattern `[A-Z_]+\s*=\s*"govel\.[^"]+"` at the head of the list. -/
def parseCoreB (s : List Char) : Bool :=
  let nm := s.takeWhile isCapU
  let s2 := s.dropWhile isCapU
  if nm.isEmpty then false
  else
    match s2.dropWhile isPySpace with
    | '=' :: s4 =>
      match s4.dropWhile isPySpace with
      | '"' :: 'g' :: 'o' :: 'v' :: 'e' :: 'l' :: '.' :: s6 =>
        match s6.dropWhile (fun c => !(c = '"')) with
        | '"' :: _ => !(s6.takeWhile (fun c => !(c = '"'))).isEmpty
        | _ => false
      | _ => false
    | _ => false

/-- Source `re.search(r'[A-Z_]+\s*=\s*"govel\.[^"]+"', line)` as a Boolean. -/
def hasAssign : List Char → Bool
  | [] => false
  | c :: rest => parseCoreB (c :: rest) || hasAssign rest

/-- One line of `convert_string_to_symbol`: rewrite the line only when it does not
contain `symbol.For(` and the search pattern matches. -/
def csLine (l : List Char) : List Char :=
  if !containsTok symbolForTok l && hasAssign l then csSubAux l else l

/-- Source `convert_string_to_symbol`: split into lines, process each, rejoin. -/
def convert_string_to_symbol (content : List Char) : List Char :=
  joinNL ((splitNL content).map csLine)

/-! The per-file pipeline of `update_tokens_file`. -/

/-- Step 1 of `update_tokens_file`: `if not has_symbol_import(content): content = add_symbol_import(content)`. -/
def importStageE (content : List Char) : Except (List Char) (List Char) :=
  if has_symbol_import content then Except.ok content else add_symbol_import content

/-- Steps 1-3 of `update_tokens_file` (the body of its `try`). -/
def transformContent (content : List Char) : Except (List Char) (List Char) :=
  match importStageE content with
  | Except.error e => Except.error e
  | Except.ok c1 => Except.ok (convert_string_to_symbol (convert_const_to_var c1))

/-- The text a file holds after `update_tokens_file` ran on it: the transformed text
when the transform succeeded and produced a change is written back; otherwise the file
keeps its original content (the `except` clause reports and leaves the file alone). -/
def applyTransform (content : List Char) : List Char :=
  match transformContent content with
  | Except.ok t => t
  | Except.error _ => content

/-- Python `f"Error processing {file_path}: {e}"`. -/
def errReport (path msg : List Char) : List Char :=
  "Error processing ".data ++ path ++ ": ".data ++ msg

/-- Source `update_tokens_file`, modelled with its file-system effect made explicit:
returns (content of the file on disk afterwards, the returned Boolean, the error
report printed by the `except` clause, if any). -/
def update_tokens_file (path content : List Char) : List Char × Bool × Option (List Char) :=
  match transformContent content with
  | Except.ok t => if t = content then (content, false, none) else (t, true, none)
  | Except.error e => (content, false, some (errReport path e))

/-- The per-file loop of `main`: every (path, content) pair is processed independently. -/
def processAll : List (List Char × List Char) → List (List Char × (List Char × Bool × Option (List Char)))
  | [] => []
  | f :: fs => (f.1, update_tokens_file f.1 f.2) :: processAll fs

/-! Basic lemmas about the line splitting and substring primitives. -/

theorem splitNL_ne_nil (c : List Char) : splitNL c ≠ [] := by
  match c with
  | [] => simp [splitNL]
  | x :: rest =>
    simp only [splitNL]
    split
    · simp
    · cases h : splitNL rest <;> simp

theorem joinNL_cons_cons (x : Char) (l : List Char) (ls : List (List Char)) :
    joinNL ((x :: l) :: ls) = x :: joinNL (l :: ls) := by
  cases ls <;> simp [joinNL]

theorem joinNL_splitNL (c : List Char) : joinNL (splitNL c) = c := by
  induction c with
  | nil => simp [splitNL, joinNL]
  | cons x rest ih =>
    simp only [splitNL]
    split
    · rename_i hx
      subst hx
      cases h : splitNL rest with
      | nil => exact absurd h (splitNL_ne_nil rest)
      | cons l ls =>
        rw [h] at ih
        simp [joinNL]
        cases ls <;> simp_all [joinNL]
    · cases h : splitNL rest with
      | nil => exact absurd h (splitNL_ne_nil rest)
      | cons l ls =>
        rw [h] at ih
        rw [joinNL_cons_cons, ih]

theorem not_mem_splitNL (c : List Char) : ∀ l ∈ splitNL c, '\n' ∉ l := by
  induction c with
  | nil => simp [splitNL]
  | cons x rest ih =>
    simp only [splitNL]
    split
    · intro l hl
      rcases List.mem_cons.mp hl with h | h
      · subst h; simp
      · exact ih l h
    · rename_i hx
      cases h : splitNL rest with
      | nil => exact absurd h (splitNL_ne_nil rest)
      | cons l0 ls =>
        rw [h] at ih
        intro l hl
        rcases List.mem_cons.mp hl with hh | hh
        · subst hh
          intro hmem
          rcases List.mem_cons.mp hmem with h1 | h1
          · exact hx h1.symm
          · exact ih l0 (by simp) h1
        · exact ih l (by simp [hh])

theorem splitNL_no_newline {l : List Char} (hl : '\n' ∉ l) : splitNL l = [l] := by
  induction l with
  | nil => simp [splitNL]
  | cons c cs ih =>
    have hc : ¬(c = '\n') := fun h => hl (by simp [h])
    have hcs : '\n' ∉ cs := fun h => hl (by simp [h])
    simp only [splitNL]
    rw [if_neg hc, ih hcs]

theorem splitNL_append_newline {l t : List Char} (hl : '\n' ∉ l) :
    splitNL (l ++ '\n' :: t) = l :: splitNL t := by
  induction l with
  | nil => simp [splitNL]
  | cons c cs ih =>
    have hc : ¬(c = '\n') := fun h => hl (by simp [h])
    have hcs : '\n' ∉ cs := fun h => hl (by simp [h])
    simp only [List.cons_append, splitNL]
    rw [if_neg hc]
    simp only [List.append_eq]
    rw [ih hcs]

theorem splitNL_joinNL (ls : List (List Char)) (hne : ls ≠ [])
    (h : ∀ l ∈ ls, '\n' ∉ l) : splitNL (joinNL ls) = ls := by
  induction ls with
  | nil => exact absurd rfl hne
  | cons l rest ih =>
    cases rest with
    | nil =>
      simp only [joinNL]
      exact splitNL_no_newline (h l (by simp))
    | cons l2 rest2 =>
      have hstep : joinNL (l :: l2 :: rest2) = l ++ '\n' :: joinNL (l2 :: rest2) := by
        simp [joinNL]
      rw [hstep, splitNL_append_newline (h l (by simp)),
        ih (by simp) (fun x hx => h x (by simp [hx]))]

theorem isPrefixOf_iff_exists {pat s : List Char} :
    pat.isPrefixOf s = true ↔ ∃ t, s = pat ++ t := by
  induction pat generalizing s with
  | nil => simp [List.isPrefixOf]
  | cons a as ih =>
    cases s with
    | nil => simp [List.isPrefixOf]
    | cons b bs =>
      simp only [List.isPrefixOf, Bool.and_eq_true, beq_iff_eq]
      rw [ih]
      constructor
      · rintro ⟨hab, t, ht⟩
        exact ⟨t, by simp [hab, ht]⟩
      · rintro ⟨t, ht⟩
        simp only [List.cons_append, List.cons.injEq] at ht
        exact ⟨ht.1.symm, t, ht.2⟩


theorem containsTok_iff_exists {pat s : List Char} :
    containsTok pat s = true ↔ ∃ u v, s = u ++ pat ++ v := by
  induction s with
  | nil =>
    simp only [containsTok, List.isEmpty_iff]
    constructor
    · intro h; exact ⟨[], [], by simp [h]⟩
    · rintro ⟨u, v, huv⟩
      have h1 := List.append_eq_nil.mp huv.symm
      exact (List.append_eq_nil.mp h1.1).2
  | cons c rest ih =>
    simp only [containsTok, Bool.or_eq_true]
    rw [isPrefixOf_iff_exists, ih]
    constructor
    · rintro (⟨t, ht⟩ | ⟨u, v, huv⟩)
      · exact ⟨[], t, by simp [ht]⟩
      · exact ⟨c :: u, v, by simp [huv]⟩
    · rintro ⟨u, v, huv⟩
      cases u with
      | nil =>
        left
        exact ⟨v, by simpa using huv⟩
      | cons u0 us =>
        right
        simp only [List.cons_append, List.cons.injEq] at huv
        exact ⟨us, v, huv.2⟩

theorem countOccs_pos_iff {pat s : List Char} (hpat : pat ≠ []) :
    0 < countOccs pat s ↔ ∃ u v, s = u ++ pat ++ v := by
  induction s with
  | nil =>
    simp only [countOccs]
    constructor
    · omega
    · rintro ⟨u, v, huv⟩
      have h1 := List.append_eq_nil.mp huv.symm
      exact absurd (List.append_eq_nil.mp h1.1).2 hpat
  | cons c rest ih =>
    simp only [countOccs]
    constructor
    · intro h
      by_cases hp : pat.isPrefixOf (c :: rest) = true
      · obtain ⟨t, ht⟩ := isPrefixOf_iff_exists.mp hp
        exact ⟨[], t, by simp [ht]⟩
      · simp [hp] at h
        obtain ⟨u, v, huv⟩ := ih.mp (by omega)
        exact ⟨c :: u, v, by simp [huv]⟩
    · rintro ⟨u, v, huv⟩
      cases u with
      | nil =>
        have : pat.isPrefixOf (c :: rest) = true :=
          isPrefixOf_iff_exists.mpr ⟨v, by simpa using huv⟩
        simp [this]
      | cons u0 us =>
        simp only [List.cons_append, List.cons.injEq] at huv
        have : 0 < countOccs pat rest := ih.mpr ⟨us, v, huv.2⟩
        omega

theorem countOccs_eq_zero_iff {pat s : List Char} (hpat : pat ≠ []) :
    countOccs pat s = 0 ↔ ∀ u v, s ≠ u ++ pat ++ v := by
  rw [← not_iff_not]
  push_neg
  constructor
  · intro h
    exact (countOccs_pos_iff hpat).mp (by omega)
  · intro h
    have := (countOccs_pos_iff hpat).mpr h
    omega

/-! Claim C4: the orchestrator writes back exactly when the transform changed the text. -/

/-- C4: for every file path and content, `update_tokens_file` reports the file as
updated (returns `true`) precisely when the content it leaves on disk differs from
the original; when the transformed text equals the original (or the transform
failed), the file keeps its original content and the report is `false`. -/
theorem c4_write_iff_changed (path content : List Char) :
    ((update_tokens_file path content).2.1 = true ↔ (update_tokens_file path content).1 ≠ content) ∧
    ((update_tokens_file path content).2.1 = false → (update_tokens_file path content).1 = content) := by
  unfold update_tokens_file
  cases h : transformContent content with
  | ok t =>
    by_cases he : t = content
    · subst he; simp
    · simp [he]
  | error e => simp

/-! Claim C5: `add_symbol_import` raises exactly when no package line exists, and the
orchestrator catches this per file. -/

theorem findPkgIdx_eq_none_iff {ls : List (List Char)} {i : Nat} :
    findPkgIdx i ls = none ↔ ∀ l ∈ ls, pkgTok.isPrefixOf l = false := by
  induction ls generalizing i with
  | nil => simp [findPkgIdx]
  | cons l rest ih =>
    simp only [findPkgIdx]
    split
    · rename_i hp
      simp [hp]
    · rename_i hp
      rw [ih]
      simp only [Bool.not_eq_true] at hp
      simp [hp]

/-- C5: the import-insertion step fails exactly when no line of the file starts with
the package keyword; the failure is caught at file granularity: the file is left
unwritten, the error is reported together with the file path, and the batch loop
processes each file independently of the others. -/
theorem c5_error_iff_no_package :
    (∀ content : List Char,
      (∃ e, add_symbol_import content = Except.error e) ↔
        ∀ l ∈ splitNL content, pkgTok.isPrefixOf l = false) ∧
    (∀ path content : List Char,
      (∀ l ∈ splitNL content, pkgTok.isPrefixOf l = false) →
      has_symbol_import content = false →
      update_tokens_file path content = (content, false, some (errReport path errNoPkg))) ∧
    (∀ f : List Char × List Char, ∀ fs : List (List Char × List Char),
      processAll (f :: fs) = (f.1, update_tokens_file f.1 f.2) :: processAll fs) := by
  refine ⟨?_, ?_, ?_⟩
  · intro content
    constructor
    · rintro ⟨e, he⟩
      simp only [add_symbol_import] at he
      cases hf : findPkgIdx 0 (splitNL content) with
      | none => exact findPkgIdx_eq_none_iff.mp hf
      | some p =>
        rw [hf] at he
        split at he
        · simp_all
        · split at he <;> simp_all
    · intro h
      refine ⟨errNoPkg, ?_⟩
      simp only [add_symbol_import]
      rw [findPkgIdx_eq_none_iff.mpr h]
  · intro path content hnopkg hnoimp
    have herr : add_symbol_import content = Except.error errNoPkg := by
      simp only [add_symbol_import]
      rw [findPkgIdx_eq_none_iff.mpr hnopkg]
    unfold update_tokens_file transformContent importStageE
    rw [hnoimp]
    simp [herr]
  · intro f fs
    rfl

/-- Witness for C5 at a concrete file: content with no package line. -/
theorem c5_error_iff_no_package_witness :
    update_tokens_file "a/tokens.go".data "x := 1".data =
      ("x := 1".data, false, some (errReport "a/tokens.go".data errNoPkg)) :=
  c5_error_iff_no_package.2.1 "a/tokens.go".data "x := 1".data (by decide) (by decide)

/-! Lemmas about index-based list surgery and the import scan, shared by the
claims about `add_symbol_import`. -/

theorem insAt_append {α : Type} (x : α) (pre rest : List α) (k : Nat) :
    insAt x (pre.length + k) (pre ++ rest) = pre ++ insAt x k rest := by
  induction pre with
  | nil => simp
  | cons c cs ih =>
    have hidx : (c :: cs).length + k = (cs.length + k) + 1 := by simp; omega
    rw [hidx]
    simp only [List.cons_append, insAt, List.append_eq]
    rw [ih]

theorem insAt_at_append {α : Type} (x : α) (pre rest : List α) :
    insAt x pre.length (pre ++ rest) = pre ++ x :: rest := by
  have h := insAt_append x pre rest 0
  simpa [insAt] using h

theorem setAt_append {α : Type} (x : α) (pre : List α) (y : α) (rest : List α) :
    setAt x pre.length (pre ++ y :: rest) = pre ++ x :: rest := by
  induction pre with
  | nil => simp [setAt]
  | cons c cs ih =>
    simp only [List.cons_append, List.length_cons, setAt, List.append_eq]
    rw [ih]

theorem findPkgIdx_append {pre : List (List Char)} {pk : List Char} {rest : List (List Char)}
    (hpre : ∀ x ∈ pre, pkgTok.isPrefixOf x = false) (hpk : pkgTok.isPrefixOf pk = true)
    (i : Nat) : findPkgIdx i (pre ++ pk :: rest) = some (i + pre.length) := by
  induction pre generalizing i with
  | nil => simp [findPkgIdx, hpk]
  | cons c cs ih =>
    have hc : pkgTok.isPrefixOf c = false := hpre c (by simp)
    simp only [List.cons_append, findPkgIdx, hc, List.append_eq]
    rw [if_neg (by simp)]
    rw [ih (fun x hx => hpre x (by simp [hx]))]
    congr 1
    simp
    omega

theorem drop_length_append {α : Type} (pre rest : List α) :
    (pre ++ rest).drop pre.length = rest := by
  induction pre with
  | nil => simp
  | cons c cs ih => simpa using ih

theorem scanImp_skip_blanks {blanks : List (List Char)} (hblanks : ∀ b ∈ blanks, stripL b = [])
    (hImp : Bool) (i : Nat) (rest : List (List Char)) :
    scanImp hImp i (blanks ++ rest) = scanImp hImp (i + blanks.length) rest := by
  induction blanks generalizing i with
  | nil => simp
  | cons b bs ih =>
    have hb : stripL b = [] := hblanks b (by simp)
    simp only [List.cons_append, scanImp, hb, List.append_eq]
    rw [if_pos (by simp)]
    rw [ih (fun x hx => hblanks x (by simp [hx]))]
    congr 1
    simp
    omega

/-- A prefix of a prefix is a prefix: if `a ++ b` is a prefix of `s` then so is `a`. -/
theorem isPrefixOf_of_append_isPrefixOf {a b s : List Char}
    (h : (a ++ b).isPrefixOf s = true) : a.isPrefixOf s = true := by
  obtain ⟨t, ht⟩ := isPrefixOf_iff_exists.mp h
  exact isPrefixOf_iff_exists.mpr ⟨b ++ t, by simp [ht]⟩

theorem impOpen_not_prefix {st : List Char} (h : impTok.isPrefixOf st = false) :
    impOpenTok.isPrefixOf st = false ∧ impSpaceTok.isPrefixOf st = false := by
  constructor
  · by_contra hc
    simp only [Bool.not_eq_false] at hc
    have : impTok.isPrefixOf st = true := by
      have he : impOpenTok = impTok ++ " (".data := by decide
      exact isPrefixOf_of_append_isPrefixOf (he ▸ hc)
    simp [this] at h
  · by_contra hc
    simp only [Bool.not_eq_false] at hc
    have : impTok.isPrefixOf st = true := by
      have he : impSpaceTok = impTok ++ " ".data := by decide
      exact isPrefixOf_of_append_isPrefixOf (he ▸ hc)
    simp [this] at h

theorem findClose_eq_none_iff {ls : List (List Char)} {i : Nat} :
    findClose i ls = none ↔ ∀ l ∈ ls, stripL l ≠ rparenLine := by
  induction ls generalizing i with
  | nil => simp [findClose]
  | cons l rest ih =>
    simp only [findClose]
    split
    · rename_i hp
      simp [hp]
    · rename_i hp
      rw [ih]
      simp only [List.mem_cons]
      constructor
      · intro h x hx
        rcases hx with hx | hx
        · subst hx; exact hp
        · exact h x hx
      · intro h x hx
        exact h x (Or.inr hx)

/-! Claim C7: a file with a package header and no import construct gets a fresh
three-line import block right after the header. -/

/-- C7: when the first non-blank line after the package header does not begin
an import construct, `add_symbol_import` inserts exactly three lines immediately after
the header — a blank line, the single-line symbol import, and a blank line — and
leaves every other line unchanged. -/
theorem c7_new_import_block
    (content pk l : List Char) (pre blanks post : List (List Char))
    (hsplit : splitNL content = pre ++ pk :: (blanks ++ l :: post))
    (hpre : ∀ x ∈ pre, pkgTok.isPrefixOf x = false)
    (hpk : pkgTok.isPrefixOf pk = true)
    (hblanks : ∀ b ∈ blanks, stripL b = [])
    (hl : (stripL l).isEmpty = false)
    (hnoimp : impTok.isPrefixOf (stripL l) = false) :
    add_symbol_import content =
      Except.ok (joinNL (pre ++ pk :: [] :: importLineTok :: [] :: (blanks ++ l :: post))) := by
  have hfind : findPkgIdx 0 (splitNL content) = some pre.length := by
    rw [hsplit, findPkgIdx_append hpre hpk]
    simp
  have hdrop : (splitNL content).drop (pre.length + 1) = blanks ++ l :: post := by
    rw [hsplit]
    have : pre ++ pk :: (blanks ++ l :: post) = (pre ++ [pk]) ++ (blanks ++ l :: post) := by simp
    rw [this]
    have hlen : pre.length + 1 = (pre ++ [pk]).length := by simp
    rw [hlen, drop_length_append]
  have hopen := impOpen_not_prefix hnoimp
  have hscan : scanImp false (pre.length + 1) ((splitNL content).drop (pre.length + 1)) =
      ScanRes.noImports := by
    rw [hdrop, scanImp_skip_blanks hblanks]
    simp only [scanImp]
    rw [if_neg (by simp [hl]), if_neg (by simp [hopen.1]), if_neg (by simp [hopen.2]),
      if_neg (by simp [hnoimp])]
    rfl
  simp only [add_symbol_import, hfind, hscan]
  congr 1
  congr 1
  rw [hsplit]
  have h1 : pre ++ pk :: (blanks ++ l :: post) = (pre ++ [pk]) ++ (blanks ++ l :: post) := by simp
  have e1 : insAt ([] : List Char) (pre.length + 1) (pre ++ pk :: (blanks ++ l :: post)) =
      (pre ++ [pk]) ++ [] :: (blanks ++ l :: post) := by
    rw [h1]
    have hlen : pre.length + 1 = (pre ++ [pk]).length := by simp
    rw [hlen, insAt_at_append]
  rw [e1]
  have e2 : insAt importLineTok (pre.length + 2) ((pre ++ [pk]) ++ [] :: (blanks ++ l :: post)) =
      ((pre ++ [pk]) ++ [[]]) ++ importLineTok :: (blanks ++ l :: post) := by
    have h2 : (pre ++ [pk]) ++ [] :: (blanks ++ l :: post) =
        ((pre ++ [pk]) ++ [[]]) ++ (blanks ++ l :: post) := by simp
    rw [h2]
    have hlen : pre.length + 2 = ((pre ++ [pk]) ++ [([] : List Char)]).length := by simp
    rw [hlen, insAt_at_append]
  rw [e2]
  have e3 : insAt ([] : List Char) (pre.length + 3)
      (((pre ++ [pk]) ++ [[]]) ++ importLineTok :: (blanks ++ l :: post)) =
      (((pre ++ [pk]) ++ [[]]) ++ [importLineTok]) ++ [] :: (blanks ++ l :: post) := by
    have h3 : ((pre ++ [pk]) ++ [[]]) ++ importLineTok :: (blanks ++ l :: post) =
        (((pre ++ [pk]) ++ [[]]) ++ [importLineTok]) ++ (blanks ++ l :: post) := by simp
    rw [h3]
    have hlen : pre.length + 3 = ((((pre ++ [pk]) ++ [([] : List Char)])) ++ [importLineTok]).length := by
      simp
    rw [hlen, insAt_at_append]
  rw [e3]
  simp

/-- Witness for C7: the no-import example from the spec. -/
theorem c7_new_import_block_witness :
    add_symbol_import "package tokens\nSTATUS_OK = \"govel.status.ok\"".data =
      Except.ok (joinNL (([] : List (List Char)) ++ "package tokens".data ::
        [] :: importLineTok :: [] :: (([] : List (List Char)) ++
          "STATUS_OK = \"govel.status.ok\"".data :: []))) :=
  c7_new_import_block "package tokens\nSTATUS_OK = \"govel.status.ok\"".data
    "package tokens".data "STATUS_OK = \"govel.status.ok\"".data [] [] []
    (by decide) (by decide) (by decide) (by decide) (by decide) (by decide)

/-! Claim C8: a single-form import is promoted to a grouped block holding both the
original entry and the symbol entry. -/

/-- C8: when the first import construct after the header is a single-form
`import "..."` line, `add_symbol_import` rewrites it to `import (`, re-inserts the
original entry (the stripped line minus its `import ` prefix, tab-indented), inserts
the symbol entry before the closing parenthesis, and closes the block, so the
resulting grouped block holds both imports; all other lines are unchanged. -/
theorem c8_promote_single_import
    (content pk l : List Char) (pre blanks post : List (List Char))
    (hsplit : splitNL content = pre ++ pk :: (blanks ++ l :: post))
    (hpre : ∀ x ∈ pre, pkgTok.isPrefixOf x = false)
    (hpk : pkgTok.isPrefixOf pk = true)
    (hblanks : ∀ b ∈ blanks, stripL b = [])
    (hsingle : impSpaceTok.isPrefixOf (stripL l) = true)
    (hnotgroup : impOpenTok.isPrefixOf (stripL l) = false) :
    add_symbol_import content =
      Except.ok (joinNL ((pre ++ pk :: blanks) ++
        impOpenTok :: ('\t' :: (stripL l).drop 7) :: symEntryTok :: rparenLine :: post)) := by
  have hfind : findPkgIdx 0 (splitNL content) = some pre.length := by
    rw [hsplit, findPkgIdx_append hpre hpk]
    simp
  have hdrop : (splitNL content).drop (pre.length + 1) = blanks ++ l :: post := by
    rw [hsplit]
    have h1 : pre ++ pk :: (blanks ++ l :: post) = (pre ++ [pk]) ++ (blanks ++ l :: post) := by simp
    rw [h1]
    have hlen : pre.length + 1 = (pre ++ [pk]).length := by simp
    rw [hlen, drop_length_append]
  have hstripl : (stripL l).isEmpty = false := by
    cases hst : stripL l with
    | nil =>
      rw [hst] at hsingle
      simp [impSpaceTok, List.isPrefixOf] at hsingle
    | cons a as => simp
  have hscan : scanImp false (pre.length + 1) ((splitNL content).drop (pre.length + 1)) =
      ScanRes.single (pre.length + 1 + blanks.length) (stripL l) := by
    rw [hdrop, scanImp_skip_blanks hblanks]
    simp only [scanImp]
    rw [if_neg (by simp [hstripl]), if_neg (by simp [hnotgroup]), if_pos (by simp [hsingle])]
  simp only [add_symbol_import, hfind, hscan]
  congr 1
  congr 1
  rw [hsplit]
  have hA : pre ++ pk :: (blanks ++ l :: post) = (pre ++ pk :: blanks) ++ l :: post := by simp
  have hAlen : pre.length + 1 + blanks.length = (pre ++ pk :: blanks).length := by simp; omega
  rw [hA, hAlen]
  rw [setAt_append]
  have e1 : insAt ('\t' :: (stripL l).drop 7) ((pre ++ pk :: blanks).length + 1)
      ((pre ++ pk :: blanks) ++ impOpenTok :: post) =
      ((pre ++ pk :: blanks) ++ [impOpenTok]) ++ ('\t' :: (stripL l).drop 7) :: post := by
    have h2 : (pre ++ pk :: blanks) ++ impOpenTok :: post =
        ((pre ++ pk :: blanks) ++ [impOpenTok]) ++ post := by simp
    rw [h2]
    have hlen : (pre ++ pk :: blanks).length + 1 = ((pre ++ pk :: blanks) ++ [impOpenTok]).length := by
      simp
      omega
    rw [hlen, insAt_at_append]
  rw [e1]
  have e2 : insAt rparenLine ((pre ++ pk :: blanks).length + 2)
      (((pre ++ pk :: blanks) ++ [impOpenTok]) ++ ('\t' :: (stripL l).drop 7) :: post) =
      (((pre ++ pk :: blanks) ++ [impOpenTok]) ++ [('\t' :: (stripL l).drop 7)]) ++ rparenLine :: post := by
    have h3 : ((pre ++ pk :: blanks) ++ [impOpenTok]) ++ ('\t' :: (stripL l).drop 7) :: post =
        (((pre ++ pk :: blanks) ++ [impOpenTok]) ++ [('\t' :: (stripL l).drop 7)]) ++ post := by simp
    rw [h3]
    have hlen : (pre ++ pk :: blanks).length + 2 =
        (((pre ++ pk :: blanks) ++ [impOpenTok]) ++ [('\t' :: (stripL l).drop 7)]).length := by
      simp
      omega
    rw [hlen, insAt_at_append]
  rw [e2]
  have e3 : insAt symEntryTok ((pre ++ pk :: blanks).length + 2)
      ((((pre ++ pk :: blanks) ++ [impOpenTok]) ++ [('\t' :: (stripL l).drop 7)]) ++ rparenLine :: post) =
      (((pre ++ pk :: blanks) ++ [impOpenTok]) ++ [('\t' :: (stripL l).drop 7)]) ++
        symEntryTok :: rparenLine :: post := by
    have hlen : (pre ++ pk :: blanks).length + 2 =
        (((pre ++ pk :: blanks) ++ [impOpenTok]) ++ [('\t' :: (stripL l).drop 7)]).length := by
      simp
      omega
    rw [hlen, insAt_at_append]
  rw [e3]
  simp

/-- Witness for C8: a file whose only import is a single-form import of another module. -/
theorem c8_promote_single_import_witness :
    add_symbol_import "package p\nimport \"fmt\"\nX".data =
      Except.ok (joinNL ((([] : List (List Char)) ++ "package p".data :: []) ++
        impOpenTok :: ('\t' :: (stripL "import \"fmt\"".data).drop 7) :: symEntryTok ::
          rparenLine :: ["X".data])) :=
  c8_promote_single_import "package p\nimport \"fmt\"\nX".data "package p".data
    "import \"fmt\"".data [] [] ["X".data]
    (by decide) (by decide) (by decide) (by decide) (by decide) (by decide)

/-! Claim C10: a grouped import block with no closing line makes the import manager
insert nothing, without raising. -/

/-- C10: when the file lacks the symbol import, has a package header, and the
first import construct after the header is a grouped `import (` whose closing `)` line never
occurs in the rest of the file, `add_symbol_import` returns the content unchanged and
raises no error. -/
theorem c10_unclosed_group_inserts_nothing
    (content pk l : List Char) (pre blanks post : List (List Char))
    (hsplit : splitNL content = pre ++ pk :: (blanks ++ l :: post))
    (hpre : ∀ x ∈ pre, pkgTok.isPrefixOf x = false)
    (hpk : pkgTok.isPrefixOf pk = true)
    (hblanks : ∀ b ∈ blanks, stripL b = [])
    (hgroup : impOpenTok.isPrefixOf (stripL l) = true)
    (hnoclose : ∀ x ∈ post, stripL x ≠ rparenLine) :
    add_symbol_import content = Except.ok content := by
  have hfind : findPkgIdx 0 (splitNL content) = some pre.length := by
    rw [hsplit, findPkgIdx_append hpre hpk]
    simp
  have hdrop : (splitNL content).drop (pre.length + 1) = blanks ++ l :: post := by
    rw [hsplit]
    have h1 : pre ++ pk :: (blanks ++ l :: post) = (pre ++ [pk]) ++ (blanks ++ l :: post) := by simp
    rw [h1]
    have hlen : pre.length + 1 = (pre ++ [pk]).length := by simp
    rw [hlen, drop_length_append]
  have hstripl : (stripL l).isEmpty = false := by
    cases hst : stripL l with
    | nil =>
      rw [hst] at hgroup
      simp [impOpenTok, List.isPrefixOf] at hgroup
    | cons a as => simp
  have hscan : scanImp false (pre.length + 1) ((splitNL content).drop (pre.length + 1)) =
      ScanRes.multiNoClose := by
    rw [hdrop, scanImp_skip_blanks hblanks]
    simp only [scanImp]
    rw [if_neg (by simp [hstripl]), if_pos (by simp [hgroup]),
      findClose_eq_none_iff.mpr hnoclose]
  simp only [add_symbol_import, hfind, hscan]
  rw [joinNL_splitNL]

/-- Witness for C10: grouped import block never closed. -/
theorem c10_unclosed_group_inserts_nothing_witness :
    add_symbol_import "package p\nimport (\n\t\"fmt\"\nX".data =
      Except.ok "package p\nimport (\n\t\"fmt\"\nX".data :=
  c10_unclosed_group_inserts_nothing "package p\nimport (\n\t\"fmt\"\nX".data
    "package p".data "import (".data [] [] ["\t\"fmt\"".data, "X".data]
    (by decide) (by decide) (by decide) (by decide) (by decide) (by decide)

/-! Structured assignment lines and the behaviour of the literal rewriter on them
(claims C2 and C9). -/

/-- An assignment line `<ind><NAME><w1>=<w2>"govel.<rest>"` built from its parts. -/
def mkAssignLine (ind nm w1 w2 rest : List Char) : List Char :=
  ind ++ nm ++ w1 ++ '=' :: (w2 ++ '"' :: 'g' :: 'o' :: 'v' :: 'e' :: 'l' :: '.' :: (rest ++ ['"']))

theorem isCapU_not_space {c : Char} (h : isCapU c = true) : isPySpace c = false := by
  simp only [isCapU, Bool.or_eq_true, Bool.and_eq_true, decide_eq_true_eq] at h
  simp only [isPySpace, Bool.or_eq_false_iff, decide_eq_false_iff_not]
  omega

theorem isPySpace_not_capU {c : Char} (h : isPySpace c = true) : isCapU c = false := by
  simp only [isPySpace, Bool.or_eq_true, decide_eq_true_eq] at h
  simp only [isCapU, Bool.or_eq_false_iff, Bool.and_eq_false_iff, decide_eq_false_iff_not]
  omega

theorem takeWhile_append_all {p : Char → Bool} {a : List Char} (b : List Char)
    (ha : ∀ x ∈ a, p x = true) : (a ++ b).takeWhile p = a ++ b.takeWhile p := by
  induction a with
  | nil => simp
  | cons c cs ih =>
    have hc : p c = true := ha c (by simp)
    simp only [List.cons_append, List.takeWhile_cons, hc, if_true]
    rw [ih (fun x hx => ha x (by simp [hx]))]

theorem dropWhile_append_all {p : Char → Bool} {a : List Char} (b : List Char)
    (ha : ∀ x ∈ a, p x = true) : (a ++ b).dropWhile p = b.dropWhile p := by
  induction a with
  | nil => simp
  | cons c cs ih =>
    have hc : p c = true := ha c (by simp)
    simp only [List.cons_append, List.dropWhile_cons, hc, if_true]
    exact ih (fun x hx => ha x (by simp [hx]))

theorem takeWhile_capU_ws_eq (w V : List Char) (hw : ∀ c ∈ w, isPySpace c = true) :
    (w ++ '=' :: V).takeWhile isCapU = [] := by
  cases w with
  | nil => simp [List.takeWhile_cons, isCapU]
  | cons a as =>
    have : isCapU a = false := isPySpace_not_capU (hw a (by simp))
    simp [List.takeWhile_cons, this]

theorem dropWhile_capU_ws_eq (w V : List Char) (hw : ∀ c ∈ w, isPySpace c = true) :
    (w ++ '=' :: V).dropWhile isCapU = w ++ '=' :: V := by
  cases w with
  | nil => simp [List.dropWhile_cons, isCapU]
  | cons a as =>
    have : isCapU a = false := isPySpace_not_capU (hw a (by simp))
    simp [List.dropWhile_cons, this]

theorem parseAssign_structured (ind nm w1 w2 rest : List Char)
    (hind : ∀ c ∈ ind, isPySpace c = true)
    (hnm : nm ≠ []) (hnmc : ∀ c ∈ nm, isCapU c = true)
    (hw1 : ∀ c ∈ w1, isPySpace c = true)
    (hw2 : ∀ c ∈ w2, isPySpace c = true)
    (hrest : rest ≠ []) (hrq : ∀ c ∈ rest, ¬(c = '"')) :
    parseAssign (mkAssignLine ind nm w1 w2 rest) =
      some (ind, nm, 'g' :: 'o' :: 'v' :: 'e' :: 'l' :: '.' :: rest, []) := by
  obtain ⟨n0, ns, hnm0⟩ : ∃ n0 ns, nm = n0 :: ns := by
    cases nm with
    | nil => exact absurd rfl hnm
    | cons a as => exact ⟨a, as, rfl⟩
  have hV : mkAssignLine ind nm w1 w2 rest =
      ind ++ (nm ++ (w1 ++ '=' :: (w2 ++ '"' :: 'g' :: 'o' :: 'v' :: 'e' :: 'l' :: '.' ::
        (rest ++ ['"'])))) := by
    simp [mkAssignLine]
  have hd1 : (mkAssignLine ind nm w1 w2 rest).dropWhile isPySpace =
      nm ++ (w1 ++ '=' :: (w2 ++ '"' :: 'g' :: 'o' :: 'v' :: 'e' :: 'l' :: '.' ::
        (rest ++ ['"']))) := by
    rw [hV, dropWhile_append_all _ hind, hnm0]
    have : isPySpace n0 = false := isCapU_not_space (hnmc n0 (by simp [hnm0]))
    simp [List.dropWhile_cons, this]
  have ht1 : (mkAssignLine ind nm w1 w2 rest).takeWhile isPySpace = ind := by
    rw [hV, takeWhile_append_all _ hind, hnm0]
    have : isPySpace n0 = false := isCapU_not_space (hnmc n0 (by simp [hnm0]))
    simp [List.takeWhile_cons, this]
  have hd2 : (nm ++ (w1 ++ '=' :: (w2 ++ '"' :: 'g' :: 'o' :: 'v' :: 'e' :: 'l' :: '.' ::
      (rest ++ ['"'])))).dropWhile isCapU =
      w1 ++ '=' :: (w2 ++ '"' :: 'g' :: 'o' :: 'v' :: 'e' :: 'l' :: '.' :: (rest ++ ['"'])) := by
    rw [dropWhile_append_all _ hnmc, dropWhile_capU_ws_eq _ _ hw1]
  have ht2 : (nm ++ (w1 ++ '=' :: (w2 ++ '"' :: 'g' :: 'o' :: 'v' :: 'e' :: 'l' :: '.' ::
      (rest ++ ['"'])))).takeWhile isCapU = nm := by
    rw [takeWhile_append_all _ hnmc, takeWhile_capU_ws_eq _ _ hw1]
    simp
  have hd3 : (w1 ++ '=' :: (w2 ++ '"' :: 'g' :: 'o' :: 'v' :: 'e' :: 'l' :: '.' ::
      (rest ++ ['"']))).dropWhile isPySpace =
      '=' :: (w2 ++ '"' :: 'g' :: 'o' :: 'v' :: 'e' :: 'l' :: '.' :: (rest ++ ['"'])) := by
    rw [dropWhile_append_all _ hw1]
    simp [List.dropWhile_cons, isPySpace]
  have hd4 : (w2 ++ '"' :: 'g' :: 'o' :: 'v' :: 'e' :: 'l' :: '.' ::
      (rest ++ ['"'])).dropWhile isPySpace =
      '"' :: 'g' :: 'o' :: 'v' :: 'e' :: 'l' :: '.' :: (rest ++ ['"']) := by
    rw [dropWhile_append_all _ hw2]
    simp [List.dropWhile_cons, isPySpace]
  have hq : ∀ c ∈ rest, (!(c = '"' : Bool)) = true := by
    intro c hc
    simp [hrq c hc]
  have ht5 : (rest ++ ['"']).takeWhile (fun c => !(c = '"' : Bool)) = rest := by
    rw [takeWhile_append_all _ hq]
    simp [List.takeWhile_cons]
  have hd5 : (rest ++ ['"']).dropWhile (fun c => !(c = '"' : Bool)) = ['"'] := by
    rw [dropWhile_append_all _ hq]
    simp [List.dropWhile_cons]
  have hvne : rest.isEmpty = false := by
    cases rest with
    | nil => exact absurd rfl hrest
    | cons a as => simp
  have hnmne : nm.isEmpty = false := by
    rw [hnm0]; simp
  simp only [parseAssign, hd1, ht1, hd2, ht2, hd3, hd4, ht5, hd5, hnmne, Bool.false_eq_true,
    if_false, hvne]

/-- If the substitution pattern matches at the head, `csSubAux` emits the rewritten
match and continues after it. -/
theorem csSubAux_of_parse {s ind nm v a : List Char}
    (h : parseAssign s = some (ind, nm, v, a)) :
    csSubAux s = ind ++ nm ++ " = symbol.For(\"".data ++ v ++ "\")".data ++ csSubAux a := by
  cases s with
  | nil => simp [parseAssign] at h
  | cons c t =>
    rw [csSubAux_eq]
    simp only [h]

theorem csSubAux_of_none {c : Char} {t : List Char}
    (h : parseAssign (c :: t) = none) : csSubAux (c :: t) = c :: csSubAux t := by
  rw [csSubAux_eq]
  simp only [h]

theorem csSubAux_nil : csSubAux [] = [] := by
  simp [csSubAux, csSubAuxF]

/-! The guard of the literal rewriter on structured lines. -/

theorem parseCoreB_structured (nm w1 w2 rest : List Char)
    (hnm : nm ≠ []) (hnmc : ∀ c ∈ nm, isCapU c = true)
    (hw1 : ∀ c ∈ w1, isPySpace c = true)
    (hw2 : ∀ c ∈ w2, isPySpace c = true)
    (hrest : rest ≠ []) (hrq : ∀ c ∈ rest, ¬(c = '"')) :
    parseCoreB (nm ++ w1 ++ '=' :: (w2 ++ '"' :: 'g' :: 'o' :: 'v' :: 'e' :: 'l' :: '.' ::
      (rest ++ ['"']))) = true := by
  have hassoc : nm ++ w1 ++ '=' :: (w2 ++ '"' :: 'g' :: 'o' :: 'v' :: 'e' :: 'l' :: '.' ::
      (rest ++ ['"'])) = nm ++ (w1 ++ '=' :: (w2 ++ '"' :: 'g' :: 'o' :: 'v' :: 'e' :: 'l' :: '.' ::
      (rest ++ ['"']))) := by simp
  have hd2 : (nm ++ (w1 ++ '=' :: (w2 ++ '"' :: 'g' :: 'o' :: 'v' :: 'e' :: 'l' :: '.' ::
      (rest ++ ['"'])))).dropWhile isCapU =
      w1 ++ '=' :: (w2 ++ '"' :: 'g' :: 'o' :: 'v' :: 'e' :: 'l' :: '.' :: (rest ++ ['"'])) := by
    rw [dropWhile_append_all _ hnmc, dropWhile_capU_ws_eq _ _ hw1]
  have ht2 : (nm ++ (w1 ++ '=' :: (w2 ++ '"' :: 'g' :: 'o' :: 'v' :: 'e' :: 'l' :: '.' ::
      (rest ++ ['"'])))).takeWhile isCapU = nm := by
    rw [takeWhile_append_all _ hnmc, takeWhile_capU_ws_eq _ _ hw1]
    simp
  have hd3 : (w1 ++ '=' :: (w2 ++ '"' :: 'g' :: 'o' :: 'v' :: 'e' :: 'l' :: '.' ::
      (rest ++ ['"']))).dropWhile isPySpace =
      '=' :: (w2 ++ '"' :: 'g' :: 'o' :: 'v' :: 'e' :: 'l' :: '.' :: (rest ++ ['"'])) := by
    rw [dropWhile_append_all _ hw1]
    simp [List.dropWhile_cons, isPySpace]
  have hd4 : (w2 ++ '"' :: 'g' :: 'o' :: 'v' :: 'e' :: 'l' :: '.' ::
      (rest ++ ['"'])).dropWhile isPySpace =
      '"' :: 'g' :: 'o' :: 'v' :: 'e' :: 'l' :: '.' :: (rest ++ ['"']) := by
    rw [dropWhile_append_all _ hw2]
    simp [List.dropWhile_cons, isPySpace]
  have hq : ∀ c ∈ rest, (!(c = '"' : Bool)) = true := by
    intro c hc
    simp [hrq c hc]
  have ht5 : (rest ++ ['"']).takeWhile (fun c => !(c = '"' : Bool)) = rest := by
    rw [takeWhile_append_all _ hq]
    simp [List.takeWhile_cons]
  have hd5 : (rest ++ ['"']).dropWhile (fun c => !(c = '"' : Bool)) = ['"'] := by
    rw [dropWhile_append_all _ hq]
    simp [List.dropWhile_cons]
  have hvne : rest.isEmpty = false := by
    cases rest with
    | nil => exact absurd rfl hrest
    | cons a as => simp
  have hnmne : nm.isEmpty = false := by
    cases nm with
    | nil => exact absurd rfl hnm
    | cons a as => simp
  rw [hassoc]
  simp only [parseCoreB, hd2, ht2, hd3, hd4, ht5, hd5, hnmne, Bool.false_eq_true, if_false, hvne]
  simp

theorem hasAssign_of_suffix {s : List Char} (pre : List Char) (h : parseCoreB s = true) :
    hasAssign (pre ++ s) = true := by
  induction pre with
  | nil =>
    cases s with
    | nil => simp [parseCoreB] at h
    | cons c t => simp [hasAssign, h]
  | cons p ps ih =>
    simp only [List.cons_append, hasAssign, Bool.or_eq_true]
    right
    exact ih

/-- On a structured assignment line the rewriter fires and produces the
normalized `NAME = symbol.For("govel.<rest>")` form: original indentation and
identifier preserved, exactly one space on each side of `=`. -/
theorem csLine_structured (ind nm w1 w2 rest : List Char)
    (hind : ∀ c ∈ ind, isPySpace c = true)
    (hnm : nm ≠ []) (hnmc : ∀ c ∈ nm, isCapU c = true)
    (hw1 : ∀ c ∈ w1, isPySpace c = true)
    (hw2 : ∀ c ∈ w2, isPySpace c = true)
    (hrest : rest ≠ []) (hrq : ∀ c ∈ rest, ¬(c = '"'))
    (hnosym : containsTok symbolForTok (mkAssignLine ind nm w1 w2 rest) = false) :
    csLine (mkAssignLine ind nm w1 w2 rest) =
      ind ++ nm ++ " = symbol.For(\"".data ++
        ('g' :: 'o' :: 'v' :: 'e' :: 'l' :: '.' :: rest) ++ "\")".data := by
  have hha : hasAssign (mkAssignLine ind nm w1 w2 rest) = true := by
    have hcore := parseCoreB_structured nm w1 w2 rest hnm hnmc hw1 hw2 hrest hrq
    have hshape : mkAssignLine ind nm w1 w2 rest =
        ind ++ (nm ++ w1 ++ '=' :: (w2 ++ '"' :: 'g' :: 'o' :: 'v' :: 'e' :: 'l' :: '.' ::
          (rest ++ ['"']))) := by
      simp [mkAssignLine]
    rw [hshape]
    exact hasAssign_of_suffix ind hcore
  unfold csLine
  rw [hnosym, hha]
  simp only [Bool.not_false, Bool.and_self, if_true]
  rw [csSubAux_of_parse (parseAssign_structured ind nm w1 w2 rest hind hnm hnmc hw1 hw2 hrest hrq),
    csSubAux_nil]
  simp

/-- On a line the guard rejects — the search pattern matches nowhere, or the line
already holds `symbol.For(` — the rewriter is the identity. -/
theorem csLine_id_of_guard (l : List Char)
    (h : containsTok symbolForTok l = true ∨ hasAssign l = false) : csLine l = l := by
  unfold csLine
  rcases h with h | h <;> simp [h]

/-- Lines with no newline pass through `convert_string_to_symbol` as a single line. -/
theorem convert_single_line {l : List Char} (hl : '\n' ∉ l) :
    convert_string_to_symbol l = csLine l := by
  unfold convert_string_to_symbol
  rw [splitNL_no_newline hl]
  simp [joinNL]

/-! Claim C2 (corrected). -/

/-- C2 counterexample: the claim as stated is false on the code.  The line
`myTOKEN = "govel.x"` has a mixed-case identifier, so by the claim it must be
byte-identical after the rewrite, yet the rewriter changes it (the regex
`[A-Z_]+` matches the inner run `TOKEN`).  Moreover the line `TOKEN = "govel."`
has an all-caps identifier and a literal starting with `govel.`, so by the claim
it must be rewritten, yet it is unchanged (the pattern needs at least one
character after the dot). -/
theorem c2_counterexample :
    convert_string_to_symbol "myTOKEN = \"govel.x\"".data ≠ "myTOKEN = \"govel.x\"".data ∧
    convert_string_to_symbol "TOKEN = \"govel.\"".data = "TOKEN = \"govel.\"".data :=
  ⟨by decide, by decide⟩

/-- C2 (amended): a line whose full identifier is all-caps/underscore (preceded only
by whitespace), with a `govel.`-literal holding at least one character after the dot
and no quote, and not containing `symbol.For(`, is rewritten to
`<ind><NAME> = symbol.For("govel.<rest>")`; a line in which the search pattern
`[A-Z_]+\s*=\s*"govel\.[^"]+"` matches nowhere, or which already contains
`symbol.For(`, is byte-identical before and after.  (A line with a mixed-case
identifier whose tail matches the inner pattern may still be rewritten.) -/
theorem c2_selective_rewrite_amended :
    (∀ ind nm w1 w2 rest : List Char,
      (∀ c ∈ ind, isPySpace c = true) → nm ≠ [] → (∀ c ∈ nm, isCapU c = true) →
      (∀ c ∈ w1, isPySpace c = true) → (∀ c ∈ w2, isPySpace c = true) →
      rest ≠ [] → (∀ c ∈ rest, ¬(c = '"')) →
      '\n' ∉ mkAssignLine ind nm w1 w2 rest →
      containsTok symbolForTok (mkAssignLine ind nm w1 w2 rest) = false →
      convert_string_to_symbol (mkAssignLine ind nm w1 w2 rest) =
        ind ++ nm ++ " = symbol.For(\"".data ++
          ('g' :: 'o' :: 'v' :: 'e' :: 'l' :: '.' :: rest) ++ "\")".data) ∧
    (∀ l : List Char, '\n' ∉ l →
      (containsTok symbolForTok l = true ∨ hasAssign l = false) →
      convert_string_to_symbol l = l) := by
  constructor
  · intro ind nm w1 w2 rest hind hnm hnmc hw1 hw2 hrest hrq hnl hnosym
    rw [convert_single_line hnl]
    exact csLine_structured ind nm w1 w2 rest hind hnm hnmc hw1 hw2 hrest hrq hnosym
  · intro l hnl hguard
    rw [convert_single_line hnl]
    exact csLine_id_of_guard l hguard

/-- Witness for C2 at the spec's example line and at an untouched line. -/
theorem c2_selective_rewrite_amended_witness :
    convert_string_to_symbol (mkAssignLine "\t".data "STATUS_OK".data [' '] [' ']
        "status.ok".data) =
      "\t".data ++ "STATUS_OK".data ++ " = symbol.For(\"".data ++
        ('g' :: 'o' :: 'v' :: 'e' :: 'l' :: '.' :: "status.ok".data) ++ "\")".data ∧
    convert_string_to_symbol "const (".data = "const (".data :=
  ⟨c2_selective_rewrite_amended.1 "\t".data "STATUS_OK".data [' '] [' '] "status.ok".data
      (by decide) (by decide) (by decide) (by decide) (by decide) (by decide) (by decide)
      (by decide) (by decide),
    c2_selective_rewrite_amended.2 "const (".data (by decide) (Or.inr (by decide))⟩

/-! Claim C9: the rewrite normalizes the spacing around the equals sign. -/

/-- C9: whatever whitespace `w1`, `w2` surrounded the `=` sign of an eligible
assignment line, the rewritten line carries exactly one space on each side of `=`
(the leading whitespace and the identifier are preserved verbatim). -/
theorem c9_normalizes_eq_spacing (ind nm w1 w2 rest : List Char)
    (hind : ∀ c ∈ ind, isPySpace c = true)
    (hnm : nm ≠ []) (hnmc : ∀ c ∈ nm, isCapU c = true)
    (hw1 : ∀ c ∈ w1, isPySpace c = true)
    (hw2 : ∀ c ∈ w2, isPySpace c = true)
    (hrest : rest ≠ []) (hrq : ∀ c ∈ rest, ¬(c = '"'))
    (hnosym : containsTok symbolForTok (mkAssignLine ind nm w1 w2 rest) = false) :
    csLine (mkAssignLine ind nm w1 w2 rest) =
      ind ++ nm ++ (' ' :: '=' :: ' ' :: ("symbol.For(\"govel.".data ++ rest ++ "\")".data)) := by
  rw [csLine_structured ind nm w1 w2 rest hind hnm hnmc hw1 hw2 hrest hrq hnosym]
  have hfix : " = symbol.For(\"".data ++
      ('g' :: 'o' :: 'v' :: 'e' :: 'l' :: '.' :: rest) ++ "\")".data =
      ' ' :: '=' :: ' ' :: ("symbol.For(\"govel.".data ++ rest ++ "\")".data) := by
    simp
  simp only [List.append_assoc, hfix]

/-- Witness for C9: tab-then-nothing spacing around `=` comes out as single spaces. -/
theorem c9_normalizes_eq_spacing_witness :
    csLine (mkAssignLine [] "A_B".data "\t\t".data [] "x".data) =
      [] ++ "A_B".data ++ (' ' :: '=' :: ' ' ::
        ("symbol.For(\"govel.".data ++ "x".data ++ "\")".data)) :=
  c9_normalizes_eq_spacing [] "A_B".data "\t\t".data [] "x".data
    (by decide) (by decide) (by decide) (by decide) (by decide) (by decide) (by decide)
    (by decide)

/-! Counting occurrences of the import path across the line structure (claim C3). -/

theorem isPrefixOf_append_newline {pat x b : List Char} (h : '\n' ∉ pat) :
    pat.isPrefixOf (x ++ '\n' :: b) = pat.isPrefixOf x := by
  induction pat generalizing x with
  | nil => simp [List.isPrefixOf]
  | cons p ps ih =>
    cases x with
    | nil =>
      have hp : ¬(p = '\n') := fun hc => h (by simp [hc])
      simp only [List.nil_append, List.isPrefixOf, beq_iff_eq]
      simp [hp]
    | cons y ys =>
      simp only [List.cons_append, List.isPrefixOf, List.append_eq]
      rw [ih (fun hc => h (by simp [hc]))]

theorem countOccs_append_newline {pat a b : List Char} (hpat : pat ≠ []) (h : '\n' ∉ pat) :
    countOccs pat (a ++ '\n' :: b) = countOccs pat a + countOccs pat b := by
  induction a with
  | nil =>
    simp only [List.nil_append, countOccs]
    have hp : pat.isPrefixOf ('\n' :: b) = false := by
      have := isPrefixOf_append_newline (x := []) (b := b) h
      simp only [List.nil_append] at this
      rw [this]
      cases pat with
      | nil => exact absurd rfl hpat
      | cons p ps => simp [List.isPrefixOf]
    simp [hp]
  | cons c a' ih =>
    simp only [List.cons_append, countOccs, List.append_eq]
    have hp : pat.isPrefixOf (c :: (a' ++ '\n' :: b)) = pat.isPrefixOf (c :: a') := by
      have := isPrefixOf_append_newline (x := c :: a') (b := b) h
      simpa using this
    simp only [hp, ih]
    omega

theorem countOccs_joinNL {pat : List Char} (hpat : pat ≠ []) (hnl : '\n' ∉ pat)
    (ls : List (List Char)) :
    countOccs pat (joinNL ls) = (ls.map (countOccs pat)).sum := by
  induction ls with
  | nil => simp [joinNL, countOccs]
  | cons l rest ih =>
    cases rest with
    | nil => simp [joinNL]
    | cons l2 r2 =>
      have hstep : joinNL (l :: l2 :: r2) = l ++ '\n' :: joinNL (l2 :: r2) := by
        simp [joinNL]
      rw [hstep, countOccs_append_newline hpat hnl, ih]
      simp

theorem sum_map_insAt (f : List Char → Nat) (x : List Char) (n : Nat) (ls : List (List Char)) :
    ((insAt x n ls).map f).sum = f x + (ls.map f).sum := by
  induction ls generalizing n with
  | nil => cases n <;> simp [insAt]
  | cons c cs ih =>
    cases n with
    | zero => simp [insAt]
    | succ n =>
      simp only [insAt, List.map_cons, List.sum_cons, ih]
      omega

theorem mem_setAt {α : Type} {x y : α} {n : Nat} {ls : List α}
    (h : y ∈ setAt x n ls) : y = x ∨ y ∈ ls := by
  induction ls generalizing n with
  | nil => simp [setAt] at h
  | cons c cs ih =>
    cases n with
    | zero =>
      simp only [setAt, List.mem_cons] at h
      rcases h with h | h
      · exact Or.inl h
      · exact Or.inr (by simp [h])
    | succ n =>
      simp only [setAt, List.mem_cons] at h
      rcases h with h | h
      · exact Or.inr (by simp [h])
      · rcases ih h with h' | h'
        · exact Or.inl h'
        · exact Or.inr (by simp [h'])

theorem sum_map_setAt_zero (f : List Char → Nat) (x : List Char) (n : Nat)
    (ls : List (List Char)) (hls : ∀ l ∈ ls, f l = 0) (hx : f x = 0) :
    ((setAt x n ls).map f).sum = 0 := by
  apply List.sum_eq_zero
  intro v hv
  obtain ⟨y, hy, hfy⟩ := List.mem_map.mp hv
  rcases mem_setAt hy with h | h
  · subst h; omega
  · rw [← hfy]; exact hls y h

theorem countOccs_zero_of_piece {pat : List Char} (hpat : pat ≠ []) {u z v : List Char}
    (h : countOccs pat (u ++ z ++ v) = 0) : countOccs pat z = 0 := by
  rw [countOccs_eq_zero_iff hpat] at h ⊢
  intro a b hz
  exact h (u ++ a) (b ++ v) (by rw [hz]; simp)

theorem stripL_piece (l : List Char) : ∃ u v, l = u ++ stripL l ++ v := by
  refine ⟨l.takeWhile isPySpace, ((l.dropWhile isPySpace).reverse.takeWhile isPySpace).reverse, ?_⟩
  unfold stripL
  conv_lhs => rw [← List.takeWhile_append_dropWhile (p := isPySpace) (l := l)]
  rw [List.append_assoc]
  congr 1
  conv_lhs => rw [← List.reverse_reverse (l.dropWhile isPySpace)]
  conv_lhs =>
    rw [← List.takeWhile_append_dropWhile (p := isPySpace) (l := (l.dropWhile isPySpace).reverse)]
  rw [List.reverse_append]

theorem countOccs_stripL_zero {pat l : List Char} (hpat : pat ≠ [])
    (h : countOccs pat l = 0) : countOccs pat (stripL l) = 0 := by
  obtain ⟨u, v, huv⟩ := stripL_piece l
  rw [huv] at h
  exact countOccs_zero_of_piece hpat h

theorem countOccs_drop_zero {pat z : List Char} (hpat : pat ≠ []) (n : Nat)
    (h : countOccs pat z = 0) : countOccs pat (z.drop n) = 0 := by
  have hz : z = z.take n ++ z.drop n ++ [] := by simp
  rw [hz] at h
  exact countOccs_zero_of_piece hpat h

theorem countOccs_path_tab_cons (z : List Char) :
    countOccs importPathTok ('\t' :: z) = countOccs importPathTok z := by
  simp only [countOccs]
  have hp : importPathTok.isPrefixOf ('\t' :: z) = false := by
    cases hb : importPathTok.isPrefixOf ('\t' :: z) with
    | false => rfl
    | true =>
      obtain ⟨t, ht⟩ := isPrefixOf_iff_exists.mp hb
      have hhead : importPathTok = '"' :: "govel/packages/support/src/symbol\"".data := by decide
      rw [hhead] at ht
      simp at ht
  simp [hp]

theorem scanImp_single_spec {ls : List (List Char)} {h0 : Bool} {i i' : Nat} {st : List Char}
    (h : scanImp h0 i ls = ScanRes.single i' st) : ∃ l ∈ ls, st = stripL l := by
  induction ls generalizing h0 i with
  | nil => cases h0 <;> simp [scanImp] at h
  | cons l rest ih =>
    simp only [scanImp] at h
    by_cases hb : (stripL l).isEmpty = true
    · rw [if_pos hb] at h
      obtain ⟨x, hx, hst⟩ := ih h
      exact ⟨x, by simp [hx], hst⟩
    · rw [if_neg hb] at h
      by_cases ho : impOpenTok.isPrefixOf (stripL l) = true
      · rw [if_pos ho] at h
        cases hf : findClose (i + 1) rest with
        | some j => rw [hf] at h; simp at h
        | none => rw [hf] at h; simp at h
      · rw [if_neg ho] at h
        by_cases hs : impSpaceTok.isPrefixOf (stripL l) = true
        · rw [if_pos hs] at h
          simp only [ScanRes.single.injEq] at h
          exact ⟨l, by simp, h.2.symm⟩
        · rw [if_neg hs] at h
          by_cases hi : impTok.isPrefixOf (stripL l) = true
          · rw [if_pos hi] at h
            obtain ⟨x, hx, hst⟩ := ih h
            exact ⟨x, by simp [hx], hst⟩
          · rw [if_neg hi] at h
            cases h0 <;> simp at h

theorem mem_of_mem_dropN {α : Type} {x : α} {n : Nat} {ls : List α}
    (h : x ∈ ls.drop n) : x ∈ ls := by
  induction n generalizing ls with
  | zero => simpa using h
  | succ n ih =>
    cases ls with
    | nil => simp at h
    | cons c cs =>
      simp only [List.drop_succ_cons] at h
      exact List.mem_cons.mpr (Or.inr (ih h))

/-- The heart of the amended C3: when the file lacks the import path and
`add_symbol_import` changes the text at all, the path occurs exactly once in the
result. -/
theorem add_symbol_import_count (c t : List Char)
    (hno : has_symbol_import c = false)
    (hok : add_symbol_import c = Except.ok t) (hne : t ≠ c) :
    countOccs importPathTok t = 1 := by
  have hpat : importPathTok ≠ [] := by decide
  have hnl : '\n' ∉ importPathTok := by decide
  have hc0 : countOccs importPathTok c = 0 := by
    have hcon : containsTok importPathTok c = false := by
      simp only [has_symbol_import, Bool.or_eq_false_iff] at hno
      exact hno.2
    rw [countOccs_eq_zero_iff hpat]
    intro u v huv
    have : containsTok importPathTok c = true := containsTok_iff_exists.mpr ⟨u, v, huv⟩
    rw [this] at hcon
    exact absurd hcon (by simp)
  have hlines0 : ∀ l ∈ splitNL c, countOccs importPathTok l = 0 := by
    have hj : countOccs importPathTok (joinNL (splitNL c)) = 0 := by
      rw [joinNL_splitNL]; exact hc0
    rw [countOccs_joinNL hpat hnl] at hj
    intro l hl
    exact List.sum_eq_zero_iff.mp hj _ (List.mem_map_of_mem _ hl)
  have hsum0 : ((splitNL c).map (countOccs importPathTok)).sum = 0 :=
    List.sum_eq_zero (fun v hv => by
      obtain ⟨y, hy, hfy⟩ := List.mem_map.mp hv
      rw [← hfy]; exact hlines0 y hy)
  simp only [add_symbol_import] at hok
  cases hfind : findPkgIdx 0 (splitNL c) with
  | none => rw [hfind] at hok; simp at hok
  | some p =>
    simp only [hfind] at hok
    cases hscan : scanImp false (p + 1) ((splitNL c).drop (p + 1)) with
    | noImports =>
      simp only [hscan, Except.ok.injEq] at hok
      subst hok
      rw [countOccs_joinNL hpat hnl, sum_map_insAt, sum_map_insAt, sum_map_insAt, hsum0]
      have h1 : countOccs importPathTok importLineTok = 1 := by decide
      have h2 : countOccs importPathTok [] = 0 := by decide
      omega
    | multi i j =>
      simp only [hscan, Except.ok.injEq] at hok
      subst hok
      rw [countOccs_joinNL hpat hnl, sum_map_insAt, hsum0]
      have h1 : countOccs importPathTok symEntryTok = 1 := by decide
      omega
    | multiNoClose =>
      simp only [hscan, Except.ok.injEq] at hok
      rw [joinNL_splitNL] at hok
      exact absurd hok.symm hne
    | weird =>
      simp only [hscan, Except.ok.injEq] at hok
      rw [joinNL_splitNL] at hok
      exact absurd hok.symm hne
    | single i st =>
      simp only [hscan, Except.ok.injEq] at hok
      subst hok
      have hst0 : countOccs importPathTok ('\t' :: st.drop 7) = 0 := by
        obtain ⟨l, hl, hstl⟩ := scanImp_single_spec hscan
        have hl' : l ∈ splitNL c := mem_of_mem_dropN hl
        have := countOccs_stripL_zero hpat (hlines0 l hl')
        rw [← hstl] at this
        rw [countOccs_path_tab_cons]
        exact countOccs_drop_zero hpat 7 this
      rw [countOccs_joinNL hpat hnl, sum_map_insAt, sum_map_insAt, sum_map_insAt,
        sum_map_setAt_zero _ _ _ _ hlines0 (by decide)]
      have h1 : countOccs importPathTok symEntryTok = 1 := by decide
      have h2 : countOccs importPathTok rparenLine = 0 := by decide
      omega

/-- C3 counterexample: the claim as stated is false on the code, in both halves.
The file `package p\nimport (\n"x"` lacks the import path, yet after the whole
transform the path occurs zero times, not exactly once (the grouped import block has
no closing line, so nothing is inserted).  The file
`package p\nX = "govel.a"govel/packages/support/src/symbol"` contains the path once
(its opening quote is the closing quote of the `govel.a` literal), yet after the
transform it occurs zero times: the literal rewriter consumes that quote. -/
theorem c3_counterexample :
    has_symbol_import "package p\nimport (\n\"x\"".data = false ∧
    countOccs importPathTok (applyTransform "package p\nimport (\n\"x\"".data) = 0 ∧
    countOccs importPathTok
      "package p\nX = \"govel.a\"govel/packages/support/src/symbol\"".data = 1 ∧
    countOccs importPathTok (applyTransform
      "package p\nX = \"govel.a\"govel/packages/support/src/symbol\"".data) = 0 :=
  ⟨by decide, by decide, by decide, by decide⟩

/-! Claim C6: structure of the const-to-var conversion. -/

/-- Shape of a matched opener: whitespace then `(`. -/
def wsParen : List Char → Bool
  | [] => false
  | [c] => c = '('
  | c :: rest => isPySpace c && wsParen rest

/-- Shape of a full matched opener: `const`, whitespace, `(`. -/
def openerShape : List Char → Bool
  | 'c' :: 'o' :: 'n' :: 's' :: 't' :: rest => wsParen rest
  | _ => false

theorem matchOpenAux_spec {u m r : List Char} (h : matchOpenAux u = some (m, r)) :
    m ++ r = u ∧ wsParen m = true := by
  induction u generalizing m r with
  | nil => simp [matchOpenAux] at h
  | cons c rest ih =>
    simp only [matchOpenAux] at h
    split at h
    · rename_i hc
      simp only [Option.some.injEq, Prod.mk.injEq] at h
      obtain ⟨hm, hr⟩ := h
      subst hm; subst hr; subst hc
      exact ⟨rfl, by simp [wsParen]⟩
    · split at h
      · rename_i hc hs
        cases hmo : matchOpenAux rest with
        | none => rw [hmo] at h; simp at h
        | some p =>
          rw [hmo] at h
          obtain ⟨m', r'⟩ := p
          simp only [Option.map_some', Option.some.injEq, Prod.mk.injEq] at h
          obtain ⟨hm, hr⟩ := h
          subst hm; subst hr
          obtain ⟨happ, hws⟩ := ih hmo
          refine ⟨by simp [happ], ?_⟩
          cases m' with
          | nil => simp [wsParen] at hws
          | cons a as => simp [wsParen, hs, hws]
      · simp at h

theorem matchConstOpen_spec {s m r : List Char} (h : matchConstOpen s = some (m, r)) :
    m ++ r = s ∧ openerShape m = true := by
  unfold matchConstOpen at h
  split at h
  · rename_i rest
    cases hmo : matchOpenAux rest with
    | none => rw [hmo] at h; simp at h
    | some p =>
      rw [hmo] at h
      obtain ⟨m', r'⟩ := p
      simp only [Option.map_some', Option.some.injEq, Prod.mk.injEq] at h
      obtain ⟨hm, hr⟩ := h
      subst hm; subst hr
      obtain ⟨happ, hws⟩ := matchOpenAux_spec hmo
      exact ⟨by simp [happ], by simp [openerShape, hws]⟩
  · simp at h

theorem matchConstOpen_not_c {c : Char} (X : List Char) (hc : ¬(c = 'c')) :
    matchConstOpen (c :: X) = none := by
  unfold matchConstOpen
  split
  · rename_i heq
    simp only [List.cons.injEq] at heq
    exact absurd heq.1 hc
  · rfl

theorem matchConstOpen_not_o {c2 : Char} (X : List Char) (hc : ¬(c2 = 'o')) :
    matchConstOpen ('c' :: c2 :: X) = none := by
  unfold matchConstOpen
  split
  · rename_i heq
    simp only [List.cons.injEq] at heq
    exact absurd heq.2.1 hc
  · rfl

theorem matchConstOpen_not_n {c3 : Char} (X : List Char) (hc : ¬(c3 = 'n')) :
    matchConstOpen ('c' :: 'o' :: c3 :: X) = none := by
  unfold matchConstOpen
  split
  · rename_i heq
    simp only [List.cons.injEq] at heq
    exact absurd heq.2.2.1 hc
  · rfl

theorem matchConstOpen_not_s {c4 : Char} (X : List Char) (hc : ¬(c4 = 's')) :
    matchConstOpen ('c' :: 'o' :: 'n' :: c4 :: X) = none := by
  unfold matchConstOpen
  split
  · rename_i heq
    simp only [List.cons.injEq] at heq
    exact absurd heq.2.2.2.1 hc
  · rfl

theorem matchConstOpen_not_t {c5 : Char} (X : List Char) (hc : ¬(c5 = 't')) :
    matchConstOpen ('c' :: 'o' :: 'n' :: 's' :: c5 :: X) = none := by
  unfold matchConstOpen
  split
  · rename_i heq
    simp only [List.cons.injEq] at heq
    exact absurd heq.2.2.2.2.1 hc
  · rfl

theorem matchConstOpen_const (u : List Char) :
    matchConstOpen ('c' :: 'o' :: 'n' :: 's' :: 't' :: u) =
      (matchOpenAux u).map (fun p => ('c' :: 'o' :: 'n' :: 's' :: 't' :: p.1, p.2)) := rfl

/-- The match-count of the const scan, with fuel. -/
def ccCountF : Nat → Bool → List Char → Nat
  | 0, _, _ => 0
  | _ + 1, _, [] => 0
  | f + 1, pw, c :: rest =>
    if pw then ccCountF f (isWordChar c) rest
    else
      match matchConstOpen (c :: rest) with
      | some (_, r) => 1 + ccCountF f false r
      | none => ccCountF f (isWordChar c) rest

theorem ccCountF_fuel {f g : Nat} {pw : Bool} {s : List Char}
    (hf : s.length ≤ f) (hg : s.length ≤ g) : ccCountF f pw s = ccCountF g pw s := by
  induction f generalizing g pw s with
  | zero =>
    have : s = [] := List.length_eq_zero.mp (by omega)
    subst this
    cases g <;> simp [ccCountF]
  | succ f ih =>
    cases s with
    | nil => cases g <;> simp [ccCountF]
    | cons c rest =>
      cases g with
      | zero => simp at hg
      | succ g =>
        simp only [List.length_cons] at hf hg
        simp only [ccCountF]
        by_cases hpw : pw
        · simp only [hpw, if_true]
          exact @ih g (isWordChar c) rest (by omega) (by omega)
        · simp only [hpw, Bool.false_eq_true, if_false]
          cases hm : matchConstOpen (c :: rest) with
          | some p =>
            obtain ⟨m, r⟩ := p
            have hr := matchConstOpen_length hm
            simp only [List.length_cons] at hr
            have he := @ih g false r (by omega) (by omega)
            simp [he]
          | none =>
            have he := @ih g (isWordChar c) rest (by omega) (by omega)
            simp [he]

/-- Number of matches the const scan replaces. -/
def ccCount (pw : Bool) (s : List Char) : Nat :=
  ccCountF s.length pw s

theorem ccCount_eq (pw : Bool) (s : List Char) :
    ccCount pw s =
      match s with
      | [] => 0
      | c :: rest =>
        if pw then ccCount (isWordChar c) rest
        else
          match matchConstOpen (c :: rest) with
          | some (_, r) => 1 + ccCount false r
          | none => ccCount (isWordChar c) rest := by
  cases s with
  | nil => simp [ccCount, ccCountF]
  | cons c rest =>
    simp only [ccCount, List.length_cons, ccCountF]
    by_cases hpw : pw
    · simp [hpw]
    · simp only [hpw, if_false]
      cases hm : matchConstOpen (c :: rest) with
      | some p =>
        obtain ⟨m, r⟩ := p
        simp only [hm]
        have hr := matchConstOpen_length hm
        simp only [List.length_cons] at hr
        rw [@ccCountF_fuel rest.length r.length false r (by omega) (le_refl _)]
      | none =>
        simp only [hm]

theorem ccAux_nil (pw : Bool) : ccAux pw [] = [] := by
  simp [ccAux, ccAuxF]

/-- A failed `\s*\(` lookahead stays failed after the scan rewrites the tail. -/
theorem matchOpenAux_none_ccAux {u : List Char} (h : matchOpenAux u = none) (pw : Bool) :
    matchOpenAux (ccAux pw u) = none := by
  induction u generalizing pw with
  | nil => simp [ccAux_nil, matchOpenAux]
  | cons x u' ih =>
    simp only [matchOpenAux] at h
    rw [ccAux_eq]
    by_cases hx : x = '('
    · rw [if_pos hx] at h
      simp at h
    · rw [if_neg hx] at h
      by_cases hs : isPySpace x = true
      · rw [if_pos hs] at h
        have hu' : matchOpenAux u' = none := by
          cases hmo : matchOpenAux u' with
          | none => rfl
          | some p => rw [hmo] at h; simp at h
        have hw : isWordChar x = false := by
          simp only [isPySpace, Bool.or_eq_true, decide_eq_true_eq] at hs
          simp only [isWordChar, Bool.or_eq_false_iff, Bool.and_eq_false_iff,
            decide_eq_false_iff_not]
          omega
        by_cases hpw : pw
        · simp only [hpw, if_true, matchOpenAux, if_neg hx, if_pos hs]
          rw [ih hu' (isWordChar x)]
          simp
        · have hmc : matchConstOpen (x :: u') = none :=
            matchConstOpen_not_c u' (by intro hc; subst hc; simp [isPySpace] at hs)
          simp only [hpw, Bool.false_eq_true, if_false, hmc, matchOpenAux, if_neg hx, if_pos hs]
          rw [ih hu' (isWordChar x)]
          simp
      · by_cases hpw : pw
        · simp only [hpw, if_true, matchOpenAux, if_neg hx, hs]
          simp
        · cases hmc : matchConstOpen (x :: u') with
          | some p =>
            obtain ⟨m, r⟩ := p
            simp only [hpw, Bool.false_eq_true, if_false, hmc]
            simp only [matchOpenAux]
            rw [if_neg (show ¬('v' = '(') by decide),
              if_neg (show ¬(isPySpace 'v' = true) by decide)]
          | none =>
            simp only [hpw, Bool.false_eq_true, if_false, hmc, matchOpenAux, if_neg hx, hs]
            try simp

/-! Step corollaries for the const scan. -/

theorem ccAux_cons_true (c : Char) (rest : List Char) :
    ccAux true (c :: rest) = c :: ccAux (isWordChar c) rest := by
  rw [ccAux_eq]
  simp

theorem ccAux_cons_false_none {c : Char} {rest : List Char}
    (h : matchConstOpen (c :: rest) = none) :
    ccAux false (c :: rest) = c :: ccAux (isWordChar c) rest := by
  rw [ccAux_eq]
  simp [h]

theorem ccAux_cons_false_some {c : Char} {rest m r : List Char}
    (h : matchConstOpen (c :: rest) = some (m, r)) :
    ccAux false (c :: rest) = 'v' :: 'a' :: 'r' :: ' ' :: '(' :: ccAux false r := by
  rw [ccAux_eq]
  simp [h]

theorem ccCount_nil (pw : Bool) : ccCount pw [] = 0 := by
  simp [ccCount, ccCountF]

theorem ccCount_cons_true (c : Char) (rest : List Char) :
    ccCount true (c :: rest) = ccCount (isWordChar c) rest := by
  rw [ccCount_eq]
  simp

theorem ccCount_cons_false_none {c : Char} {rest : List Char}
    (h : matchConstOpen (c :: rest) = none) :
    ccCount false (c :: rest) = ccCount (isWordChar c) rest := by
  rw [ccCount_eq]
  simp [h]

theorem ccCount_cons_false_some {c : Char} {rest m r : List Char}
    (h : matchConstOpen (c :: rest) = some (m, r)) :
    ccCount false (c :: rest) = 1 + ccCount false r := by
  rw [ccCount_eq]
  simp [h]

/-- A failed `\bconst\s*\(` match at the head stays failed after the scan rewrites
the tail. -/
theorem matchConstOpen_none_ccAux {c : Char} {rest : List Char}
    (hm : matchConstOpen (c :: rest) = none) :
    matchConstOpen (c :: ccAux (isWordChar c) rest) = none := by
  by_cases hc : c = 'c'
  case neg => exact matchConstOpen_not_c _ hc
  subst hc
  rw [show isWordChar 'c' = true from by decide]
  cases rest with
  | nil => rw [ccAux_nil]; decide
  | cons c2 rest2 =>
    rw [ccAux_cons_true]
    by_cases h2 : c2 = 'o'
    case neg => exact matchConstOpen_not_o _ h2
    subst h2
    rw [show isWordChar 'o' = true from by decide]
    cases rest2 with
    | nil => rw [ccAux_nil]; decide
    | cons c3 rest3 =>
      rw [ccAux_cons_true]
      by_cases h3 : c3 = 'n'
      case neg => exact matchConstOpen_not_n _ h3
      subst h3
      rw [show isWordChar 'n' = true from by decide]
      cases rest3 with
      | nil => rw [ccAux_nil]; decide
      | cons c4 rest4 =>
        rw [ccAux_cons_true]
        by_cases h4 : c4 = 's'
        case neg => exact matchConstOpen_not_s _ h4
        subst h4
        rw [show isWordChar 's' = true from by decide]
        cases rest4 with
        | nil => rw [ccAux_nil]; decide
        | cons c5 rest5 =>
          rw [ccAux_cons_true]
          by_cases h5 : c5 = 't'
          case neg => exact matchConstOpen_not_t _ h5
          subst h5
          rw [show isWordChar 't' = true from by decide]
          rw [matchConstOpen_const] at hm ⊢
          have hu : matchOpenAux rest5 = none := by
            cases hmo : matchOpenAux rest5 with
            | none => rfl
            | some p => rw [hmo] at hm; simp at hm
          rw [matchOpenAux_none_ccAux hu true]
          rfl

theorem ccCount_var_paren (pw : Bool) (X : List Char) :
    ccCount pw ('v' :: 'a' :: 'r' :: ' ' :: '(' :: X) = ccCount false X := by
  have key : ccCount true ('a' :: 'r' :: ' ' :: '(' :: X) = ccCount false X := by
    rw [ccCount_cons_true, show isWordChar 'a' = true from by decide,
      ccCount_cons_true, show isWordChar 'r' = true from by decide,
      ccCount_cons_true, show isWordChar ' ' = false from by decide,
      ccCount_cons_false_none (matchConstOpen_not_c _ (by decide)),
      show isWordChar '(' = false from by decide]
  by_cases hpw : pw
  · subst hpw
    rw [ccCount_cons_true, show isWordChar 'v' = true from by decide, key]
  · have hpw' : pw = false := by revert hpw; cases pw <;> simp
    subst hpw'
    rw [ccCount_cons_false_none (matchConstOpen_not_c _ (by decide)),
      show isWordChar 'v' = true from by decide, key]

/-- The output of the const scan contains no match: every occurrence was replaced. -/
theorem ccCount_ccAux_zero : ∀ (n : Nat) (pw : Bool) (s : List Char), s.length ≤ n →
    ccCount pw (ccAux pw s) = 0 := by
  intro n
  induction n with
  | zero =>
    intro pw s h
    have : s = [] := List.length_eq_zero.mp (by omega)
    subst this
    rw [ccAux_nil, ccCount_nil]
  | succ n ih =>
    intro pw s hlen
    cases s with
    | nil => rw [ccAux_nil, ccCount_nil]
    | cons c rest =>
      simp only [List.length_cons] at hlen
      by_cases hpw : pw
      · subst hpw
        rw [ccAux_cons_true, ccCount_cons_true]
        exact ih (isWordChar c) rest (by omega)
      · have hpw' : pw = false := by revert hpw; cases pw <;> simp
        subst hpw'
        cases hm : matchConstOpen (c :: rest) with
        | some p =>
          obtain ⟨m, r⟩ := p
          have hr := matchConstOpen_length hm
          simp only [List.length_cons] at hr
          rw [ccAux_cons_false_some hm, ccCount_var_paren]
          exact ih false r (by omega)
        | none =>
          rw [ccAux_cons_false_none hm,
            ccCount_cons_false_none (matchConstOpen_none_ccAux hm)]
          exact ih (isWordChar c) rest (by omega)

/-- A text in which the scan finds no match is left unchanged. -/
theorem ccAux_id_of_count_zero : ∀ (n : Nat) (pw : Bool) (s : List Char), s.length ≤ n →
    ccCount pw s = 0 → ccAux pw s = s := by
  intro n
  induction n with
  | zero =>
    intro pw s h _
    have : s = [] := List.length_eq_zero.mp (by omega)
    subst this
    exact ccAux_nil pw
  | succ n ih =>
    intro pw s hlen h0
    cases s with
    | nil => exact ccAux_nil pw
    | cons c rest =>
      simp only [List.length_cons] at hlen
      by_cases hpw : pw
      · subst hpw
        rw [ccCount_cons_true] at h0
        rw [ccAux_cons_true, ih (isWordChar c) rest (by omega) h0]
      · have hpw' : pw = false := by revert hpw; cases pw <;> simp
        subst hpw'
        cases hm : matchConstOpen (c :: rest) with
        | some p =>
          obtain ⟨m, r⟩ := p
          rw [ccCount_cons_false_some hm] at h0
          omega
        | none =>
          rw [ccCount_cons_false_none hm] at h0
          rw [ccAux_cons_false_none hm, ih (isWordChar c) rest (by omega) h0]

/-- The const conversion is idempotent. -/
theorem convert_const_to_var_idem (content : List Char) :
    convert_const_to_var (convert_const_to_var content) = convert_const_to_var content := by
  unfold convert_const_to_var
  exact ccAux_id_of_count_zero (ccAux false content).length false (ccAux false content)
    (le_refl _) (ccCount_ccAux_zero content.length false content (le_refl _))

/-! The piece decomposition of the const scan (claim C6). -/

/-- Prepend a copied character to a decomposition. -/
def consPlain (c : Char) :
    List (List Char × List Char) × List Char → List (List Char × List Char) × List Char
  | ([], tail) => ([], c :: tail)
  | ((pl, m) :: ps, tail) => ((c :: pl, m) :: ps, tail)

/-- Fuel-indexed decomposition of a text into copied pieces and matched openers,
following exactly the same scan as `ccAuxF`. -/
def ccDecompF : Nat → Bool → List Char → List (List Char × List Char) × List Char
  | 0, _, _ => ([], [])
  | _ + 1, _, [] => ([], [])
  | f + 1, pw, c :: rest =>
    if pw then consPlain c (ccDecompF f (isWordChar c) rest)
    else
      match matchConstOpen (c :: rest) with
      | some (m, r) =>
        let d := ccDecompF f false r
        (([], m) :: d.1, d.2)
      | none => consPlain c (ccDecompF f (isWordChar c) rest)

/-- Reassemble the original text from a decomposition. -/
def recOrig (d : List (List Char × List Char) × List Char) : List Char :=
  d.1.foldr (fun pm acc => pm.1 ++ pm.2 ++ acc) d.2

/-- Reassemble the converted text from a decomposition: every matched opener is
replaced by `var (`. -/
def recVar (d : List (List Char × List Char) × List Char) : List Char :=
  d.1.foldr (fun pm acc => pm.1 ++ "var (".data ++ acc) d.2

theorem recOrig_consPlain (c : Char) (d : List (List Char × List Char) × List Char) :
    recOrig (consPlain c d) = c :: recOrig d := by
  obtain ⟨ps, tail⟩ := d
  cases ps with
  | nil => simp [consPlain, recOrig]
  | cons pm ps' =>
    obtain ⟨pl, m⟩ := pm
    simp [consPlain, recOrig]

theorem recVar_consPlain (c : Char) (d : List (List Char × List Char) × List Char) :
    recVar (consPlain c d) = c :: recVar d := by
  obtain ⟨ps, tail⟩ := d
  cases ps with
  | nil => simp [consPlain, recVar]
  | cons pm ps' =>
    obtain ⟨pl, m⟩ := pm
    simp [consPlain, recVar]

theorem mem_consPlain {c : Char} {d : List (List Char × List Char) × List Char}
    {pm : List Char × List Char} (h : pm ∈ (consPlain c d).1) :
    ∃ pm' ∈ d.1, pm.2 = pm'.2 := by
  obtain ⟨ps, tail⟩ := d
  cases ps with
  | nil => simp [consPlain] at h
  | cons q ps' =>
    obtain ⟨pl, m⟩ := q
    simp only [consPlain, List.mem_cons] at h
    rcases h with h | h
    · exact ⟨(pl, m), by simp, by simp [h]⟩
    · exact ⟨pm, by simp [h], rfl⟩

theorem ccDecompF_orig : ∀ (f : Nat) (pw : Bool) (s : List Char), s.length ≤ f →
    recOrig (ccDecompF f pw s) = s := by
  intro f
  induction f with
  | zero =>
    intro pw s h
    have : s = [] := List.length_eq_zero.mp (by omega)
    subst this
    simp [ccDecompF, recOrig]
  | succ f ih =>
    intro pw s hlen
    cases s with
    | nil => simp [ccDecompF, recOrig]
    | cons c rest =>
      simp only [List.length_cons] at hlen
      simp only [ccDecompF]
      by_cases hpw : pw
      · simp only [hpw, if_true, recOrig_consPlain]
        rw [ih (isWordChar c) rest (by omega)]
      · simp only [hpw, Bool.false_eq_true, if_false]
        cases hm : matchConstOpen (c :: rest) with
        | some p =>
          obtain ⟨m, r⟩ := p
          have hr := matchConstOpen_length hm
          simp only [List.length_cons] at hr
          obtain ⟨happ, -⟩ := matchConstOpen_spec hm
          simp only [recOrig, List.foldr_cons, List.nil_append]
          rw [show ((ccDecompF f false r).1.foldr (fun pm acc => pm.1 ++ pm.2 ++ acc)
            (ccDecompF f false r).2) = recOrig (ccDecompF f false r) from rfl]
          rw [ih false r (by omega), happ]
        | none =>
          simp only [recOrig_consPlain]
          rw [ih (isWordChar c) rest (by omega)]

theorem ccDecompF_var : ∀ (f : Nat) (pw : Bool) (s : List Char), s.length ≤ f →
    recVar (ccDecompF f pw s) = ccAuxF f pw s := by
  intro f
  induction f with
  | zero =>
    intro pw s h
    have : s = [] := List.length_eq_zero.mp (by omega)
    subst this
    simp [ccDecompF, ccAuxF, recVar]
  | succ f ih =>
    intro pw s hlen
    cases s with
    | nil => simp [ccDecompF, ccAuxF, recVar]
    | cons c rest =>
      simp only [List.length_cons] at hlen
      simp only [ccDecompF, ccAuxF]
      by_cases hpw : pw
      · simp only [hpw, if_true, recVar_consPlain]
        rw [ih (isWordChar c) rest (by omega)]
      · simp only [hpw, Bool.false_eq_true, if_false]
        cases hm : matchConstOpen (c :: rest) with
        | some p =>
          obtain ⟨m, r⟩ := p
          have hr := matchConstOpen_length hm
          simp only [List.length_cons] at hr
          simp only [recVar, List.foldr_cons, List.nil_append]
          rw [show ((ccDecompF f false r).1.foldr (fun pm acc => pm.1 ++ "var (".data ++ acc)
            (ccDecompF f false r).2) = recVar (ccDecompF f false r) from rfl]
          rw [ih false r (by omega)]
          rfl
        | none =>
          simp only [recVar_consPlain]
          rw [ih (isWordChar c) rest (by omega)]

theorem ccDecompF_opener : ∀ (f : Nat) (pw : Bool) (s : List Char), s.length ≤ f →
    ∀ pm ∈ (ccDecompF f pw s).1, openerShape pm.2 = true := by
  intro f
  induction f with
  | zero =>
    intro pw s h pm hpm
    simp [ccDecompF] at hpm
  | succ f ih =>
    intro pw s hlen pm hpm
    cases s with
    | nil => simp [ccDecompF] at hpm
    | cons c rest =>
      simp only [List.length_cons] at hlen
      simp only [ccDecompF] at hpm
      by_cases hpw : pw
      · rw [if_pos hpw] at hpm
        obtain ⟨pm', hpm', he⟩ := mem_consPlain hpm
        rw [he]
        exact ih (isWordChar c) rest (by omega) pm' hpm'
      · rw [if_neg hpw] at hpm
        cases hm : matchConstOpen (c :: rest) with
        | some p =>
          obtain ⟨m, r⟩ := p
          have hr := matchConstOpen_length hm
          simp only [List.length_cons] at hr
          rw [hm] at hpm
          simp only [List.mem_cons] at hpm
          rcases hpm with h | h
          · rw [h]
            exact (matchConstOpen_spec hm).2
          · exact ih false r (by omega) pm h
        | none =>
          rw [hm] at hpm
          obtain ⟨pm', hpm', he⟩ := mem_consPlain hpm
          rw [he]
          exact ih (isWordChar c) rest (by omega) pm' hpm'

/-- C6: the const conversion decomposes the input into copied pieces interleaved
with matched `const\s*(` openers; each opener is replaced by exactly one `var (`
(count preserved, no additions or removals), all text outside the matched openers
is unchanged, the output contains no remaining opener match (every occurrence was
replaced), and the conversion is idempotent. -/
theorem c6_const_opener_replacement (content : List Char) :
    (∃ ps : List (List Char × List Char), ∃ tail : List Char,
      content = ps.foldr (fun pm acc => pm.1 ++ pm.2 ++ acc) tail ∧
      convert_const_to_var content = ps.foldr (fun pm acc => pm.1 ++ "var (".data ++ acc) tail ∧
      ∀ pm ∈ ps, openerShape pm.2 = true) ∧
    ccCount false (convert_const_to_var content) = 0 ∧
    convert_const_to_var (convert_const_to_var content) = convert_const_to_var content := by
  refine ⟨⟨(ccDecompF content.length false content).1, (ccDecompF content.length false content).2,
      ?_, ?_, ?_⟩, ?_, ?_⟩
  · exact (ccDecompF_orig content.length false content (le_refl _)).symm
  · exact (ccDecompF_var content.length false content (le_refl _)).symm
  · exact ccDecompF_opener content.length false content (le_refl _)
  · exact ccCount_ccAux_zero content.length false content (le_refl _)
  · exact convert_const_to_var_idem content

/-! Idempotence of the literal rewriter (used by claim C1). -/

/-- Full characterization of a successful head match of the substitution pattern. -/
theorem parseAssign_spec {s ind nm v a : List Char} (h : parseAssign s = some (ind, nm, v, a)) :
    ∃ w1 w2 val, v = 'g' :: 'o' :: 'v' :: 'e' :: 'l' :: '.' :: val ∧
      s = ind ++ nm ++ w1 ++ '=' :: (w2 ++ '"' :: 'g' :: 'o' :: 'v' :: 'e' :: 'l' :: '.' ::
        (val ++ '"' :: a)) ∧
      (∀ c ∈ ind, isPySpace c = true) ∧ nm ≠ [] ∧ (∀ c ∈ nm, isCapU c = true) ∧
      (∀ c ∈ w1, isPySpace c = true) ∧ (∀ c ∈ w2, isPySpace c = true) ∧
      val ≠ [] ∧ (∀ c ∈ val, ¬(c = '"')) := by
  simp only [parseAssign] at h
  split at h
  · exact absurd h (by simp)
  · rename_i hnme
    split at h
    · rename_i s4 heq1
      split at h
      · rename_i s6 heq2
        split at h
        · exact absurd h (by simp)
        · rename_i hvne
          split at h
          · rename_i s8 heq3
            simp only [Option.some.injEq, Prod.mk.injEq] at h
            obtain ⟨hind, hnm, hv, ha⟩ := h
            refine ⟨((s.dropWhile isPySpace).dropWhile isCapU).takeWhile isPySpace,
              s4.takeWhile isPySpace, s6.takeWhile (fun c => !(c = '"' : Bool)),
              by rw [← hv], ?_, ?_, ?_, ?_, ?_, ?_, ?_, ?_⟩
            · have e1 : s = s.takeWhile isPySpace ++ s.dropWhile isPySpace :=
                (List.takeWhile_append_dropWhile _ _).symm
              have e2 : s.dropWhile isPySpace =
                  (s.dropWhile isPySpace).takeWhile isCapU ++
                    (s.dropWhile isPySpace).dropWhile isCapU :=
                (List.takeWhile_append_dropWhile _ _).symm
              have e3 : (s.dropWhile isPySpace).dropWhile isCapU =
                  ((s.dropWhile isPySpace).dropWhile isCapU).takeWhile isPySpace ++
                    ((s.dropWhile isPySpace).dropWhile isCapU).dropWhile isPySpace :=
                (List.takeWhile_append_dropWhile _ _).symm
              have e4 : s4 = s4.takeWhile isPySpace ++ s4.dropWhile isPySpace :=
                (List.takeWhile_append_dropWhile _ _).symm
              have e5 : s6 = s6.takeWhile (fun c => !(c = '"' : Bool)) ++
                  s6.dropWhile (fun c => !(c = '"' : Bool)) :=
                (List.takeWhile_append_dropWhile _ _).symm
              conv_lhs => rw [e1, e2, e3, heq1, e4, heq2, e5, heq3]
              rw [← hind, ← hnm, ← ha]
              simp [List.append_assoc]
            · intro c hc
              rw [← hind] at hc
              exact List.mem_takeWhile_imp hc
            · intro hc
              rw [← hnm] at hc
              rw [hc] at hnme
              simp at hnme
            · intro c hc
              rw [← hnm] at hc
              exact List.mem_takeWhile_imp hc
            · intro c hc
              exact List.mem_takeWhile_imp hc
            · intro c hc
              exact List.mem_takeWhile_imp hc
            · intro hc
              rw [hc] at hvne
              simp at hvne
            · intro c hc
              have := List.mem_takeWhile_imp hc
              simpa using this
          · exact absurd h (by simp)
      · exact absurd h (by simp)
    · exact absurd h (by simp)

/-- Every character of the rewriter's output is a character of its input or one of
the fixed characters of the replacement text. -/
theorem mem_csSubAux : ∀ (n : Nat) (s : List Char), s.length ≤ n →
    ∀ x ∈ csSubAux s, x ∈ s ∨ x ∈ (" = symbol.For(\")".data : List Char) := by
  intro n
  induction n with
  | zero =>
    intro s hl x hx
    have : s = [] := List.length_eq_zero.mp (by omega)
    subst this
    rw [csSubAux_eq] at hx
    simp at hx
  | succ n ih =>
    intro s hlen x hx
    cases s with
    | nil => rw [csSubAux_eq] at hx; simp at hx
    | cons c rest =>
      simp only [List.length_cons] at hlen
      cases hp : parseAssign (c :: rest) with
      | some q =>
        obtain ⟨ind, nm, v, a⟩ := q
        rw [csSubAux_of_parse hp] at hx
        obtain ⟨w1, w2, val, hval, hs, -, -, -, -, -, -, -⟩ := parseAssign_spec hp
        have hlen2 := parseAssign_length hp
        simp only [List.length_cons] at hlen2
        have hins : ∀ y : Char, (y ∈ ind ∨ y ∈ nm ∨ y ∈ val ∨ y ∈ a) → y ∈ (c :: rest : List Char) := by
          intro y hy
          rw [hs]
          simp only [List.mem_append, List.mem_cons]
          rcases hy with h | h | h | h
          · tauto
          · tauto
          · tauto
          · tauto
        simp only [List.mem_append] at hx
        rcases hx with ((((hx | hx) | hx) | hx) | hx) | hx
        · exact Or.inl (hins x (by tauto))
        · exact Or.inl (hins x (by tauto))
        · right
          have hpref : (" = symbol.For(\")".data : List Char) =
              (" = symbol.For(\"".data : List Char) ++ [')'] := by decide
          rw [hpref]
          exact List.mem_append.mpr (Or.inl hx)
        · rw [hval] at hx
          simp only [List.mem_cons] at hx
          rcases hx with rfl | rfl | rfl | rfl | rfl | rfl | hx
          · exact Or.inl (by rw [hs]; simp)
          · exact Or.inl (by rw [hs]; simp)
          · exact Or.inl (by rw [hs]; simp)
          · exact Or.inl (by rw [hs]; simp)
          · exact Or.inl (by rw [hs]; simp)
          · exact Or.inl (by rw [hs]; simp)
          · exact Or.inl (hins x (by tauto))
        · right
          simp only [List.mem_cons] at hx
          rcases hx with rfl | rfl | hx
          · decide
          · decide
          · simp at hx
        · rcases ih a (by omega) x hx with h | h
          · exact Or.inl (hins x (by tauto))
          · exact Or.inr h
      | none =>
        rw [csSubAux_of_none hp] at hx
        rcases List.mem_cons.mp hx with h | h
        · exact Or.inl (by simp [h])
        · rcases ih rest (by omega) x h with h1 | h1
          · exact Or.inl (by simp [h1])
          · exact Or.inr h1

/-- The rewriter never introduces a newline into a line that has none. -/
theorem csSubAux_no_newline {s : List Char} (hnl : '\n' ∉ s) : '\n' ∉ csSubAux s := by
  intro hbad
  rcases mem_csSubAux s.length s (le_refl _) '\n' hbad with h | h
  · exact hnl h
  · revert h
    decide

/-- A match of the guard pattern at the head gives a match of the substitution
pattern at the head (with empty captured indentation). -/
theorem parseAssign_of_core {s : List Char} (h : parseCoreB s = true) :
    ∃ nm v a, parseAssign s = some ([], nm, v, a) := by
  cases s with
  | nil => simp [parseCoreB] at h
  | cons c rest =>
    have hcap : isCapU c = true := by
      by_contra hc
      have hnil : (c :: rest).takeWhile isCapU = [] := by
        simp only [List.takeWhile_cons]
        rw [if_neg hc]
      simp only [parseCoreB, hnil] at h
      simp at h
    have hns : isPySpace c = false := isCapU_not_space hcap
    have htk : (c :: rest).takeWhile isPySpace = [] := by
      simp only [List.takeWhile_cons]
      rw [if_neg (by simp [hns])]
    have hdr : (c :: rest).dropWhile isPySpace = c :: rest := by
      simp only [List.dropWhile_cons]
      rw [if_neg (by simp [hns])]
    simp only [parseAssign, htk, hdr]
    simp only [parseCoreB] at h
    split at h
    · simp at h
    · rename_i hempty
      rw [if_neg hempty]
      split at h
      · rename_i s4 heq1
        split at h
        · rename_i s6 heq2
          split at h
          · rename_i s8 heq3
            simp only [Bool.not_eq_eq_eq_not, Bool.not_true] at h
            rw [if_neg (by simp [h])]
            exact ⟨_, _, _, rfl⟩
          · simp at h
        · simp at h
      · simp at h

theorem containsTok_sub {pat y : List Char} (h : containsTok pat y = true) (x z : List Char) :
    containsTok pat (x ++ y ++ z) = true := by
  obtain ⟨u, w, he⟩ := containsTok_iff_exists.mp h
  exact containsTok_iff_exists.mpr ⟨x ++ u, w ++ z, by simp [he]⟩

theorem containsTok_cons_of {pat t : List Char} {c : Char} (h : containsTok pat t = true) :
    containsTok pat (c :: t) = true := by
  simp [containsTok, h]

/-- When the search pattern matches somewhere, the substituted line contains the
`symbol.For(` token. -/
theorem symbolFor_in_csSubAux : ∀ (n : Nat) (s : List Char), s.length ≤ n →
    hasAssign s = true → containsTok symbolForTok (csSubAux s) = true := by
  intro n
  induction n with
  | zero =>
    intro s hl h
    have : s = [] := List.length_eq_zero.mp (by omega)
    subst this
    simp [hasAssign] at h
  | succ n ih =>
    intro s hlen h
    cases s with
    | nil => simp [hasAssign] at h
    | cons c rest =>
      simp only [List.length_cons] at hlen
      cases hp : parseAssign (c :: rest) with
      | some q =>
        obtain ⟨ind, nm, v, a⟩ := q
        rw [csSubAux_of_parse hp]
        have hf1 : containsTok symbolForTok (" = symbol.For(\"".data) = true := by decide
        have he : ind ++ nm ++ " = symbol.For(\"".data ++ v ++ "\")".data ++ csSubAux a =
            (ind ++ nm) ++ " = symbol.For(\"".data ++ (v ++ "\")".data ++ csSubAux a) := by
          simp
        rw [he]
        exact containsTok_sub hf1 _ _
      | none =>
        rw [csSubAux_of_none hp]
        simp only [hasAssign, Bool.or_eq_true] at h
        rcases h with h | h
        · obtain ⟨nm, v, a, hpa⟩ := parseAssign_of_core h
          rw [hpa] at hp
          simp at hp
        · exact containsTok_cons_of (ih rest (by omega) h)

/-- One line of the literal rewrite is idempotent. -/
theorem csLine_idem (l : List Char) : csLine (csLine l) = csLine l := by
  by_cases hg : (!containsTok symbolForTok l && hasAssign l) = true
  · have hha : hasAssign l = true := by
      rcases Bool.and_eq_true .. |>.mp hg with ⟨-, h2⟩
      exact h2
    have hout : containsTok symbolForTok (csSubAux l) = true :=
      symbolFor_in_csSubAux l.length l (le_refl _) hha
    have h1 : csLine l = csSubAux l := by
      unfold csLine
      rw [if_pos hg]
    rw [h1]
    unfold csLine
    rw [if_neg (by simp [hout])]
  · have h1 : csLine l = l := by
      unfold csLine
      rw [if_neg hg]
    rw [h1, h1]

theorem csLine_no_newline {l : List Char} (hl : '\n' ∉ l) : '\n' ∉ csLine l := by
  unfold csLine
  split
  · exact csSubAux_no_newline hl
  · exact hl

/-- The literal rewriter is idempotent on whole files. -/
theorem convert_string_to_symbol_idem (c : List Char) :
    convert_string_to_symbol (convert_string_to_symbol c) = convert_string_to_symbol c := by
  unfold convert_string_to_symbol
  have hsplit : splitNL (joinNL ((splitNL c).map csLine)) = (splitNL c).map csLine := by
    apply splitNL_joinNL
    · intro hc
      exact splitNL_ne_nil c (List.map_eq_nil_iff.mp hc)
    · intro l hl
      obtain ⟨l0, hl0, he⟩ := List.mem_map.mp hl
      rw [← he]
      exact csLine_no_newline (not_mem_splitNL c l0 hl0)
  rw [hsplit, List.map_map]
  congr 1
  apply List.map_congr_left
  intro a _
  exact csLine_idem a

/-! Scan-level analysis showing the literal rewriter creates no `\bconst\s*\(`
match.  The key tool is the trichotomy of `matchOpenAux` on a prefix: the prefix
either stops the `\s*\(` scan with a non-space non-paren character, is all
whitespace (deferring to the continuation), or completes a match inside itself. -/

/-- The list consists of Python whitespace only. -/
def allWsB (l : List Char) : Bool :=
  l.all isPySpace

/-- The list holds, before any `(`, a character that stops the `\s*\(` scan. -/
def mopStop : List Char → Bool
  | [] => false
  | c :: r => if c = '(' then false else if isPySpace c then mopStop r else true

theorem matchOpenAux_append_some {u m r : List Char} (z : List Char)
    (h : matchOpenAux u = some (m, r)) :
    matchOpenAux (u ++ z) = some (m, r ++ z) := by
  induction u generalizing m r with
  | nil => simp [matchOpenAux] at h
  | cons c rest ih =>
    simp only [matchOpenAux] at h
    simp only [List.cons_append, matchOpenAux, List.append_eq]
    by_cases hp : c = '('
    · rw [if_pos hp] at h
      simp only [Option.some.injEq, Prod.mk.injEq] at h
      obtain ⟨hm, hr⟩ := h
      subst hm; subst hr
      rw [if_pos hp]
    · rw [if_neg hp] at h
      rw [if_neg hp]
      by_cases hs : isPySpace c = true
      · rw [if_pos hs] at h
        rw [if_pos hs]
        cases hmo : matchOpenAux rest with
        | none => rw [hmo] at h; simp at h
        | some p =>
          rw [hmo] at h
          obtain ⟨m', r'⟩ := p
          simp only [Option.map_some', Option.some.injEq, Prod.mk.injEq] at h
          obtain ⟨hm, hr⟩ := h
          subst hm; subst hr
          rw [ih hmo]
          simp
      · rw [if_neg hs] at h
        simp at h

theorem mopStop_append_none : ∀ (l : List Char), mopStop l = true →
    ∀ (z : List Char), matchOpenAux (l ++ z) = none := by
  intro l
  induction l with
  | nil => intro h; simp [mopStop] at h
  | cons c r ih =>
    intro h z
    simp only [mopStop] at h
    simp only [List.cons_append, matchOpenAux, List.append_eq]
    by_cases hp : c = '('
    · rw [if_pos hp] at h; simp at h
    · rw [if_neg hp] at h
      rw [if_neg hp]
      by_cases hs : isPySpace c = true
      · rw [if_pos hs] at h
        rw [if_pos hs, ih h z]
        rfl
      · rw [if_neg hs]

theorem matchOpenAux_none_cases : ∀ (l : List Char), matchOpenAux l = none →
    mopStop l = true ∨ allWsB l = true := by
  intro l
  induction l with
  | nil => intro h; right; simp [allWsB]
  | cons c r ih =>
    intro h
    simp only [matchOpenAux] at h
    by_cases hp : c = '('
    · rw [if_pos hp] at h; simp at h
    · rw [if_neg hp] at h
      by_cases hs : isPySpace c = true
      · rw [if_pos hs] at h
        have hr : matchOpenAux r = none := by
          cases hmo : matchOpenAux r with
          | none => rfl
          | some p => rw [hmo] at h; simp at h
        rcases ih hr with h1 | h1
        · left
          simp only [mopStop]
          rw [if_neg hp, if_pos hs]
          exact h1
        · right
          simp only [allWsB, List.all_cons, hs, Bool.true_and]
          exact h1
      · left
        simp only [mopStop]
        rw [if_neg hp, if_neg hs]

theorem matchOpenAux_allWs_append : ∀ (l : List Char), allWsB l = true →
    ∀ (z : List Char),
    matchOpenAux (l ++ z) = (matchOpenAux z).map (fun p => (l ++ p.1, p.2)) := by
  intro l
  induction l with
  | nil =>
    intro _ z
    simp only [List.nil_append]
    cases matchOpenAux z with
    | none => rfl
    | some p => simp
  | cons c r ih =>
    intro h z
    simp only [allWsB, List.all_cons, Bool.and_eq_true] at h
    obtain ⟨hc, hr⟩ := h
    have hcp : ¬(c = '(') := by
      intro he; subst he; exact absurd hc (by decide)
    simp only [List.cons_append, matchOpenAux, List.append_eq]
    rw [if_neg hcp, if_pos hc, ih hr z]
    cases matchOpenAux z with
    | none => rfl
    | some p => simp

theorem matchOpenAux_quote_cons (T : List Char) : matchOpenAux ('"' :: T) = none := by
  simp only [matchOpenAux]
  rw [if_neg (show ¬('"' = '(') from by decide),
    if_neg (show ¬(isPySpace '"' = true) from by decide)]

theorem matchOpenAux_newline_none {T : List Char} :
    matchOpenAux ('\n' :: T) = none ↔ matchOpenAux T = none := by
  simp only [matchOpenAux]
  rw [if_neg (show ¬('\n' = '(') from by decide),
    if_pos (show isPySpace '\n' = true from by decide)]
  cases matchOpenAux T with
  | none => simp
  | some p => simp

theorem matchOpenAux_swap_tail {l K R : List Char}
    (hk : matchOpenAux K = none → matchOpenAux R = none)
    (h : matchOpenAux (l ++ K) = none) : matchOpenAux (l ++ R) = none := by
  cases hmo : matchOpenAux l with
  | some p =>
    obtain ⟨m, r⟩ := p
    rw [matchOpenAux_append_some K hmo] at h
    simp at h
  | none =>
    rcases matchOpenAux_none_cases l hmo with h1 | h1
    · exact mopStop_append_none l h1 R
    · rw [matchOpenAux_allWs_append l h1 K] at h
      rw [matchOpenAux_allWs_append l h1 R]
      have hkn : matchOpenAux K = none := by
        cases hmk : matchOpenAux K with
        | none => rfl
        | some p => rw [hmk] at h; simp at h
      rw [hk hkn]
      rfl

theorem ccCount_quote_cons (q : Bool) (T : List Char) :
    ccCount q ('"' :: T) = ccCount false T := by
  cases q with
  | true =>
    rw [ccCount_cons_true, show isWordChar '"' = false from by decide]
  | false =>
    rw [ccCount_cons_false_none (matchConstOpen_not_c _ (by decide)),
      show isWordChar '"' = false from by decide]

theorem ccCount_newline_cons (q : Bool) (T : List Char) :
    ccCount q ('\n' :: T) = ccCount false T := by
  cases q with
  | true =>
    rw [ccCount_cons_true, show isWordChar '\n' = false from by decide]
  | false =>
    rw [ccCount_cons_false_none (matchConstOpen_not_c _ (by decide)),
      show isWordChar '\n' = false from by decide]

theorem ccCount_no_c : ∀ (s : List Char) (pw : Bool), (∀ x ∈ s, ¬(x = 'c')) →
    ccCount pw s = 0 := by
  intro s
  induction s with
  | nil => intro pw _; exact ccCount_nil pw
  | cons c r ih =>
    intro pw h
    have hc : ¬(c = 'c') := h c (by simp)
    have hr : ∀ x ∈ r, ¬(x = 'c') := fun x hx => h x (by simp [hx])
    cases pw with
    | true =>
      rw [ccCount_cons_true]
      exact ih (isWordChar c) hr
    | false =>
      rw [ccCount_cons_false_none (matchConstOpen_not_c _ hc)]
      exact ih (isWordChar c) hr

theorem ccCount_newline_tail : ∀ (l : List Char) (pw : Bool) (T : List Char),
    ccCount pw (l ++ '\n' :: T) = 0 → ccCount false T = 0 := by
  intro l
  induction l with
  | nil =>
    intro pw T h
    simp only [List.nil_append] at h
    rwa [ccCount_newline_cons] at h
  | cons c r ih =>
    intro pw T h
    simp only [List.cons_append] at h
    cases pw with
    | true =>
      rw [ccCount_cons_true] at h
      exact ih (isWordChar c) T h
    | false =>
      cases hm : matchConstOpen (c :: (r ++ '\n' :: T)) with
      | some p =>
        obtain ⟨m, rr⟩ := p
        rw [ccCount_cons_false_some hm] at h
        omega
      | none =>
        rw [ccCount_cons_false_none hm] at h
        exact ih (isWordChar c) T h

/-- Appending after a closing quote: a `\bconst\s*\(` match attempt that starts in
the prefix behaves the same whether the quote is followed by more text or not,
since the quote character can complete neither the keyword nor the `\s*\(` part. -/
theorem matchConstOpen_quote_append : ∀ (Z T : List Char),
    (matchConstOpen (Z ++ '"' :: T) = none ∧ matchConstOpen (Z ++ ['"']) = none) ∨
    (∃ m r, matchConstOpen (Z ++ '"' :: T) = some (m, r ++ '"' :: T) ∧
      matchConstOpen (Z ++ ['"']) = some (m, r ++ ['"']) ∧ r.length < Z.length) := by
  intro Z T
  rcases Z with - | ⟨a, - | ⟨b, - | ⟨c3, - | ⟨c4, - | ⟨c5, u⟩⟩⟩⟩⟩
  · exact Or.inl ⟨matchConstOpen_not_c _ (by decide), matchConstOpen_not_c _ (by decide)⟩
  · simp only [List.cons_append, List.nil_append]
    by_cases ha : a = 'c'
    · subst ha
      exact Or.inl ⟨matchConstOpen_not_o _ (by decide), matchConstOpen_not_o _ (by decide)⟩
    · exact Or.inl ⟨matchConstOpen_not_c _ ha, matchConstOpen_not_c _ ha⟩
  · simp only [List.cons_append, List.nil_append]
    by_cases ha : a = 'c'
    case neg => exact Or.inl ⟨matchConstOpen_not_c _ ha, matchConstOpen_not_c _ ha⟩
    subst ha
    by_cases hb : b = 'o'
    case neg => exact Or.inl ⟨matchConstOpen_not_o _ hb, matchConstOpen_not_o _ hb⟩
    subst hb
    exact Or.inl ⟨matchConstOpen_not_n _ (by decide), matchConstOpen_not_n _ (by decide)⟩
  · simp only [List.cons_append, List.nil_append]
    by_cases ha : a = 'c'
    case neg => exact Or.inl ⟨matchConstOpen_not_c _ ha, matchConstOpen_not_c _ ha⟩
    subst ha
    by_cases hb : b = 'o'
    case neg => exact Or.inl ⟨matchConstOpen_not_o _ hb, matchConstOpen_not_o _ hb⟩
    subst hb
    by_cases h3 : c3 = 'n'
    case neg => exact Or.inl ⟨matchConstOpen_not_n _ h3, matchConstOpen_not_n _ h3⟩
    subst h3
    exact Or.inl ⟨matchConstOpen_not_s _ (by decide), matchConstOpen_not_s _ (by decide)⟩
  · simp only [List.cons_append, List.nil_append]
    by_cases ha : a = 'c'
    case neg => exact Or.inl ⟨matchConstOpen_not_c _ ha, matchConstOpen_not_c _ ha⟩
    subst ha
    by_cases hb : b = 'o'
    case neg => exact Or.inl ⟨matchConstOpen_not_o _ hb, matchConstOpen_not_o _ hb⟩
    subst hb
    by_cases h3 : c3 = 'n'
    case neg => exact Or.inl ⟨matchConstOpen_not_n _ h3, matchConstOpen_not_n _ h3⟩
    subst h3
    by_cases h4 : c4 = 's'
    case neg => exact Or.inl ⟨matchConstOpen_not_s _ h4, matchConstOpen_not_s _ h4⟩
    subst h4
    exact Or.inl ⟨matchConstOpen_not_t _ (by decide), matchConstOpen_not_t _ (by decide)⟩
  · simp only [List.cons_append]
    by_cases ha : a = 'c'
    case neg => exact Or.inl ⟨matchConstOpen_not_c _ ha, matchConstOpen_not_c _ ha⟩
    subst ha
    by_cases hb : b = 'o'
    case neg => exact Or.inl ⟨matchConstOpen_not_o _ hb, matchConstOpen_not_o _ hb⟩
    subst hb
    by_cases h3 : c3 = 'n'
    case neg => exact Or.inl ⟨matchConstOpen_not_n _ h3, matchConstOpen_not_n _ h3⟩
    subst h3
    by_cases h4 : c4 = 's'
    case neg => exact Or.inl ⟨matchConstOpen_not_s _ h4, matchConstOpen_not_s _ h4⟩
    subst h4
    by_cases h5 : c5 = 't'
    case neg => exact Or.inl ⟨matchConstOpen_not_t _ h5, matchConstOpen_not_t _ h5⟩
    subst h5
    rw [matchConstOpen_const, matchConstOpen_const]
    cases hmo : matchOpenAux u with
    | some p =>
      obtain ⟨m', r'⟩ := p
      right
      refine ⟨'c' :: 'o' :: 'n' :: 's' :: 't' :: m', r', ?_, ?_, ?_⟩
      · rw [matchOpenAux_append_some ('"' :: T) hmo]
        rfl
      · rw [matchOpenAux_append_some ['"'] hmo]
        rfl
      · have := matchOpenAux_length hmo
        simp only [List.length_cons]
        omega
    | none =>
      rcases matchOpenAux_none_cases u hmo with h1 | h1
      · rw [mopStop_append_none u h1 ('"' :: T), mopStop_append_none u h1 ['"']]
        exact Or.inl ⟨rfl, rfl⟩
      · rw [matchOpenAux_allWs_append u h1 ('"' :: T), matchOpenAux_allWs_append u h1 ['"'],
          matchOpenAux_quote_cons, matchOpenAux_quote_cons]
        exact Or.inl ⟨rfl, rfl⟩

/-- The match count splits at a closing quote: matches cannot span it. -/
theorem ccCount_quote_split : ∀ (n : Nat) (X : List Char) (pw : Bool) (T : List Char),
    X.length ≤ n →
    ccCount pw (X ++ '"' :: T) = ccCount pw (X ++ ['"']) + ccCount false T := by
  intro n
  induction n with
  | zero =>
    intro X pw T hl
    have hx : X = [] := List.length_eq_zero.mp (by omega)
    subst hx
    simp only [List.nil_append]
    rw [ccCount_quote_cons, ccCount_quote_cons, ccCount_nil]
    omega
  | succ n ih =>
    intro X pw T hl
    cases X with
    | nil =>
      simp only [List.nil_append]
      rw [ccCount_quote_cons, ccCount_quote_cons, ccCount_nil]
      omega
    | cons x X' =>
      simp only [List.length_cons] at hl
      cases pw with
      | true =>
        simp only [List.cons_append]
        rw [ccCount_cons_true, ccCount_cons_true]
        exact ih X' (isWordChar x) T (by omega)
      | false =>
        rcases matchConstOpen_quote_append (x :: X') T with ⟨hL, hR⟩ | ⟨m, r, hL, hR, hlen⟩
        · simp only [List.cons_append] at hL hR ⊢
          rw [ccCount_cons_false_none hL, ccCount_cons_false_none hR]
          exact ih X' (isWordChar x) T (by omega)
        · simp only [List.cons_append] at hL hR ⊢
          simp only [List.length_cons] at hlen
          rw [ccCount_cons_false_some hL, ccCount_cons_false_some hR]
          rw [ih r false T (by omega)]
          omega

theorem parseAssign_allWs {l : List Char} (h : allWsB l = true) : parseAssign l = none := by
  have hdrop : l.dropWhile isPySpace = [] := by
    rw [List.dropWhile_eq_nil_iff]
    intro x hx
    exact List.all_eq_true.mp h x hx
  simp only [parseAssign, hdrop, List.takeWhile_nil, List.isEmpty_nil, if_true]

theorem csSubAux_allWs : ∀ (l : List Char), allWsB l = true → csSubAux l = l := by
  intro l
  induction l with
  | nil => intro _; exact csSubAux_nil
  | cons c r ih =>
    intro h
    have hr : allWsB r = true := by
      simp only [allWsB, List.all_cons, Bool.and_eq_true] at h
      exact h.2
    rw [csSubAux_of_none (parseAssign_allWs h), ih hr]

theorem hasAssign_allWs : ∀ (l : List Char), allWsB l = true → hasAssign l = false := by
  intro l
  induction l with
  | nil => intro _; rfl
  | cons c r ih =>
    intro h
    simp only [allWsB, List.all_cons, Bool.and_eq_true] at h
    obtain ⟨hc, hr⟩ := h
    simp only [hasAssign, Bool.or_eq_false_iff]
    refine ⟨?_, ih (by simp [allWsB, hr])⟩
    simp only [parseCoreB, List.takeWhile_cons, isPySpace_not_capU hc, Bool.false_eq_true,
      if_false, List.isEmpty_nil, if_true]

theorem parseAssign_head_none {x : Char} (t : List Char)
    (hw : isPySpace x = false) (hc : isCapU x = false) : parseAssign (x :: t) = none := by
  simp only [parseAssign, List.takeWhile_cons, List.dropWhile_cons, hw, hc,
    Bool.false_eq_true, if_false, List.isEmpty_nil, if_true]

/-- When the pattern fires, the rewritten text starts with a whitespace or
identifier character (the preserved indent or name). -/
theorem csSubAux_head_parse {t ind nm v a : List Char}
    (h : parseAssign t = some (ind, nm, v, a)) :
    ∃ d z, csSubAux t = d :: z ∧ (isPySpace d = true ∨ isCapU d = true) := by
  obtain ⟨w1, w2, val, hv, hs, hindws, hnmne, hnmcap, hw1, hw2, hvalne, hvalq⟩ :=
    parseAssign_spec h
  have hout := csSubAux_of_parse h
  cases ind with
  | cons i0 ir =>
    refine ⟨i0, ir ++ nm ++ " = symbol.For(\"".data ++ v ++ "\")".data ++ csSubAux a, ?_, ?_⟩
    · rw [hout]; simp [List.append_assoc]
    · exact Or.inl (hindws i0 (by simp))
  | nil =>
    cases nm with
    | nil => exact absurd rfl hnmne
    | cons n0 nr =>
      refine ⟨n0, nr ++ " = symbol.For(\"".data ++ v ++ "\")".data ++ csSubAux a, ?_, ?_⟩
      · rw [hout]; simp [List.append_assoc]
      · exact Or.inr (hnmcap n0 (by simp))

theorem mopStop_ws_cap : ∀ (w : List Char), allWsB w = true → ∀ {d : Char},
    isCapU d = true → ∀ (z : List Char), mopStop (w ++ d :: z) = true := by
  intro w
  induction w with
  | nil =>
    intro _ d hd z
    simp only [List.nil_append, mopStop]
    have h1 : ¬(d = '(') := by
      intro he; subst he; exact absurd hd (by decide)
    rw [if_neg h1, isCapU_not_space hd]
    simp
  | cons c r ih =>
    intro h d hd z
    simp only [allWsB, List.all_cons, Bool.and_eq_true] at h
    obtain ⟨hc, hr⟩ := h
    have h1 : ¬(c = '(') := by
      intro he; subst he; exact absurd hc (by decide)
    simp only [List.cons_append, mopStop]
    rw [if_neg h1, hc]
    simp only [if_true]
    exact ih hr hd z

theorem mopStop_csSubAux : ∀ (n : Nat) (l : List Char), l.length ≤ n →
    mopStop l = true → mopStop (csSubAux l) = true := by
  intro n
  induction n with
  | zero =>
    intro l hl h
    have : l = [] := List.length_eq_zero.mp (by omega)
    subst this
    simp [mopStop] at h
  | succ n ih =>
    intro l hl h
    cases l with
    | nil => simp [mopStop] at h
    | cons c r =>
      simp only [List.length_cons] at hl
      cases hpa : parseAssign (c :: r) with
      | some q =>
        obtain ⟨ind, nm, v, a⟩ := q
        obtain ⟨w1, w2, val, hv, hs, hindws, hnmne, hnmcap, hw1, hw2, hvalne, hvalq⟩ :=
          parseAssign_spec hpa
        rw [csSubAux_of_parse hpa]
        cases nm with
        | nil => exact absurd rfl hnmne
        | cons n0 nr =>
          have hshape : ind ++ (n0 :: nr) ++ " = symbol.For(\"".data ++ v ++ "\")".data ++
              csSubAux a =
              ind ++ n0 :: (nr ++ " = symbol.For(\"".data ++ v ++ "\")".data ++ csSubAux a) := by
            simp [List.append_assoc]
          rw [hshape]
          exact mopStop_ws_cap ind (List.all_eq_true.mpr hindws) (hnmcap n0 (by simp))
            (nr ++ " = symbol.For(\"".data ++ v ++ "\")".data ++ csSubAux a)
      | none =>
        rw [csSubAux_of_none hpa]
        simp only [mopStop] at h ⊢
        by_cases hp : c = '('
        · rw [if_pos hp] at h; simp at h
        · rw [if_neg hp] at h
          rw [if_neg hp]
          by_cases hsp : isPySpace c = true
          · rw [if_pos hsp] at h
            rw [if_pos hsp]
            exact ih r (by omega) h
          · rw [if_neg hsp]

theorem wsCap_not_lower {d : Char} (hd : isPySpace d = true ∨ isCapU d = true) :
    ¬(d = 'o') ∧ ¬(d = 'n') ∧ ¬(d = 's') ∧ ¬(d = 't') := by
  refine ⟨?_, ?_, ?_, ?_⟩ <;> intro he <;> subst he <;>
    rcases hd with hd | hd <;> exact absurd hd (by decide)

/-- A failed `\s*\(` lookahead stays failed when the rewriter transforms the prefix
and the continuation is swapped for one that also fails. -/
theorem matchOpenAux_csSubAux_append {u K R : List Char}
    (hk : matchOpenAux K = none → matchOpenAux R = none)
    (h : matchOpenAux (u ++ K) = none) :
    matchOpenAux (csSubAux u ++ R) = none := by
  have hu : matchOpenAux u = none := by
    cases hmo : matchOpenAux u with
    | none => rfl
    | some p =>
      obtain ⟨m, r⟩ := p
      rw [matchOpenAux_append_some K hmo] at h
      simp at h
  rcases matchOpenAux_none_cases u hu with h1 | h1
  · exact mopStop_append_none (csSubAux u) (mopStop_csSubAux u.length u (le_refl _) h1) R
  · rw [csSubAux_allWs u h1]
    rw [matchOpenAux_allWs_append u h1 K] at h
    have hkn : matchOpenAux K = none := by
      cases hmk : matchOpenAux K with
      | none => rfl
      | some p => rw [hmk] at h; simp at h
    rw [matchOpenAux_allWs_append u h1 R, hk hkn]
    rfl

/-- A failed `\bconst\s*\(` match attempt stays failed when the continuation after
the current line is swapped for one whose `\s*\(` lookahead also fails. -/
theorem matchConstOpen_same_append {y K R : List Char}
    (hk : matchOpenAux K = none → matchOpenAux R = none)
    (hsh : (K = [] ∧ R = []) ∨ (∃ T U, K = '\n' :: T ∧ R = '\n' :: U))
    (h : matchConstOpen (y ++ K) = none) :
    matchConstOpen (y ++ R) = none := by
  rcases hsh with ⟨hK, hR⟩ | ⟨T, U, hK, hR⟩
  · subst hK; subst hR
    rw [List.append_nil] at h
    rw [List.append_nil]
    exact h
  · subst hK; subst hR
    rcases y with - | ⟨a, - | ⟨b, - | ⟨c3, - | ⟨c4, - | ⟨c5, u⟩⟩⟩⟩⟩
    · exact matchConstOpen_not_c _ (by decide)
    · simp only [List.cons_append, List.nil_append]
      by_cases ha : a = 'c'
      case neg => exact matchConstOpen_not_c _ ha
      subst ha
      exact matchConstOpen_not_o _ (by decide)
    · simp only [List.cons_append, List.nil_append]
      by_cases ha : a = 'c'
      case neg => exact matchConstOpen_not_c _ ha
      subst ha
      by_cases hb : b = 'o'
      case neg => exact matchConstOpen_not_o _ hb
      subst hb
      exact matchConstOpen_not_n _ (by decide)
    · simp only [List.cons_append, List.nil_append]
      by_cases ha : a = 'c'
      case neg => exact matchConstOpen_not_c _ ha
      subst ha
      by_cases hb : b = 'o'
      case neg => exact matchConstOpen_not_o _ hb
      subst hb
      by_cases h3 : c3 = 'n'
      case neg => exact matchConstOpen_not_n _ h3
      subst h3
      exact matchConstOpen_not_s _ (by decide)
    · simp only [List.cons_append, List.nil_append]
      by_cases ha : a = 'c'
      case neg => exact matchConstOpen_not_c _ ha
      subst ha
      by_cases hb : b = 'o'
      case neg => exact matchConstOpen_not_o _ hb
      subst hb
      by_cases h3 : c3 = 'n'
      case neg => exact matchConstOpen_not_n _ h3
      subst h3
      by_cases h4 : c4 = 's'
      case neg => exact matchConstOpen_not_s _ h4
      subst h4
      exact matchConstOpen_not_t _ (by decide)
    · simp only [List.cons_append] at h ⊢
      by_cases ha : a = 'c'
      case neg => exact matchConstOpen_not_c _ ha
      subst ha
      by_cases hb : b = 'o'
      case neg => exact matchConstOpen_not_o _ hb
      subst hb
      by_cases h3 : c3 = 'n'
      case neg => exact matchConstOpen_not_n _ h3
      subst h3
      by_cases h4 : c4 = 's'
      case neg => exact matchConstOpen_not_s _ h4
      subst h4
      by_cases h5 : c5 = 't'
      case neg => exact matchConstOpen_not_t _ h5
      subst h5
      rw [matchConstOpen_const] at h ⊢
      have hin : matchOpenAux (u ++ '\n' :: T) = none := by
        cases hmo : matchOpenAux (u ++ '\n' :: T) with
        | none => rfl
        | some p => rw [hmo] at h; simp at h
      rw [matchOpenAux_swap_tail hk hin]
      rfl

/-- A failed `\bconst\s*\(` match attempt at a copied character stays failed after
the rewriter transforms the rest of the line and the continuation is swapped. -/
theorem matchConstOpen_csSubAux_append {c : Char} {rest K R : List Char}
    (hk : matchOpenAux K = none → matchOpenAux R = none)
    (hsh : (K = [] ∧ R = []) ∨ (∃ T U, K = '\n' :: T ∧ R = '\n' :: U))
    (h : matchConstOpen ((c :: rest) ++ K) = none) :
    matchConstOpen ((c :: csSubAux rest) ++ R) = none := by
  simp only [List.cons_append] at h ⊢
  by_cases hc : c = 'c'
  case neg => exact matchConstOpen_not_c _ hc
  subst hc
  cases rest with
  | nil =>
    rw [csSubAux_nil]
    rcases hsh with ⟨hK, hR⟩ | ⟨T, U, hK, hR⟩
    · subst hR; decide
    · subst hR; exact matchConstOpen_not_o _ (by decide)
  | cons c2 r2 =>
    cases hpa : parseAssign (c2 :: r2) with
    | some q =>
      obtain ⟨ind, nm, v, a⟩ := q
      obtain ⟨d, z, hdz, hd⟩ := csSubAux_head_parse hpa
      rw [hdz]
      simp only [List.cons_append]
      exact matchConstOpen_not_o _ (wsCap_not_lower hd).1
    | none =>
      rw [csSubAux_of_none hpa]
      simp only [List.cons_append] at h ⊢
      by_cases h2 : c2 = 'o'
      case neg => exact matchConstOpen_not_o _ h2
      subst h2
      cases r2 with
      | nil =>
        rw [csSubAux_nil]
        rcases hsh with ⟨hK, hR⟩ | ⟨T, U, hK, hR⟩
        · subst hR; decide
        · subst hR; exact matchConstOpen_not_n _ (by decide)
      | cons c3 r3 =>
        cases hpa3 : parseAssign (c3 :: r3) with
        | some q =>
          obtain ⟨ind, nm, v, a⟩ := q
          obtain ⟨d, z, hdz, hd⟩ := csSubAux_head_parse hpa3
          rw [hdz]
          simp only [List.cons_append]
          exact matchConstOpen_not_n _ (wsCap_not_lower hd).2.1
        | none =>
          rw [csSubAux_of_none hpa3]
          simp only [List.cons_append] at h ⊢
          by_cases h3 : c3 = 'n'
          case neg => exact matchConstOpen_not_n _ h3
          subst h3
          cases r3 with
          | nil =>
            rw [csSubAux_nil]
            rcases hsh with ⟨hK, hR⟩ | ⟨T, U, hK, hR⟩
            · subst hR; decide
            · subst hR; exact matchConstOpen_not_s _ (by decide)
          | cons c4 r4 =>
            cases hpa4 : parseAssign (c4 :: r4) with
            | some q =>
              obtain ⟨ind, nm, v, a⟩ := q
              obtain ⟨d, z, hdz, hd⟩ := csSubAux_head_parse hpa4
              rw [hdz]
              simp only [List.cons_append]
              exact matchConstOpen_not_s _ (wsCap_not_lower hd).2.2.1
            | none =>
              rw [csSubAux_of_none hpa4]
              simp only [List.cons_append] at h ⊢
              by_cases h4 : c4 = 's'
              case neg => exact matchConstOpen_not_s _ h4
              subst h4
              cases r4 with
              | nil =>
                rw [csSubAux_nil]
                rcases hsh with ⟨hK, hR⟩ | ⟨T, U, hK, hR⟩
                · subst hR; decide
                · subst hR; exact matchConstOpen_not_t _ (by decide)
              | cons c5 r5 =>
                cases hpa5 : parseAssign (c5 :: r5) with
                | some q =>
                  obtain ⟨ind, nm, v, a⟩ := q
                  obtain ⟨d, z, hdz, hd⟩ := csSubAux_head_parse hpa5
                  rw [hdz]
                  simp only [List.cons_append]
                  exact matchConstOpen_not_t _ (wsCap_not_lower hd).2.2.2
                | none =>
                  rw [csSubAux_of_none hpa5]
                  simp only [List.cons_append] at h ⊢
                  by_cases h5 : c5 = 't'
                  case neg => exact matchConstOpen_not_t _ h5
                  subst h5
                  rw [matchConstOpen_const] at h ⊢
                  have hin : matchOpenAux (r5 ++ K) = none := by
                    cases hmo : matchOpenAux (r5 ++ K) with
                    | none => rfl
                    | some p => rw [hmo] at h; simp at h
                  rw [matchOpenAux_csSubAux_append hk hin]
                  rfl

/-- Swapping the continuation after an untouched line keeps the match count zero,
provided the new continuation also fails the `\s*\(` lookahead and itself scans to
zero from any entry state. -/
theorem ccCount_swap_tail : ∀ (n : Nat) (l K R : List Char) (pw : Bool), l.length ≤ n →
    (matchOpenAux K = none → matchOpenAux R = none) →
    ((K = [] ∧ R = []) ∨ (∃ T U, K = '\n' :: T ∧ R = '\n' :: U)) →
    (∀ q, ccCount q K = 0 → ccCount q R = 0) →
    ccCount pw (l ++ K) = 0 → ccCount pw (l ++ R) = 0 := by
  intro n
  induction n with
  | zero =>
    intro l K R pw hl hk hsh hc h
    have he : l = [] := List.length_eq_zero.mp (by omega)
    subst he
    simp only [List.nil_append] at h ⊢
    exact hc pw h
  | succ n ih =>
    intro l K R pw hl hk hsh hc h
    cases l with
    | nil =>
      simp only [List.nil_append] at h ⊢
      exact hc pw h
    | cons c r =>
      simp only [List.length_cons] at hl
      simp only [List.cons_append] at h ⊢
      cases pw with
      | true =>
        rw [ccCount_cons_true] at h ⊢
        exact ih r K R (isWordChar c) (by omega) hk hsh hc h
      | false =>
        cases hm : matchConstOpen (c :: (r ++ K)) with
        | some p =>
          obtain ⟨m, rr⟩ := p
          rw [ccCount_cons_false_some hm] at h
          omega
        | none =>
          rw [ccCount_cons_false_none hm] at h
          have hm' := matchConstOpen_same_append (y := c :: r) hk hsh
            (by simpa using hm)
          simp only [List.cons_append] at hm'
          rw [ccCount_cons_false_none hm']
          exact ih r K R (isWordChar c) (by omega) hk hsh hc h

/-- Core preservation result: rewriting a line with the literal substitution keeps
the `\bconst\s*\(` match count of line-plus-continuation at zero. -/
theorem ccCount_csSubAux_tail : ∀ (n : Nat) (l K R : List Char) (pw : Bool), l.length ≤ n →
    (matchOpenAux K = none → matchOpenAux R = none) →
    ((K = [] ∧ R = []) ∨ (∃ T U, K = '\n' :: T ∧ R = '\n' :: U)) →
    (∀ q, ccCount q K = 0 → ccCount q R = 0) →
    ccCount pw (l ++ K) = 0 → ccCount pw (csSubAux l ++ R) = 0 := by
  intro n
  induction n with
  | zero =>
    intro l K R pw hl hk hsh hc h
    have he : l = [] := List.length_eq_zero.mp (by omega)
    subst he
    rw [csSubAux_nil]
    simp only [List.nil_append] at h ⊢
    exact hc pw h
  | succ n ih =>
    intro l K R pw hl hk hsh hc h
    cases l with
    | nil =>
      rw [csSubAux_nil]
      simp only [List.nil_append] at h ⊢
      exact hc pw h
    | cons c r =>
      simp only [List.length_cons] at hl
      cases hpa : parseAssign (c :: r) with
      | none =>
        rw [csSubAux_of_none hpa]
        simp only [List.cons_append] at h ⊢
        cases pw with
        | true =>
          rw [ccCount_cons_true] at h ⊢
          exact ih r K R (isWordChar c) (by omega) hk hsh hc h
        | false =>
          cases hm : matchConstOpen (c :: (r ++ K)) with
          | some p =>
            obtain ⟨m, rr⟩ := p
            rw [ccCount_cons_false_some hm] at h
            omega
          | none =>
            rw [ccCount_cons_false_none hm] at h
            have hm' := matchConstOpen_csSubAux_append (c := c) hk hsh
              (by simpa using hm)
            simp only [List.cons_append] at hm'
            rw [ccCount_cons_false_none hm']
            exact ih r K R (isWordChar c) (by omega) hk hsh hc h
      | some q =>
        obtain ⟨ind, nm, v, a⟩ := q
        obtain ⟨w1, w2, val, hv, hs, hindws, hnmne, hnmcap, hw1, hw2, hvalne, hvalq⟩ :=
          parseAssign_spec hpa
        have hlen := parseAssign_length hpa
        simp only [List.length_cons] at hlen
        rw [csSubAux_of_parse hpa]
        have hin : (c :: r) ++ K = (ind ++ nm ++ w1 ++ '=' :: w2) ++
            '"' :: (('g' :: 'o' :: 'v' :: 'e' :: 'l' :: '.' :: val) ++ '"' :: (a ++ K)) := by
          rw [hs]
          simp [List.append_assoc]
        rw [hin] at h
        rw [ccCount_quote_split (ind ++ nm ++ w1 ++ '=' :: w2).length _ pw _ (le_refl _)] at h
        rw [ccCount_quote_split ('g' :: 'o' :: 'v' :: 'e' :: 'l' :: '.' :: val).length _
          false _ (le_refl _)] at h
        have haK : ccCount false (a ++ K) = 0 := by omega
        have hGV : ccCount false (('g' :: 'o' :: 'v' :: 'e' :: 'l' :: '.' :: val) ++ ['"']) = 0 := by
          omega
        have hrec := ih a K R false (by omega) hk hsh hc haK
        have hf1 : (" = symbol.For(\"".data : List Char) = " = symbol.For(".data ++ ['"'] := by
          decide
        have hf2 : ("\")".data : List Char) = '"' :: [')'] := by decide
        have hout : (ind ++ nm ++ " = symbol.For(\"".data ++ v ++ "\")".data ++ csSubAux a) ++ R =
            (ind ++ nm ++ " = symbol.For(".data) ++
              '"' :: (('g' :: 'o' :: 'v' :: 'e' :: 'l' :: '.' :: val) ++
                '"' :: (')' :: (csSubAux a ++ R))) := by
          rw [hv, hf1, hf2]
          simp [List.append_assoc]
        rw [hout]
        rw [ccCount_quote_split (ind ++ nm ++ " = symbol.For(".data).length _ pw _ (le_refl _)]
        rw [ccCount_quote_split ('g' :: 'o' :: 'v' :: 'e' :: 'l' :: '.' :: val).length _
          false _ (le_refl _)]
        have hP2 : ccCount pw ((ind ++ nm ++ " = symbol.For(".data) ++ ['"']) = 0 := by
          apply ccCount_no_c
          intro x hx
          simp only [List.mem_append, List.mem_singleton] at hx
          rcases hx with ((hx | hx) | hx) | hx
          · have hws := hindws x hx
            intro he; subst he; exact absurd hws (by decide)
          · have hcap := hnmcap x hx
            intro he; subst he; exact absurd hcap (by decide)
          · revert hx
            have : ∀ y ∈ (" = symbol.For(".data : List Char), ¬(y = 'c') := by decide
            exact this x
          · subst hx; decide
        have hPar : ccCount false (')' :: (csSubAux a ++ R)) =
            ccCount false (csSubAux a ++ R) := by
          rw [ccCount_cons_false_none (matchConstOpen_not_c _ (by decide)),
            show isWordChar ')' = false from by decide]
        rw [hP2, hGV, hPar, hrec]

/-- Per-line literal rewriting over a joined line list preserves a zero match
count, and preserves failure of the `\s*\(` lookahead from the very start. -/
theorem ccCount_csLine_join : ∀ (ls : List (List Char)),
    ccCount false (joinNL ls) = 0 →
    ccCount false (joinNL (ls.map csLine)) = 0 ∧
    (matchOpenAux (joinNL ls) = none → matchOpenAux (joinNL (ls.map csLine)) = none) := by
  intro ls
  induction ls with
  | nil =>
    intro h
    exact ⟨h, fun h2 => h2⟩
  | cons l ls ih =>
    intro h
    cases ls with
    | nil =>
      simp only [List.map_cons, List.map_nil]
      rw [show joinNL [l] = l from rfl] at h
      rw [show joinNL [csLine l] = csLine l from rfl]
      unfold csLine
      by_cases hg : (!containsTok symbolForTok l && hasAssign l) = true
      · rw [if_pos hg]
        constructor
        · have hz := ccCount_csSubAux_tail l.length l [] [] false (le_refl _)
            (fun hx => hx) (Or.inl ⟨rfl, rfl⟩) (fun q hq => hq) (by rwa [List.append_nil])
          rwa [List.append_nil] at hz
        · intro hm
          have hz := matchOpenAux_csSubAux_append (u := l) (K := []) (R := [])
            (fun hx => hx) (by rwa [List.append_nil])
          rwa [List.append_nil] at hz
      · rw [if_neg hg]
        exact ⟨h, fun hm => hm⟩
    | cons l2 ls2 =>
      rw [show joinNL (l :: l2 :: ls2) = l ++ '\n' :: joinNL (l2 :: ls2) from rfl] at h
      have hT : ccCount false (joinNL (l2 :: ls2)) = 0 :=
        ccCount_newline_tail l false (joinNL (l2 :: ls2)) h
      obtain ⟨ihc, ihm⟩ := ih hT
      have hmapc : (l2 :: ls2).map csLine = csLine l2 :: ls2.map csLine := rfl
      have hjoin : joinNL ((l :: l2 :: ls2).map csLine) =
          csLine l ++ '\n' :: joinNL ((l2 :: ls2).map csLine) := rfl
      rw [hjoin]
      have hk : matchOpenAux ('\n' :: joinNL (l2 :: ls2)) = none →
          matchOpenAux ('\n' :: joinNL ((l2 :: ls2).map csLine)) = none := by
        intro hx
        exact matchOpenAux_newline_none.mpr (ihm (matchOpenAux_newline_none.mp hx))
      have hsh : (('\n' :: joinNL (l2 :: ls2)) = [] ∧
            ('\n' :: joinNL ((l2 :: ls2).map csLine)) = []) ∨
          (∃ T U, ('\n' :: joinNL (l2 :: ls2)) = '\n' :: T ∧
            ('\n' :: joinNL ((l2 :: ls2).map csLine)) = '\n' :: U) :=
        Or.inr ⟨joinNL (l2 :: ls2), joinNL ((l2 :: ls2).map csLine), rfl, rfl⟩
      have hc : ∀ q, ccCount q ('\n' :: joinNL (l2 :: ls2)) = 0 →
          ccCount q ('\n' :: joinNL ((l2 :: ls2).map csLine)) = 0 := by
        intro q hq
        rw [ccCount_newline_cons]
        exact ihc
      constructor
      · unfold csLine
        by_cases hg : (!containsTok symbolForTok l && hasAssign l) = true
        · rw [if_pos hg]
          exact ccCount_csSubAux_tail l.length l _ _ false (le_refl _) hk hsh hc h
        · rw [if_neg hg]
          exact ccCount_swap_tail l.length l _ _ false (le_refl _) hk hsh hc h
      · intro hm
        rw [show joinNL (l :: l2 :: ls2) = l ++ '\n' :: joinNL (l2 :: ls2) from rfl] at hm
        unfold csLine
        by_cases hg : (!containsTok symbolForTok l && hasAssign l) = true
        · rw [if_pos hg]
          exact matchOpenAux_csSubAux_append hk hm
        · rw [if_neg hg]
          exact matchOpenAux_swap_tail hk hm

/-- The literal rewriter cannot create a `\bconst\s*\(` match: if the input scans
to a zero match count, so does its output. -/
theorem convert_string_to_symbol_ccCount (content : List Char)
    (h : ccCount false content = 0) :
    ccCount false (convert_string_to_symbol content) = 0 := by
  unfold convert_string_to_symbol
  have hj : ccCount false (joinNL (splitNL content)) = 0 := by
    rwa [joinNL_splitNL]
  exact (ccCount_csLine_join (splitNL content) hj).1

/-! Structure of the import stage's output and its preservation by the two later
stages, leading to the final-output form of the import-presence property. -/

theorem findPkgIdx_bound : ∀ (ls : List (List Char)) (i p : Nat),
    findPkgIdx i ls = some p → i ≤ p ∧ p < i + ls.length := by
  intro ls
  induction ls with
  | nil => intro i p h; simp [findPkgIdx] at h
  | cons l rest ih =>
    intro i p h
    simp only [findPkgIdx] at h
    split at h
    · simp only [Option.some.injEq] at h
      subst h
      simp
    · obtain ⟨h1, h2⟩ := ih (i + 1) p h
      simp only [List.length_cons]
      omega

theorem findClose_bound : ∀ (ls : List (List Char)) (i j : Nat),
    findClose i ls = some j → i ≤ j ∧ j < i + ls.length := by
  intro ls
  induction ls with
  | nil => intro i j h; simp [findClose] at h
  | cons l rest ih =>
    intro i j h
    simp only [findClose] at h
    split at h
    · simp only [Option.some.injEq] at h
      subst h
      simp
    · obtain ⟨h1, h2⟩ := ih (i + 1) j h
      simp only [List.length_cons]
      omega

theorem scanImp_multi_bound : ∀ (ls : List (List Char)) (h0 : Bool) (i a b : Nat),
    scanImp h0 i ls = ScanRes.multi a b → i ≤ a ∧ a < b ∧ b < i + ls.length := by
  intro ls
  induction ls with
  | nil => intro h0 i a b h; cases h0 <;> simp [scanImp] at h
  | cons l rest ih =>
    intro h0 i a b h
    simp only [scanImp] at h
    by_cases hb : (stripL l).isEmpty = true
    · rw [if_pos hb] at h
      obtain ⟨h1, h2, h3⟩ := ih h0 (i + 1) a b h
      simp only [List.length_cons]
      omega
    · rw [if_neg hb] at h
      by_cases ho : impOpenTok.isPrefixOf (stripL l) = true
      · rw [if_pos ho] at h
        cases hf : findClose (i + 1) rest with
        | some j =>
          rw [hf] at h
          simp only [ScanRes.multi.injEq] at h
          obtain ⟨ha, hbb⟩ := h
          subst ha; subst hbb
          obtain ⟨h1, h2⟩ := findClose_bound rest (i + 1) j hf
          simp only [List.length_cons]
          omega
        | none => rw [hf] at h; simp at h
      · rw [if_neg ho] at h
        by_cases hs : impSpaceTok.isPrefixOf (stripL l) = true
        · rw [if_pos hs] at h; simp at h
        · rw [if_neg hs] at h
          by_cases hi : impTok.isPrefixOf (stripL l) = true
          · rw [if_pos hi] at h
            obtain ⟨h1, h2, h3⟩ := ih true (i + 1) a b h
            simp only [List.length_cons]
            omega
          · rw [if_neg hi] at h
            cases h0 <;> simp at h

theorem scanImp_single_bound : ∀ (ls : List (List Char)) (h0 : Bool) (i a : Nat)
    (st : List Char),
    scanImp h0 i ls = ScanRes.single a st → i ≤ a ∧ a < i + ls.length := by
  intro ls
  induction ls with
  | nil => intro h0 i a st h; cases h0 <;> simp [scanImp] at h
  | cons l rest ih =>
    intro h0 i a st h
    simp only [scanImp] at h
    by_cases hb : (stripL l).isEmpty = true
    · rw [if_pos hb] at h
      obtain ⟨h1, h2⟩ := ih h0 (i + 1) a st h
      simp only [List.length_cons]
      omega
    · rw [if_neg hb] at h
      by_cases ho : impOpenTok.isPrefixOf (stripL l) = true
      · rw [if_pos ho] at h
        cases hf : findClose (i + 1) rest with
        | some j => rw [hf] at h; simp at h
        | none => rw [hf] at h; simp at h
      · rw [if_neg ho] at h
        by_cases hs : impSpaceTok.isPrefixOf (stripL l) = true
        · rw [if_pos hs] at h
          simp only [ScanRes.single.injEq] at h
          obtain ⟨ha, -⟩ := h
          subst ha
          simp
        · rw [if_neg hs] at h
          by_cases hi : impTok.isPrefixOf (stripL l) = true
          · rw [if_pos hi] at h
            obtain ⟨h1, h2⟩ := ih true (i + 1) a st h
            simp only [List.length_cons]
            omega
          · rw [if_neg hi] at h
            cases h0 <;> simp at h

theorem insAt_take_drop {α : Type} (x : α) (n : Nat) (ls : List α) (h : n ≤ ls.length) :
    insAt x n ls = ls.take n ++ x :: ls.drop n := by
  have h2 : (ls.take n).length = n := by
    rw [List.length_take]
    omega
  calc insAt x n ls = insAt x ((ls.take n).length) (ls.take n ++ ls.drop n) := by
        rw [h2, List.take_append_drop]
    _ = ls.take n ++ x :: ls.drop n := insAt_at_append x _ _

theorem setAt_take_drop {α : Type} (x : α) (n : Nat) (ls : List α) (h : n < ls.length) :
    setAt x n ls = ls.take n ++ x :: ls.drop (n + 1) := by
  have h2 : (ls.take n).length = n := by
    rw [List.length_take]
    omega
  have h3 : ls = ls.take n ++ ls[n] :: ls.drop (n + 1) := by
    conv_lhs => rw [← List.take_append_drop n ls]
    rw [List.drop_eq_getElem_cons h]
  calc setAt x n ls = setAt x ((ls.take n).length) (ls.take n ++ ls[n] :: ls.drop (n + 1)) := by
        rw [h2, ← h3]
    _ = ls.take n ++ x :: ls.drop (n + 1) := setAt_append x _ _ _

theorem joinNL_append_mid : ∀ (pre : List (List Char)) (L : List Char)
    (post : List (List Char)), pre ≠ [] → post ≠ [] →
    joinNL (pre ++ L :: post) = joinNL pre ++ '\n' :: (L ++ '\n' :: joinNL post) := by
  intro pre
  induction pre with
  | nil => intro L post hpre _; exact absurd rfl hpre
  | cons p pre' ih =>
    intro L post _ hpost
    cases pre' with
    | nil =>
      cases post with
      | nil => exact absurd rfl hpost
      | cons q post' =>
        simp [joinNL]
    | cons q pre'' =>
      have e1 : joinNL ((p :: q :: pre'') ++ L :: post) =
          p ++ '\n' :: joinNL ((q :: pre'') ++ L :: post) := rfl
      have e2 : joinNL (p :: q :: pre'') = p ++ '\n' :: joinNL (q :: pre'') := rfl
      rw [e1, ih L post (by simp) hpost, e2]
      simp [List.append_assoc]

theorem splitNL_append_mid : ∀ (a b : List Char),
    splitNL (a ++ '\n' :: b) = splitNL a ++ splitNL b := by
  intro a
  induction a with
  | nil =>
    intro b
    simp [splitNL]
  | cons c a' ih =>
    intro b
    by_cases hc : c = '\n'
    · subst hc
      simp only [List.cons_append, splitNL, if_true]
      simp only [List.append_eq]
      rw [ih]
    · simp only [List.cons_append, splitNL]
      rw [if_neg hc, if_neg hc]
      simp only [List.append_eq]
      rw [ih b]
      cases hsp : splitNL a' with
      | nil => exact absurd hsp (splitNL_ne_nil a')
      | cons l' ls' => simp

theorem insAt_at_len {α : Type} (x : α) (n : Nat) (pre rest : List α) (h : pre.length = n) :
    insAt x n (pre ++ rest) = pre ++ x :: rest := by
  subst h
  exact insAt_at_append x pre rest

/-- Refined structure of the import stage's insertions: whenever the stage modifies
a file that lacks the path, the result joins a line list in which the path sits on a
standalone fixed line (the single-line import or the tab-indented block entry), with
at least one line before it and after it, and no other line holds an occurrence. -/
theorem add_symbol_import_struct (c t : List Char)
    (hno : has_symbol_import c = false)
    (hok : add_symbol_import c = Except.ok t) (hne : t ≠ c) :
    ∃ (pre post : List (List Char)) (L : List Char),
      (L = importLineTok ∨ L = symEntryTok) ∧ pre ≠ [] ∧ post ≠ [] ∧
      t = joinNL (pre ++ L :: post) ∧
      (∀ l ∈ pre, countOccs importPathTok l = 0) ∧
      (∀ l ∈ post, countOccs importPathTok l = 0) := by
  have hpat : importPathTok ≠ [] := by decide
  have hnl : '\n' ∉ importPathTok := by decide
  have hc0 : countOccs importPathTok c = 0 := by
    have hcon : containsTok importPathTok c = false := by
      simp only [has_symbol_import, Bool.or_eq_false_iff] at hno
      exact hno.2
    rw [countOccs_eq_zero_iff hpat]
    intro u v huv
    have hct : containsTok importPathTok c = true := containsTok_iff_exists.mpr ⟨u, v, huv⟩
    rw [hct] at hcon
    exact absurd hcon (by simp)
  have hlines0 : ∀ l ∈ splitNL c, countOccs importPathTok l = 0 := by
    have hj : countOccs importPathTok (joinNL (splitNL c)) = 0 := by
      rw [joinNL_splitNL]; exact hc0
    rw [countOccs_joinNL hpat hnl] at hj
    intro l hl
    exact List.sum_eq_zero_iff.mp hj _ (List.mem_map_of_mem _ hl)
  simp only [add_symbol_import] at hok
  cases hfind : findPkgIdx 0 (splitNL c) with
  | none => rw [hfind] at hok; simp at hok
  | some p =>
    obtain ⟨-, hp2⟩ := findPkgIdx_bound (splitNL c) 0 p hfind
    simp only [Nat.zero_add] at hp2
    simp only [hfind] at hok
    cases hscan : scanImp false (p + 1) ((splitNL c).drop (p + 1)) with
    | noImports =>
      simp only [hscan, Except.ok.injEq] at hok
      subst hok
      have hT : ((splitNL c).take (p + 1)).length = p + 1 := by
        rw [List.length_take]; omega
      have e1 : insAt ([] : List Char) (p + 1) (splitNL c) =
          (splitNL c).take (p + 1) ++ ([] : List Char) :: (splitNL c).drop (p + 1) :=
        insAt_take_drop _ _ _ (by omega)
      have e2 : insAt importLineTok (p + 2)
          ((splitNL c).take (p + 1) ++ ([] : List Char) :: (splitNL c).drop (p + 1)) =
          ((splitNL c).take (p + 1) ++ [[]]) ++ importLineTok :: (splitNL c).drop (p + 1) := by
        have h0 : (splitNL c).take (p + 1) ++ ([] : List Char) :: (splitNL c).drop (p + 1) =
            ((splitNL c).take (p + 1) ++ [[]]) ++ (splitNL c).drop (p + 1) := by simp
        rw [h0]
        exact insAt_at_len importLineTok (p + 2) _ _ (by simp [hT])
      have e3 : insAt ([] : List Char) (p + 3)
          (((splitNL c).take (p + 1) ++ [[]]) ++ importLineTok :: (splitNL c).drop (p + 1)) =
          (((splitNL c).take (p + 1) ++ [[]]) ++ [importLineTok]) ++
            ([] : List Char) :: (splitNL c).drop (p + 1) := by
        have h0 : ((splitNL c).take (p + 1) ++ [[]]) ++ importLineTok ::
            (splitNL c).drop (p + 1) =
            (((splitNL c).take (p + 1) ++ [[]]) ++ [importLineTok]) ++
              (splitNL c).drop (p + 1) := by simp
        rw [h0]
        exact insAt_at_len _ (p + 3) _ _ (by simp [hT])
      refine ⟨(splitNL c).take (p + 1) ++ [[]], ([] : List Char) :: (splitNL c).drop (p + 1),
        importLineTok, Or.inl rfl, by simp, by simp, ?_, ?_, ?_⟩
      · rw [e1, e2, e3]
        congr 1
        simp [List.append_assoc]
      · intro l hl
        rcases List.mem_append.mp hl with hl | hl
        · exact hlines0 l (List.take_subset _ _ hl)
        · simp only [List.mem_singleton] at hl
          subst hl
          decide
      · intro l hl
        rcases List.mem_cons.mp hl with hl | hl
        · subst hl; decide
        · exact hlines0 l (List.drop_subset _ _ hl)
    | multi a b =>
      simp only [hscan, Except.ok.injEq] at hok
      subst hok
      obtain ⟨h1, h2, h3⟩ := scanImp_multi_bound _ false (p + 1) a b hscan
      have hdlen : ((splitNL c).drop (p + 1)).length = (splitNL c).length - (p + 1) := by
        rw [List.length_drop]
      have hb : b < (splitNL c).length := by omega
      have e1 : insAt symEntryTok b (splitNL c) =
          (splitNL c).take b ++ symEntryTok :: (splitNL c).drop b :=
        insAt_take_drop _ _ _ (by omega)
      refine ⟨(splitNL c).take b, (splitNL c).drop b, symEntryTok, Or.inr rfl, ?_, ?_, ?_, ?_, ?_⟩
      · intro hX
        have := congrArg List.length hX
        simp only [List.length_take, List.length_nil] at this
        omega
      · intro hX
        have := congrArg List.length hX
        simp only [List.length_drop, List.length_nil] at this
        omega
      · rw [e1]
      · intro l hl
        exact hlines0 l (List.take_subset _ _ hl)
      · intro l hl
        exact hlines0 l (List.drop_subset _ _ hl)
    | multiNoClose =>
      simp only [hscan, Except.ok.injEq] at hok
      rw [joinNL_splitNL] at hok
      exact absurd hok.symm hne
    | weird =>
      simp only [hscan, Except.ok.injEq] at hok
      rw [joinNL_splitNL] at hok
      exact absurd hok.symm hne
    | single a st =>
      simp only [hscan, Except.ok.injEq] at hok
      subst hok
      obtain ⟨h1, h2⟩ := scanImp_single_bound _ false (p + 1) a st hscan
      have hdlen : ((splitNL c).drop (p + 1)).length = (splitNL c).length - (p + 1) := by
        rw [List.length_drop]
      have ha : a < (splitNL c).length := by omega
      have hP : ((splitNL c).take a).length = a := by
        rw [List.length_take]; omega
      have hprom : countOccs importPathTok ('\t' :: st.drop 7) = 0 := by
        obtain ⟨l, hl, hstl⟩ := scanImp_single_spec hscan
        have hl' : l ∈ splitNL c := mem_of_mem_dropN hl
        have hsl := countOccs_stripL_zero hpat (hlines0 l hl')
        rw [← hstl] at hsl
        rw [countOccs_path_tab_cons]
        exact countOccs_drop_zero hpat 7 hsl
      have e0 : setAt impOpenTok a (splitNL c) =
          (splitNL c).take a ++ impOpenTok :: (splitNL c).drop (a + 1) :=
        setAt_take_drop _ _ _ ha
      have e1 : insAt ('\t' :: st.drop 7) (a + 1)
          ((splitNL c).take a ++ impOpenTok :: (splitNL c).drop (a + 1)) =
          ((splitNL c).take a ++ [impOpenTok]) ++
            ('\t' :: st.drop 7) :: (splitNL c).drop (a + 1) := by
        have h0 : (splitNL c).take a ++ impOpenTok :: (splitNL c).drop (a + 1) =
            ((splitNL c).take a ++ [impOpenTok]) ++ (splitNL c).drop (a + 1) := by simp
        rw [h0]
        exact insAt_at_len _ (a + 1) _ _ (by simp [hP])
      have e2 : insAt rparenLine (a + 2)
          (((splitNL c).take a ++ [impOpenTok]) ++
            ('\t' :: st.drop 7) :: (splitNL c).drop (a + 1)) =
          (((splitNL c).take a ++ [impOpenTok]) ++ [('\t' :: st.drop 7)]) ++
            rparenLine :: (splitNL c).drop (a + 1) := by
        have h0 : ((splitNL c).take a ++ [impOpenTok]) ++
            ('\t' :: st.drop 7) :: (splitNL c).drop (a + 1) =
            (((splitNL c).take a ++ [impOpenTok]) ++ [('\t' :: st.drop 7)]) ++
              (splitNL c).drop (a + 1) := by simp
        rw [h0]
        exact insAt_at_len _ (a + 2) _ _ (by simp [hP])
      have e3 : insAt symEntryTok (a + 2)
          ((((splitNL c).take a ++ [impOpenTok]) ++ [('\t' :: st.drop 7)]) ++
            rparenLine :: (splitNL c).drop (a + 1)) =
          (((splitNL c).take a ++ [impOpenTok]) ++ [('\t' :: st.drop 7)]) ++
            symEntryTok :: rparenLine :: (splitNL c).drop (a + 1) :=
        insAt_at_len _ (a + 2) _ _ (by simp [hP])
      refine ⟨((splitNL c).take a ++ [impOpenTok]) ++ [('\t' :: st.drop 7)],
        rparenLine :: (splitNL c).drop (a + 1), symEntryTok, Or.inr rfl,
        by simp, by simp, ?_, ?_, ?_⟩
      · rw [e0, e1, e2, e3]
      · intro l hl
        rcases List.mem_append.mp hl with hl | hl
        · rcases List.mem_append.mp hl with hl | hl
          · exact hlines0 l (List.take_subset _ _ hl)
          · simp only [List.mem_singleton] at hl
            subst hl
            decide
        · simp only [List.mem_singleton] at hl
          subst hl
          exact hprom
      · intro l hl
        rcases List.mem_cons.mp hl with hl | hl
        · subst hl; decide
        · exact hlines0 l (List.drop_subset _ _ hl)

/-- Word status of the character preceding the current scan position, after the
scan walked the given prefix (matches the scan state: a replaced opener ends in
`(`, a non-word character, just like the copied original). -/
def pwAfter (pw : Bool) : List Char → Bool
  | [] => pw
  | c :: r => pwAfter (isWordChar c) r

theorem pwAfter_append (pw : Bool) (a b : List Char) :
    pwAfter pw (a ++ b) = pwAfter (pwAfter pw a) b := by
  induction a generalizing pw with
  | nil => rfl
  | cons c r ih =>
    simp only [List.cons_append, pwAfter]
    exact ih (isWordChar c)

theorem wsParen_split : ∀ {m : List Char}, wsParen m = true →
    ∃ w, m = w ++ ['('] ∧ allWsB w = true := by
  intro m
  induction m with
  | nil => intro h; simp [wsParen] at h
  | cons c rest ih =>
    intro h
    cases rest with
    | nil =>
      have hc : c = '(' := by simpa [wsParen] using h
      subst hc
      exact ⟨[], rfl, rfl⟩
    | cons d rest2 =>
      rw [show wsParen (c :: d :: rest2) = (isPySpace c && wsParen (d :: rest2)) from rfl,
        Bool.and_eq_true] at h
      obtain ⟨w, hw, hws⟩ := ih h.2
      refine ⟨c :: w, ?_, ?_⟩
      · rw [hw, List.cons_append]
      · simp only [allWsB, List.all_cons, Bool.and_eq_true]
        exact ⟨h.1, by simpa [allWsB] using hws⟩

theorem mopStop_matchOpenAux_none {S : List Char} (h : mopStop S = true) :
    matchOpenAux S = none := by
  have hz := mopStop_append_none S h []
  rwa [List.append_nil] at hz

/-- A successful `\s*\(` lookahead over prefix-plus-stopper lies inside the prefix. -/
theorem matchOpenAux_split {u S m rc : List Char} (hS : mopStop S = true)
    (h : matchOpenAux (u ++ S) = some (m, rc)) :
    ∃ r, matchOpenAux u = some (m, r) ∧ rc = r ++ S := by
  induction u generalizing m rc with
  | nil =>
    simp only [List.nil_append] at h
    rw [mopStop_matchOpenAux_none hS] at h
    simp at h
  | cons a u' ih =>
    simp only [List.cons_append, matchOpenAux, List.append_eq] at h
    simp only [matchOpenAux]
    by_cases hp : a = '('
    · rw [if_pos hp] at h
      simp only [Option.some.injEq, Prod.mk.injEq] at h
      obtain ⟨hm, hr⟩ := h
      rw [if_pos hp]
      exact ⟨u', by rw [hm], hr.symm⟩
    · rw [if_neg hp] at h
      rw [if_neg hp]
      by_cases hs : isPySpace a = true
      · rw [if_pos hs] at h
        rw [if_pos hs]
        cases hmo : matchOpenAux (u' ++ S) with
        | none => rw [hmo] at h; simp at h
        | some p =>
          obtain ⟨m0, rc0⟩ := p
          rw [hmo] at h
          simp only [Option.map_some', Option.some.injEq, Prod.mk.injEq] at h
          obtain ⟨hm, hr⟩ := h
          obtain ⟨r, hu, hrr⟩ := ih hmo
          rw [hu]
          exact ⟨r, by simp [hm], by rw [← hr, hrr]⟩
      · rw [if_neg hs] at h
        simp at h

theorem matchConstOpen_append_some {Z m r : List Char} (z : List Char)
    (h : matchConstOpen Z = some (m, r)) :
    matchConstOpen (Z ++ z) = some (m, r ++ z) := by
  unfold matchConstOpen at h
  split at h
  · rename_i rest
    cases hmo : matchOpenAux rest with
    | none => rw [hmo] at h; simp at h
    | some p =>
      obtain ⟨m', r'⟩ := p
      rw [hmo] at h
      simp only [Option.map_some', Option.some.injEq, Prod.mk.injEq] at h
      obtain ⟨hm, hr⟩ := h
      have hz : matchConstOpen (('c' :: 'o' :: 'n' :: 's' :: 't' :: rest) ++ z) =
          some ('c' :: 'o' :: 'n' :: 's' :: 't' :: m', r' ++ z) := by
        simp only [List.cons_append]
        rw [matchConstOpen_const, matchOpenAux_append_some z hmo]
        rfl
      rw [hz, ← hm, ← hr]
  · simp at h

/-- A successful `\bconst\s*\(` match over prefix-plus-stopper lies inside the
prefix: the stopper starts with a newline, which can complete neither the keyword
nor the `\s*\(` part. -/
theorem matchConstOpen_split {Z S m rc : List Char} (hS : mopStop S = true)
    (hS2 : ∃ T, S = '\n' :: T)
    (h : matchConstOpen (Z ++ S) = some (m, rc)) :
    ∃ r, matchConstOpen Z = some (m, r) ∧ rc = r ++ S := by
  obtain ⟨T, hT⟩ := hS2
  subst hT
  rcases Z with - | ⟨a, - | ⟨b, - | ⟨c3, - | ⟨c4, - | ⟨c5, u⟩⟩⟩⟩⟩
  · rw [show ([] : List Char) ++ '\n' :: T = '\n' :: T from rfl,
      matchConstOpen_not_c _ (by decide)] at h
    simp at h
  · simp only [List.cons_append, List.nil_append] at h
    by_cases ha : a = 'c'
    · subst ha
      rw [matchConstOpen_not_o _ (by decide)] at h
      simp at h
    · rw [matchConstOpen_not_c _ ha] at h
      simp at h
  · simp only [List.cons_append, List.nil_append] at h
    by_cases ha : a = 'c'
    case neg => rw [matchConstOpen_not_c _ ha] at h; simp at h
    subst ha
    by_cases hb : b = 'o'
    case neg => rw [matchConstOpen_not_o _ hb] at h; simp at h
    subst hb
    rw [matchConstOpen_not_n _ (by decide)] at h
    simp at h
  · simp only [List.cons_append, List.nil_append] at h
    by_cases ha : a = 'c'
    case neg => rw [matchConstOpen_not_c _ ha] at h; simp at h
    subst ha
    by_cases hb : b = 'o'
    case neg => rw [matchConstOpen_not_o _ hb] at h; simp at h
    subst hb
    by_cases h3 : c3 = 'n'
    case neg => rw [matchConstOpen_not_n _ h3] at h; simp at h
    subst h3
    rw [matchConstOpen_not_s _ (by decide)] at h
    simp at h
  · simp only [List.cons_append, List.nil_append] at h
    by_cases ha : a = 'c'
    case neg => rw [matchConstOpen_not_c _ ha] at h; simp at h
    subst ha
    by_cases hb : b = 'o'
    case neg => rw [matchConstOpen_not_o _ hb] at h; simp at h
    subst hb
    by_cases h3 : c3 = 'n'
    case neg => rw [matchConstOpen_not_n _ h3] at h; simp at h
    subst h3
    by_cases h4 : c4 = 's'
    case neg => rw [matchConstOpen_not_s _ h4] at h; simp at h
    subst h4
    rw [matchConstOpen_not_t _ (by decide)] at h
    simp at h
  · simp only [List.cons_append] at h
    by_cases ha : a = 'c'
    case neg =>
      rw [matchConstOpen_not_c _ ha] at h
      simp at h
    subst ha
    by_cases hb : b = 'o'
    case neg =>
      rw [matchConstOpen_not_o _ hb] at h
      simp at h
    subst hb
    by_cases h3 : c3 = 'n'
    case neg =>
      rw [matchConstOpen_not_n _ h3] at h
      simp at h
    subst h3
    by_cases h4 : c4 = 's'
    case neg =>
      rw [matchConstOpen_not_s _ h4] at h
      simp at h
    subst h4
    by_cases h5 : c5 = 't'
    case neg =>
      rw [matchConstOpen_not_t _ h5] at h
      simp at h
    subst h5
    rw [matchConstOpen_const] at h
    cases hmo : matchOpenAux (u ++ '\n' :: T) with
    | none => rw [hmo] at h; simp at h
    | some p =>
      obtain ⟨m', rc'⟩ := p
      rw [hmo] at h
      simp only [Option.map_some', Option.some.injEq, Prod.mk.injEq] at h
      obtain ⟨hm, hr⟩ := h
      obtain ⟨r, hu, hrr⟩ := matchOpenAux_split hS hmo
      refine ⟨r, ?_, ?_⟩
      · rw [matchConstOpen_const, hu]
        simp [hm]
      · rw [← hr, hrr]

/-- The scan over prefix-plus-stopper splits: attempts inside the prefix behave as
on the prefix alone, and the scan then enters the stopper in the induced state. -/
theorem ccAux_stop_split : ∀ (n : Nat) (X : List Char) (pw : Bool) (S : List Char),
    X.length ≤ n → mopStop S = true → (∃ T, S = '\n' :: T) →
    ccAux pw (X ++ S) = ccAux pw X ++ ccAux (pwAfter pw X) S := by
  intro n
  induction n with
  | zero =>
    intro X pw S hl hS hS2
    have he : X = [] := List.length_eq_zero.mp (by omega)
    subst he
    simp [ccAux_nil, pwAfter]
  | succ n ih =>
    intro X pw S hl hS hS2
    cases X with
    | nil => simp [ccAux_nil, pwAfter]
    | cons x X' =>
      simp only [List.length_cons] at hl
      simp only [List.cons_append]
      by_cases hpw : pw = true
      · subst hpw
        rw [ccAux_cons_true, ccAux_cons_true,
          ih X' (isWordChar x) S (by omega) hS hS2]
        simp [pwAfter]
      · have hpw' : pw = false := by revert hpw; cases pw <;> simp
        subst hpw'
        cases hm : matchConstOpen (x :: (X' ++ S)) with
        | none =>
          have hm2 : matchConstOpen (x :: X') = none := by
            cases hm2 : matchConstOpen (x :: X') with
            | none => rfl
            | some p =>
              obtain ⟨m, r⟩ := p
              have hz := matchConstOpen_append_some S hm2
              simp only [List.cons_append] at hz
              rw [hz] at hm
              simp at hm
          rw [ccAux_cons_false_none hm, ccAux_cons_false_none hm2,
            ih X' (isWordChar x) S (by omega) hS hS2]
          simp [pwAfter]
        | some p =>
          obtain ⟨m, rc⟩ := p
          have hmz : matchConstOpen ((x :: X') ++ S) = some (m, rc) := by
            simpa using hm
          obtain ⟨r, hu, hrr⟩ := matchConstOpen_split hS hS2 hmz
          subst hrr
          rw [ccAux_cons_false_some hm, ccAux_cons_false_some hu]
          have hlen : r.length < X'.length + 1 := by
            have := matchConstOpen_length hu
            simpa using this
          rw [ih r false S (by omega) hS hS2]
          have hpwa : pwAfter false (x :: X') = pwAfter false r := by
            obtain ⟨happ, hshape⟩ := matchConstOpen_spec hu
            have hmm : ∃ mm, m = mm ++ ['('] := by
              unfold openerShape at hshape
              split at hshape
              · rename_i tail
                obtain ⟨w, hw, -⟩ := wsParen_split hshape
                exact ⟨'c' :: 'o' :: 'n' :: 's' :: 't' :: w, by rw [hw]; simp⟩
              · simp at hshape
            obtain ⟨mm, hmm⟩ := hmm
            rw [← happ, hmm,
              show (mm ++ ['(']) ++ r = mm ++ ('(' :: r) from by simp,
              pwAfter_append]
            rw [show pwAfter (pwAfter false mm) ('(' :: r) =
              pwAfter (isWordChar '(') r from rfl]
            rw [show isWordChar '(' = false from by decide]
          rw [hpwa]
          simp

/-- Lines in which every `c` is directly followed by a character other than `o`
cannot take part in any `\bconst\s*\(` match: the scan copies them verbatim. -/
def cSafe : List Char → Bool
  | [] => true
  | c :: r =>
    (if c = 'c' then
      match r with
      | [] => false
      | d :: _ => !(d = 'o')
    else true) && cSafe r

theorem ccAux_copy : ∀ (X : List Char) (q : Bool) (z : List Char), cSafe X = true →
    ccAux q (X ++ z) = X ++ ccAux (pwAfter q X) z := by
  intro X
  induction X with
  | nil => intro q z _; simp [pwAfter]
  | cons c X' ih =>
    intro q z h
    simp only [cSafe, Bool.and_eq_true] at h
    obtain ⟨hc, hX'⟩ := h
    simp only [List.cons_append]
    by_cases hq : q = true
    · subst hq
      rw [ccAux_cons_true, ih (isWordChar c) z hX']
      simp [pwAfter]
    · have hq' : q = false := by revert hq; cases q <;> simp
      subst hq'
      have hnone : matchConstOpen (c :: (X' ++ z)) = none := by
        by_cases hcc : c = 'c'
        · subst hcc
          rw [if_pos rfl] at hc
          cases X' with
          | nil => simp at hc
          | cons d X'' =>
            have hd : ¬(d = 'o') := by simpa using hc
            simp only [List.cons_append]
            exact matchConstOpen_not_o _ hd
        · exact matchConstOpen_not_c _ hcc
      rw [ccAux_cons_false_none hnone, ih (isWordChar c) z hX']
      simp [pwAfter]

theorem ccAux_newline_cons (q : Bool) (Y : List Char) :
    ccAux q ('\n' :: Y) = '\n' :: ccAux false Y := by
  cases q with
  | true => rw [ccAux_cons_true, show isWordChar '\n' = false from by decide]
  | false =>
    rw [ccAux_cons_false_none (matchConstOpen_not_c _ (by decide)),
      show isWordChar '\n' = false from by decide]

/-- The const-to-var scan around a safe standalone line: the line and its two
bounding newlines pass through verbatim, and the scan acts independently on the
text before and after. -/
theorem ccAux_around_line (A L B : List Char) (hsafe : cSafe L = true)
    (hstop : mopStop (L ++ '\n' :: B) = true) :
    ccAux false (A ++ '\n' :: (L ++ '\n' :: B)) =
      ccAux false A ++ '\n' :: (L ++ '\n' :: ccAux false B) := by
  have hS : mopStop ('\n' :: (L ++ '\n' :: B)) = true := by
    simp only [mopStop]
    rw [if_neg (show ¬('\n' = '(') from by decide),
      if_pos (show isPySpace '\n' = true from by decide)]
    exact hstop
  rw [ccAux_stop_split (A.length) A false _ (le_refl _) hS ⟨_, rfl⟩]
  congr 1
  rw [ccAux_newline_cons]
  congr 1
  rw [ccAux_copy L false ('\n' :: B) hsafe]
  congr 1
  rw [ccAux_newline_cons]

theorem mopStop_importLine (z : List Char) : mopStop (importLineTok ++ z) = true := by
  have he : importLineTok = 'i' :: "mport \"govel/packages/support/src/symbol\"".data := by
    decide
  rw [he]
  simp only [List.cons_append, mopStop]
  rw [if_neg (show ¬('i' = '(') from by decide),
    if_neg (show ¬(isPySpace 'i' = true) from by decide)]

theorem mopStop_symEntry (z : List Char) : mopStop (symEntryTok ++ z) = true := by
  have he : symEntryTok = '\t' :: '"' :: "govel/packages/support/src/symbol\"".data := by
    decide
  rw [he]
  simp only [List.cons_append, mopStop]
  rw [if_neg (show ¬('\t' = '(') from by decide),
    if_pos (show isPySpace '\t' = true from by decide),
    if_neg (show ¬('"' = '(') from by decide),
    if_neg (show ¬(isPySpace '"' = true) from by decide)]

theorem importPath_isPrefixOf_cons {d : Char} (w : List Char) (hd : ¬(d = '"')) :
    importPathTok.isPrefixOf (d :: w) = false := by
  cases hb : importPathTok.isPrefixOf (d :: w) with
  | false => rfl
  | true =>
    obtain ⟨t, ht⟩ := isPrefixOf_iff_exists.mp hb
    have he : importPathTok = '"' :: "govel/packages/support/src/symbol\"".data := by decide
    rw [he] at ht
    simp only [List.cons_append, List.cons.injEq] at ht
    exact absurd ht.1 hd

theorem countOccs_append_tail_zero {pat : List Char} : ∀ (x z : List Char),
    countOccs pat (x ++ z) = 0 → countOccs pat z = 0 := by
  intro x
  induction x with
  | nil => intro z h; simpa using h
  | cons c x' ih =>
    intro z h
    simp only [List.cons_append, countOccs, List.append_eq] at h
    apply ih z
    by_cases hb : pat.isPrefixOf (c :: (x' ++ z)) = true
    · rw [if_pos hb] at h; omega
    · rw [if_neg hb] at h; omega

theorem countOccs_skip_no_quote : ∀ (x z : List Char), (∀ d ∈ x, ¬(d = '"')) →
    countOccs importPathTok (x ++ z) = countOccs importPathTok z := by
  intro x
  induction x with
  | nil => intro z _; simp
  | cons c x' ih =>
    intro z h
    simp only [List.cons_append, countOccs, List.append_eq]
    rw [ih z (fun d hd => h d (by simp [hd]))]
    have hpre := importPath_isPrefixOf_cons (x' ++ z) (h c (by simp))
    simp [hpre]

theorem importPath_suffix_chars {p' : List Char} (h : p' <:+ importPathTok) :
    ∀ d ∈ p', isPySpace d = false ∧ isCapU d = false := by
  intro d hd
  have hmem : d ∈ importPathTok := h.subset hd
  have hall : importPathTok.all (fun x => !(isPySpace x) && !(isCapU x)) = true := by decide
  have h2 := List.all_eq_true.mp hall d hmem
  simp only [Bool.and_eq_true, Bool.not_eq_true'] at h2
  exact h2

theorem importPath_no_va : ∀ q ∈ importPathTok.tails,
    ¬(q.take 2 = ['v', 'a']) ∧ ¬(q = ['v']) := by decide

/-- Reading back through the const-to-var scan: a suffix of the import path that
prefixes the scan's output also prefixes its input.  (The replacement text `var (`
diverges from every suffix of the path within its first two characters.) -/
theorem isPrefixOf_ccAux : ∀ (n : Nat) (s : List Char), s.length ≤ n →
    ∀ (p' : List Char) (pw : Bool), p' <:+ importPathTok →
    p'.isPrefixOf (ccAux pw s) = true → p'.isPrefixOf s = true := by
  intro n
  induction n with
  | zero =>
    intro s hl p' pw _ h
    have he : s = [] := List.length_eq_zero.mp (by omega)
    subst he
    rwa [ccAux_nil] at h
  | succ n ih =>
    intro s hl p' pw hsuf h
    cases p' with
    | nil => simp [List.isPrefixOf]
    | cons d p'' =>
      cases s with
      | nil =>
        rw [ccAux_nil] at h
        simp [List.isPrefixOf] at h
      | cons c rest =>
        simp only [List.length_cons] at hl
        have hsuf'' : p'' <:+ importPathTok := (List.suffix_cons d p'').trans hsuf
        by_cases hpw : pw = true
        · subst hpw
          rw [ccAux_cons_true] at h
          simp only [List.isPrefixOf, Bool.and_eq_true] at h ⊢
          exact ⟨h.1, ih rest (by omega) p'' (isWordChar c) hsuf'' h.2⟩
        · have hpw' : pw = false := by revert hpw; cases pw <;> simp
          subst hpw'
          cases hm : matchConstOpen (c :: rest) with
          | none =>
            rw [ccAux_cons_false_none hm] at h
            simp only [List.isPrefixOf, Bool.and_eq_true] at h ⊢
            exact ⟨h.1, ih rest (by omega) p'' (isWordChar c) hsuf'' h.2⟩
          | some p =>
            obtain ⟨m, r⟩ := p
            rw [ccAux_cons_false_some hm] at h
            simp only [List.isPrefixOf, Bool.and_eq_true, beq_iff_eq] at h
            obtain ⟨hd, h2⟩ := h
            subst hd
            cases p'' with
            | nil =>
              have hmem := (List.mem_tails _ _).mpr hsuf
              exact absurd rfl (importPath_no_va _ hmem).2
            | cons e p''' =>
              simp only [List.isPrefixOf, Bool.and_eq_true, beq_iff_eq] at h2
              obtain ⟨he, -⟩ := h2
              subst he
              have hmem := (List.mem_tails _ _).mpr hsuf
              exact absurd rfl (importPath_no_va _ hmem).1

/-- The const-to-var conversion cannot create an occurrence of the import path. -/
theorem countOccs_ccAux_zero : ∀ (n : Nat) (s : List Char) (pw : Bool), s.length ≤ n →
    countOccs importPathTok s = 0 → countOccs importPathTok (ccAux pw s) = 0 := by
  intro n
  induction n with
  | zero =>
    intro s pw hl h
    have he : s = [] := List.length_eq_zero.mp (by omega)
    subst he
    rwa [ccAux_nil]
  | succ n ih =>
    intro s pw hl h
    cases s with
    | nil => rwa [ccAux_nil]
    | cons c rest =>
      simp only [List.length_cons] at hl
      have htail : countOccs importPathTok rest = 0 := by
        simp only [countOccs] at h
        omega
      have hcopy : countOccs importPathTok (c :: ccAux (isWordChar c) rest) = 0 := by
        simp only [countOccs]
        have htest : importPathTok.isPrefixOf (c :: ccAux (isWordChar c) rest) = false := by
          cases hb : importPathTok.isPrefixOf (c :: ccAux (isWordChar c) rest) with
          | false => rfl
          | true =>
            have hb' : importPathTok.isPrefixOf (ccAux true (c :: rest)) = true := by
              rw [ccAux_cons_true]
              exact hb
            have hin := isPrefixOf_ccAux (rest.length + 1) (c :: rest) (le_refl _)
              importPathTok true (List.suffix_refl _) hb'
            simp only [countOccs, hin, if_true] at h
            omega
        rw [htest]
        simp only [Bool.false_eq_true, if_false]
        have hz := ih rest (isWordChar c) (by omega) htail
        omega
      by_cases hpw : pw = true
      · subst hpw
        rw [ccAux_cons_true]
        exact hcopy
      · have hpw' : pw = false := by revert hpw; cases pw <;> simp
        subst hpw'
        cases hm : matchConstOpen (c :: rest) with
        | none =>
          rw [ccAux_cons_false_none hm]
          exact hcopy
        | some p =>
          obtain ⟨m, r⟩ := p
          rw [ccAux_cons_false_some hm]
          have hre : ('v' :: 'a' :: 'r' :: ' ' :: '(' :: ccAux false r) =
              ['v', 'a', 'r', ' ', '('] ++ ccAux false r := rfl
          rw [hre, countOccs_skip_no_quote _ _ (by decide)]
          have hr0 : countOccs importPathTok r = 0 := by
            obtain ⟨happ, -⟩ := matchConstOpen_spec hm
            have hmr : countOccs importPathTok (m ++ r) = 0 := by
              rw [happ]
              exact h
            exact countOccs_append_tail_zero m r hmr
          have hrlen := matchConstOpen_length hm
          simp only [List.length_cons] at hrlen
          exact ih r false (by omega) hr0

theorem countOccs_cons_of_not_pref {x : Char} {X : List Char}
    (h : importPathTok.isPrefixOf (x :: X) = false) :
    countOccs importPathTok (x :: X) = countOccs importPathTok X := by
  rw [show countOccs importPathTok (x :: X) =
    (if importPathTok.isPrefixOf (x :: X) = true then 1 else 0) +
      countOccs importPathTok X from rfl, h]
  simp

theorem importPath_not_prefix_goveldot (w : List Char) :
    importPathTok.isPrefixOf ('"' :: 'g' :: 'o' :: 'v' :: 'e' :: 'l' :: '.' :: w) = false := by
  cases hb : importPathTok.isPrefixOf ('"' :: 'g' :: 'o' :: 'v' :: 'e' :: 'l' :: '.' :: w) with
  | false => rfl
  | true =>
    obtain ⟨t, ht⟩ := isPrefixOf_iff_exists.mp hb
    have he : importPathTok = '"' :: 'g' :: 'o' :: 'v' :: 'e' :: 'l' :: '/' ::
        "packages/support/src/symbol\"".data := by decide
    rw [he] at ht
    simp only [List.cons_append, List.cons.injEq] at ht
    exact absurd ht.2.2.2.2.2.2.1 (by decide)

theorem importPath_not_prefix_quoteparen (w : List Char) :
    importPathTok.isPrefixOf ('"' :: ')' :: w) = false := by
  cases hb : importPathTok.isPrefixOf ('"' :: ')' :: w) with
  | false => rfl
  | true =>
    obtain ⟨t, ht⟩ := isPrefixOf_iff_exists.mp hb
    have he : importPathTok = '"' :: 'g' ::
        "ovel/packages/support/src/symbol\"".data := by decide
    rw [he] at ht
    simp only [List.cons_append, List.cons.injEq] at ht
    exact absurd ht.2.1 (by decide)

/-- Reading back through the literal rewriter: a suffix of the import path that
prefixes the rewriter's output also prefixes its input.  (A rewritten span starts
with preserved whitespace or a capital identifier character, and the path contains
neither.) -/
theorem isPrefixOf_csSubAux : ∀ (n : Nat) (s : List Char), s.length ≤ n →
    ∀ (p' : List Char), p' <:+ importPathTok →
    p'.isPrefixOf (csSubAux s) = true → p'.isPrefixOf s = true := by
  intro n
  induction n with
  | zero =>
    intro s hl p' _ h
    have he : s = [] := List.length_eq_zero.mp (by omega)
    subst he
    rwa [csSubAux_nil] at h
  | succ n ih =>
    intro s hl p' hsuf h
    cases p' with
    | nil => simp [List.isPrefixOf]
    | cons d p'' =>
      cases s with
      | nil =>
        rw [csSubAux_nil] at h
        simp [List.isPrefixOf] at h
      | cons c rest =>
        simp only [List.length_cons] at hl
        cases hpa : parseAssign (c :: rest) with
        | none =>
          rw [csSubAux_of_none hpa] at h
          simp only [List.isPrefixOf, Bool.and_eq_true] at h ⊢
          exact ⟨h.1, ih rest (by omega) p'' ((List.suffix_cons d p'').trans hsuf) h.2⟩
        | some q =>
          obtain ⟨ind, nm, v, a⟩ := q
          obtain ⟨d0, z0, hdz, hd0⟩ := csSubAux_head_parse hpa
          rw [hdz] at h
          simp only [List.isPrefixOf, Bool.and_eq_true, beq_iff_eq] at h
          obtain ⟨hd, -⟩ := h
          subst hd
          obtain ⟨hws, hcap⟩ := importPath_suffix_chars hsuf d (by simp)
          rcases hd0 with h0 | h0
          · rw [h0] at hws
            exact absurd hws (by simp)
          · rw [h0] at hcap
            exact absurd hcap (by simp)

/-- The literal rewriter cannot create an occurrence of the import path on a line
that has none. -/
theorem countOccs_csSubAux_zero : ∀ (n : Nat) (s : List Char), s.length ≤ n →
    countOccs importPathTok s = 0 → countOccs importPathTok (csSubAux s) = 0 := by
  intro n
  induction n with
  | zero =>
    intro s hl h
    have he : s = [] := List.length_eq_zero.mp (by omega)
    subst he
    rwa [csSubAux_nil]
  | succ n ih =>
    intro s hl h
    cases s with
    | nil => rwa [csSubAux_nil]
    | cons c rest =>
      simp only [List.length_cons] at hl
      cases hpa : parseAssign (c :: rest) with
      | none =>
        rw [csSubAux_of_none hpa]
        have htail : countOccs importPathTok rest = 0 := by
          simp only [countOccs] at h
          by_cases hb : importPathTok.isPrefixOf (c :: rest) = true
          · rw [if_pos hb] at h; omega
          · rw [if_neg hb] at h; omega
        simp only [countOccs]
        have htest : importPathTok.isPrefixOf (c :: csSubAux rest) = false := by
          cases hb : importPathTok.isPrefixOf (c :: csSubAux rest) with
          | false => rfl
          | true =>
            have hb' : importPathTok.isPrefixOf (csSubAux (c :: rest)) = true := by
              rw [csSubAux_of_none hpa]
              exact hb
            have hin := isPrefixOf_csSubAux (rest.length + 1) (c :: rest) (le_refl _)
              importPathTok (List.suffix_refl _) hb'
            simp only [countOccs, hin, if_true] at h
            omega
        rw [htest]
        simp only [Bool.false_eq_true, if_false]
        have hz := ih rest (by omega) htail
        omega
      | some q =>
        obtain ⟨ind, nm, v, a⟩ := q
        obtain ⟨w1, w2, val, hv, hs, hindws, hnmne, hnmcap, hw1, hw2, hvalne, hvalq⟩ :=
          parseAssign_spec hpa
        have hlen := parseAssign_length hpa
        simp only [List.length_cons] at hlen
        have ha0 : countOccs importPathTok a = 0 := by
          have hsx : (c :: rest) =
              (ind ++ (nm ++ (w1 ++ ('=' :: (w2 ++ ('"' :: ('g' :: 'o' :: 'v' :: 'e' :: 'l' ::
                '.' :: (val ++ ['"'])))))))) ++ a := by
            rw [hs]
            simp [List.append_assoc]
          rw [hsx] at h
          exact countOccs_append_tail_zero _ a h
        rw [csSubAux_of_parse hpa]
        have hf1 : (" = symbol.For(\"".data : List Char) = " = symbol.For(".data ++ ['"'] := by
          decide
        have hf2 : ("\")".data : List Char) = '"' :: [')'] := by decide
        have hout : ind ++ nm ++ " = symbol.For(\"".data ++ v ++ "\")".data ++ csSubAux a =
            (ind ++ nm ++ " = symbol.For(".data) ++
              ('"' :: 'g' :: 'o' :: 'v' :: 'e' :: 'l' :: '.' ::
                (val ++ ('"' :: (')' :: csSubAux a)))) := by
          rw [hv, hf1, hf2]
          simp [List.append_assoc]
        rw [hout]
        rw [countOccs_skip_no_quote _ _ ?hP]
        case hP =>
          intro d hd
          simp only [List.mem_append] at hd
          rcases hd with (hd | hd) | hd
          · have hws := hindws d hd
            intro hc; subst hc; exact absurd hws (by decide)
          · have hcap := hnmcap d hd
            intro hc; subst hc; exact absurd hcap (by decide)
          · revert hd
            have hfix : ∀ y ∈ (" = symbol.For(".data : List Char), ¬(y = '"') := by decide
            exact hfix d
        rw [countOccs_cons_of_not_pref (importPath_not_prefix_goveldot _)]
        have hskip2 : countOccs importPathTok
            ('g' :: 'o' :: 'v' :: 'e' :: 'l' :: '.' :: (val ++ ('"' :: (')' :: csSubAux a)))) =
            countOccs importPathTok ('"' :: (')' :: csSubAux a)) := by
          have hre : 'g' :: 'o' :: 'v' :: 'e' :: 'l' :: '.' ::
              (val ++ ('"' :: (')' :: csSubAux a))) =
              (('g' :: 'o' :: 'v' :: 'e' :: 'l' :: '.' :: val) ++ ('"' :: (')' :: csSubAux a))) := by
            simp
          rw [hre]
          apply countOccs_skip_no_quote
          intro d hd
          simp only [List.mem_cons] at hd
          rcases hd with hd | hd | hd | hd | hd | hd | hd
          · subst hd; decide
          · subst hd; decide
          · subst hd; decide
          · subst hd; decide
          · subst hd; decide
          · subst hd; decide
          · exact hvalq d hd
        rw [hskip2]
        rw [countOccs_cons_of_not_pref (importPath_not_prefix_quoteparen _)]
        rw [countOccs_cons_of_not_pref (importPath_isPrefixOf_cons _ (by decide))]
        exact ih a (by omega) ha0

theorem countOccs_csLine_zero (l : List Char) (h : countOccs importPathTok l = 0) :
    countOccs importPathTok (csLine l) = 0 := by
  unfold csLine
  split
  · exact countOccs_csSubAux_zero l.length l (le_refl _) h
  · exact h

theorem countOccs_lines_zero {y : List Char} (h : countOccs importPathTok y = 0) :
    ∀ l ∈ splitNL y, countOccs importPathTok l = 0 := by
  have hj : countOccs importPathTok (joinNL (splitNL y)) = 0 := by
    rw [joinNL_splitNL]
    exact h
  rw [countOccs_joinNL (by decide) (by decide)] at hj
  intro l hl
  exact List.sum_eq_zero_iff.mp hj _ (List.mem_map_of_mem _ hl)

/-- The literal rewriter over text holding the path on a standalone fixed line and
nowhere else leaves exactly one occurrence. -/
theorem countOccs_cs_around (CA L CB : List Char)
    (hL : L = importLineTok ∨ L = symEntryTok)
    (hA : countOccs importPathTok CA = 0) (hB : countOccs importPathTok CB = 0) :
    countOccs importPathTok
      (convert_string_to_symbol (CA ++ '\n' :: (L ++ '\n' :: CB))) = 1 := by
  have hnlL : '\n' ∉ L := by
    rcases hL with h | h <;> subst h <;> decide
  have hid : csLine L = L := by
    apply csLine_id_of_guard
    right
    rcases hL with h | h <;> subst h <;> decide
  have hcnt : countOccs importPathTok L = 1 := by
    rcases hL with h | h <;> subst h <;> decide
  unfold convert_string_to_symbol
  rw [splitNL_append_mid, splitNL_append_newline hnlL]
  rw [List.map_append, List.map_cons, hid]
  rw [countOccs_joinNL (by decide) (by decide)]
  rw [List.map_append, List.map_cons, List.sum_append, List.sum_cons]
  have hS1 : (((splitNL CA).map csLine).map (countOccs importPathTok)).sum = 0 := by
    apply List.sum_eq_zero
    intro v hv
    obtain ⟨y, hy, hfy⟩ := List.mem_map.mp hv
    obtain ⟨y0, hy0, hfy0⟩ := List.mem_map.mp hy
    rw [← hfy, ← hfy0]
    exact countOccs_csLine_zero y0 (countOccs_lines_zero hA y0 hy0)
  have hS2 : (((splitNL CB).map csLine).map (countOccs importPathTok)).sum = 0 := by
    apply List.sum_eq_zero
    intro v hv
    obtain ⟨y, hy, hfy⟩ := List.mem_map.mp hv
    obtain ⟨y0, hy0, hfy0⟩ := List.mem_map.mp hy
    rw [← hfy, ← hfy0]
    exact countOccs_csLine_zero y0 (countOccs_lines_zero hB y0 hy0)
  rw [hS1, hS2, hcnt]
  omega

/-- Final-output form of the import-presence property: when the file lacks the path
and the import stage modifies the text, the whole transform's output holds the path
exactly once — the later stages can neither touch the inserted line nor create a new
occurrence. -/
theorem add_symbol_import_final_count (c t : List Char)
    (hno : has_symbol_import c = false)
    (hok : add_symbol_import c = Except.ok t) (hne : t ≠ c) :
    countOccs importPathTok (applyTransform c) = 1 := by
  obtain ⟨pre, post, L, hL, hpre, hpost, ht, hpre0, hpost0⟩ :=
    add_symbol_import_struct c t hno hok hne
  have hstage : importStageE c = Except.ok t := by
    simp [importStageE, hno, hok]
  have happ : applyTransform c = convert_string_to_symbol (convert_const_to_var t) := by
    simp [applyTransform, transformContent, hstage]
  rw [happ]
  have htA : t = joinNL pre ++ '\n' :: (L ++ '\n' :: joinNL post) := by
    rw [ht, joinNL_append_mid pre L post hpre hpost]
  have hA0 : countOccs importPathTok (joinNL pre) = 0 := by
    rw [countOccs_joinNL (by decide) (by decide)]
    exact List.sum_eq_zero (fun v hv => by
      obtain ⟨y, hy, hfy⟩ := List.mem_map.mp hv
      rw [← hfy]
      exact hpre0 y hy)
  have hB0 : countOccs importPathTok (joinNL post) = 0 := by
    rw [countOccs_joinNL (by decide) (by decide)]
    exact List.sum_eq_zero (fun v hv => by
      obtain ⟨y, hy, hfy⟩ := List.mem_map.mp hv
      rw [← hfy]
      exact hpost0 y hy)
  have hsafe : cSafe L = true := by
    rcases hL with h | h <;> subst h <;> decide
  have hstop : mopStop (L ++ '\n' :: joinNL post) = true := by
    rcases hL with h | h <;> subst h
    · exact mopStop_importLine _
    · exact mopStop_symEntry _
  have hcc : convert_const_to_var t =
      ccAux false (joinNL pre) ++ '\n' :: (L ++ '\n' :: ccAux false (joinNL post)) := by
    unfold convert_const_to_var
    rw [htA]
    exact ccAux_around_line _ _ _ hsafe hstop
  rw [hcc]
  exact countOccs_cs_around _ L _ hL
    (countOccs_ccAux_zero (joinNL pre).length _ false (le_refl _) hA0)
    (countOccs_ccAux_zero (joinNL post).length _ false (le_refl _) hB0)

/-- C3 (amended): for every input file lacking the target import path, whenever
the import stage modifies the text (its three insert branches: no imports, single
form, grouped import with a closing line), the path occurs exactly once in the
whole transform's final output; and for every file already containing the path
the import stage returns the text unchanged.  (The original claim fails when the
grouped import block is never closed — nothing is inserted — and the later literal
rewrite can destroy a pre-existing occurrence that overlaps an eligible literal.) -/
theorem c3_import_count_amended :
    (∀ c t : List Char, has_symbol_import c = false → add_symbol_import c = Except.ok t →
      t ≠ c → countOccs importPathTok (applyTransform c) = 1) ∧
    (∀ c : List Char, has_symbol_import c = true → importStageE c = Except.ok c) := by
  constructor
  · exact fun c t => add_symbol_import_final_count c t
  · intro c h
    simp [importStageE, h]

/-- Witness for C3: a file with no imports ends the whole transform with the path
present exactly once. -/
theorem c3_import_count_amended_witness :
    countOccs importPathTok (applyTransform "package p\nX".data) = 1 :=
  c3_import_count_amended.1 "package p\nX".data
    "package p\n\nimport \"govel/packages/support/src/symbol\"\n\nX".data
    (by decide) (by rfl) (by decide)

/-! Claim C1 (corrected). -/

/-- C1 counterexample: the whole-file transform is not idempotent.  In the file
`package p\nX = "govel.a"govel/packages/support/src/symbol"` the import path is
present (so the first run skips the import stage), but the literal rewrite consumes
the quote that started the path occurrence; the second run therefore no longer finds
the path, inserts a fresh import block, and reports an update. -/
theorem c1_counterexample :
    applyTransform (applyTransform
        "package p\nX = \"govel.a\"govel/packages/support/src/symbol\"".data) ≠
      applyTransform "package p\nX = \"govel.a\"govel/packages/support/src/symbol\"".data ∧
    (update_tokens_file "tokens.go".data (applyTransform
        "package p\nX = \"govel.a\"govel/packages/support/src/symbol\"".data)).2.1 = true :=
  ⟨by decide, by decide⟩

/-- C1 (amended): the transform is idempotent on every file whose once-transformed
text still contains the import path, and a second run over such a file reports no
update.  (The counterexample shows idempotence fails exactly when the first run
destroys the only occurrence of the import path, flipping the substring test that
gates the import stage on the second run.) -/
theorem c1_idempotent_amended (c : List Char)
    (h1 : has_symbol_import (applyTransform c) = true) :
    applyTransform (applyTransform c) = applyTransform c ∧
      ∀ p, (update_tokens_file p (applyTransform c)).2.1 = false := by
  cases ht : transformContent c with
  | error e =>
    have hat : applyTransform c = c := by simp [applyTransform, ht]
    rw [hat] at h1 ⊢
    have hno : has_symbol_import c = false := by
      by_contra hc
      simp only [Bool.not_eq_false] at hc
      simp [transformContent, importStageE, hc] at ht
    rw [hno] at h1
    exact absurd h1 (by simp)
  | ok t =>
    have hat : applyTransform c = t := by simp [applyTransform, ht]
    rw [hat] at h1 ⊢
    obtain ⟨c1, hc1⟩ : ∃ c1, importStageE c = Except.ok c1 ∧
        t = convert_string_to_symbol (convert_const_to_var c1) := by
      unfold transformContent at ht
      cases hs : importStageE c with
      | error e => rw [hs] at ht; simp at ht
      | ok c1 =>
        rw [hs] at ht
        simp only [Except.ok.injEq] at ht
        exact ⟨c1, rfl, ht.symm⟩
    obtain ⟨-, htc1⟩ := hc1
    have h2 : ccCount false t = 0 := by
      rw [htc1]
      apply convert_string_to_symbol_ccCount
      unfold convert_const_to_var
      exact ccCount_ccAux_zero c1.length false c1 (le_refl _)
    have hstage : importStageE t = Except.ok t := by simp [importStageE, h1]
    have hcc : convert_const_to_var t = t :=
      ccAux_id_of_count_zero t.length false t (le_refl _) h2
    have htrans : transformContent t = Except.ok t := by
      unfold transformContent
      rw [hstage]
      simp only [Except.ok.injEq]
      rw [hcc, htc1, convert_string_to_symbol_idem]
    refine ⟨?_, ?_⟩
    · simp [applyTransform, htrans]
    · intro p
      simp [update_tokens_file, htrans]

/-- Witness for C1 at the spec's example file: the transformed form is stable and
a second run reports it unchanged. -/
theorem c1_idempotent_amended_witness :
    applyTransform (applyTransform
        "package tokens\nconst (\n\tSTATUS_OK = \"govel.status.ok\"\n)".data) =
      applyTransform "package tokens\nconst (\n\tSTATUS_OK = \"govel.status.ok\"\n)".data ∧
    (update_tokens_file "tokens.go".data (applyTransform
        "package tokens\nconst (\n\tSTATUS_OK = \"govel.status.ok\"\n)".data)).2.1 = false :=
  ⟨(c1_idempotent_amended "package tokens\nconst (\n\tSTATUS_OK = \"govel.status.ok\"\n)".data
      (by decide)).1,
    (c1_idempotent_amended "package tokens\nconst (\n\tSTATUS_OK = \"govel.status.ok\"\n)".data
      (by decide)).2 "tokens.go".data⟩

end UpdateTokens
